import Mathlib

/-!
Verification development for the consensus-adjacent state core of a federated
ledger node: the nested ledger-state scope stack (`src/ledger/LedgerState.cpp`,
`src/ledger/LedgerStateEntry.cpp`) and the quorum tracker
(`src/herder/QuorumTracker.cpp`), shallowly embedded in Lean.
-/

namespace Stellar

/-! ## Basic data model (from `ledger/LedgerState.h` and the XDR types) -/

/-- Account identifier; models `AccountID` (opaque identity, only equality and a
linear order are used by the embedded code). -/
abbrev AccountID := Nat

/-- Asset; models `Asset` (opaque identity, only equality is used here). -/
abbrev Asset := Nat

/-- Node identity for the quorum tracker; models `NodeID`. -/
abbrev NodeID := Nat

/-- Price of an offer; models `Price` with `int32` numerator `n` and
denominator `d`. -/
structure Price where
  n : Int
  d : Int
deriving DecidableEq, Repr

/-- Offer payload; models the fields of `OfferEntry` used by the embedded
code (`sellerID`, `offerID`, `buying`, `selling`, `price`). `offerID` is an
`int64` in the source. -/
structure OfferEntry where
  sellerID : AccountID
  offerID : Int
  buying : Asset
  selling : Asset
  price : Price
deriving DecidableEq, Repr

/-- Account payload; models the fields of `AccountEntry` used by the embedded
code (`accountID`, `balance`, `inflationDest`). -/
structure AccountEntry where
  accountID : AccountID
  balance : Int
  inflationDest : Option AccountID
deriving DecidableEq, Repr

/-- Variant payload of a ledger entry; models `LedgerEntry::data`. Trustline
and data payloads are opaque to every claim, so only their key fields are kept
together with an opaque payload. -/
inductive EntryData
  | account (a : AccountEntry)
  | trustline (accountID : AccountID) (asset : Asset) (payload : Nat)
  | offer (o : OfferEntry)
  | dataEntry (accountID : AccountID) (dataName : Nat) (payload : Nat)
deriving DecidableEq, Repr

/-- Ledger entry; models `LedgerEntry` (payload plus
`lastModifiedLedgerSeq`). -/
structure LedgerEntry where
  lastModifiedLedgerSeq : Nat
  data : EntryData
deriving DecidableEq, Repr

/-- Entry type tag; models `LedgerEntryType`. -/
inductive EntryType
  | ACCOUNT | TRUSTLINE | OFFER | DATA
deriving DecidableEq, Repr

/-- Ledger key; models `LedgerKey`, the sum type
Account | TrustLine | Offer | Data with identity-determining fields. -/
inductive LedgerKey
  | account (accountID : AccountID)
  | trustline (accountID : AccountID) (asset : Asset)
  | offer (sellerID : AccountID) (offerID : Int)
  | dataKey (accountID : AccountID) (dataName : Nat)
deriving DecidableEq, Repr

/-- Type tag of a key; models `LedgerKey::type()`. -/
def LedgerKey.typeOf : LedgerKey → EntryType
  | .account _ => .ACCOUNT
  | .trustline _ _ => .TRUSTLINE
  | .offer _ _ => .OFFER
  | .dataKey _ _ => .DATA

/-- Type tag of an entry; models `LedgerEntry::data.type()`. -/
def EntryData.typeOf : EntryData → EntryType
  | .account _ => .ACCOUNT
  | .trustline _ _ _ => .TRUSTLINE
  | .offer _ => .OFFER
  | .dataEntry _ _ _ => .DATA

/-- Key of an entry; models `LedgerEntryKey` (`ledger/LedgerState.h`). -/
def LedgerEntryKey (e : LedgerEntry) : LedgerKey :=
  match e.data with
  | .account a => .account a.accountID
  | .trustline id asset _ => .trustline id asset
  | .offer o => .offer o.sellerID o.offerID
  | .dataEntry id name _ => .dataKey id name

/-- Offer payload of an entry; models `LedgerEntry::data.offer()`. On a
non-offer entry the source accessor throws; the claims only apply it to
offers, so a default payload stands in for the throw. -/
def LedgerEntry.offerData (e : LedgerEntry) : OfferEntry :=
  match e.data with
  | .offer o => o
  | _ => ⟨0, 0, 0, 0, ⟨0, 0⟩⟩

/-- Account payload of an entry; models `LedgerEntry::data.account()` with the
same convention as `LedgerEntry.offerData`. -/
def LedgerEntry.accountData (e : LedgerEntry) : AccountEntry :=
  match e.data with
  | .account a => a
  | _ => ⟨0, 0, none⟩

/-! ## IEEE binary64 division model

`isBetterOffer` (`ledger/LedgerState.cpp:23`) compares prices with
`double(n) / double(d)`.  For `int32` operands both conversions are exact and
the division rounds the exact rational to the nearest `double`
(round-to-nearest, ties-to-even, 53-bit significand; the operands keep the
result far away from overflow and subnormals).  The model computes the rounded
value as a mantissa/exponent pair using only `Nat` arithmetic. -/

/-- Fuel-driven floor of the base-2 logarithm (the fuel only has to dominate
the bit length of the argument). -/
def log2f : Nat → Nat → Nat
  | 0, _ => 0
  | fuel + 1, n => if n ≤ 1 then 0 else log2f fuel (n / 2) + 1

/-- Unique `e` with `2^e ≤ a/b < 2^(e+1)`, for `1 ≤ a` and `1 ≤ b < 2^32`:
computed as `log2 (a * 2^64 / b) - 64`. -/
def expFor (a b : Nat) : Int :=
  (log2f 128 (a * 2 ^ 64 / b) : Int) - 64

/-- Round `x / y` to the nearest integer, ties to even; models one IEEE
rounding step. -/
def rneNat (x y : Nat) : Nat :=
  let q := x / y
  let r := x % y
  if 2 * r < y then q
  else if y < 2 * r then q + 1
  else if q % 2 = 0 then q else q + 1

/-- Value-level round-to-nearest-ties-even: the integer nearest to `v`, ties
going to the even integer.  `rneNat x y` agrees with `rneVal (x / y)`; the
value-level form drives the order-theoretic proofs. -/
def rneVal (v : ℚ) : ℤ :=
  if v - ⌊v⌋ < 1 / 2 then ⌊v⌋
  else if 1 / 2 < v - ⌊v⌋ then ⌊v⌋ + 1
  else if ⌊v⌋ % 2 = 0 then ⌊v⌋ else ⌊v⌋ + 1

/-- Mantissa/exponent pair `(m, e)` of the correctly rounded quotient `a / b`:
the represented value is `m * 2^(e-52)` with `2^52 ≤ m ≤ 2^53`. -/
def roundMD (a b : Nat) : Nat × Int :=
  let e := expFor a b
  (rneNat (a * 2 ^ (52 - e).toNat) b, e)

/-- Renormalize a pair whose mantissa overflowed to `2^53` after rounding up,
so that mantissas lie in `[2^52, 2^53)` and the representation is unique. -/
def normMD (p : Nat × Int) : Nat × Int :=
  if p.1 = 2 ^ 53 then (2 ^ 52, p.2 + 1) else p

/-- Rational value represented by a mantissa/exponent pair. -/
def mdVal (p : Nat × Int) : ℚ :=
  (p.1 : ℚ) * 2 ^ (p.2 - 52)

/-- The `double` produced by `double(p.n) / double(p.d)` in
`isBetterOffer`, as a normalized mantissa/exponent pair (defined for the
positive prices that offers carry). -/
def priceDouble (p : Price) : Nat × Int :=
  normMD (roundMD p.n.toNat p.d.toNat)

/-- Strict comparison of two represented doubles (normalized pairs compare
lexicographically by exponent, then mantissa). -/
def mdLt (p q : Nat × Int) : Bool :=
  p.2 < q.2 || (p.2 = q.2 && p.1 < q.1)

/-- The exact rational value of a price. -/
def priceVal (p : Price) : ℚ :=
  (p.n : ℚ) / (p.d : ℚ)

/-- The best-offer comparison, from `isBetterOffer`
(`ledger/LedgerState.cpp:23-46`): compare the `double` quotients of the two
prices; on equal doubles compare `offerID`. -/
def isBetterOffer (lhsEntry rhsEntry : LedgerEntry) : Bool :=
  let lhs := lhsEntry.offerData
  let rhs := rhsEntry.offerData
  let lhsPrice := priceDouble lhs.price
  let rhsPrice := priceDouble rhs.price
  if mdLt lhsPrice rhsPrice then true
  else if lhsPrice = rhsPrice then decide (lhs.offerID < rhs.offerID)
  else false

/-- Validity range of a price actually stored in an offer: positive `int32`
numerator and denominator (the input range invariant guarding the price
comparison). -/
def PriceOk (p : Price) : Prop :=
  0 < p.n ∧ p.n < 2 ^ 31 ∧ 0 < p.d ∧ p.d < 2 ^ 31

instance (p : Price) : Decidable (PriceOk p) := by
  unfold PriceOk
  infer_instance

/-- Concrete offer whose price ratio `1249046611 / 2147483647` is distinct
from, but rounds to the same `double` as, the price ratio of
`collisionOfferB`; the two ratios differ by exactly `1 / (2147483647 *
2147483549)`, far below one unit in the last place of the common rounded
value. -/
def collisionOfferA : LedgerEntry :=
  ⟨0, .offer ⟨1, 1, 7, 8, ⟨1249046611, 2147483647⟩⟩⟩

/-- Companion offer of `collisionOfferA` with the strictly smaller exact
price ratio `1249046554 / 2147483549` and the larger offer id. -/
def collisionOfferB : LedgerEntry :=
  ⟨0, .offer ⟨2, 2, 7, 8, ⟨1249046554, 2147483549⟩⟩⟩

/-- Offer with price `1/3` used to exercise the price comparison at a
non-colliding input. -/
def sampleOfferA : LedgerEntry :=
  ⟨0, .offer ⟨1, 1, 7, 8, ⟨1, 3⟩⟩⟩

/-- Offer with price `1/2` used to exercise the price comparison at a
non-colliding input. -/
def sampleOfferB : LedgerEntry :=
  ⟨0, .offer ⟨2, 2, 7, 8, ⟨1, 2⟩⟩⟩

/-! ## Quorum tracker (from `herder/QuorumTracker.cpp`)

`SCPQuorumSet` is recursive in the source; `LocalNode::forAllNodes` enumerates
every validator appearing anywhere in it, and that flattened enumeration is
the only view the tracker uses, so a descriptor is embedded as the list of
node identities `forAllNodes` would visit.  The `shared_ptr` identity
comparison `mQSet == qSet` is embedded as value equality of descriptors. -/

/-- Quorum-set descriptor, flattened to the node enumeration of
`LocalNode::forAllNodes`. -/
structure SCPQuorumSet where
  nodes : List NodeID
deriving DecidableEq, Repr

/-- Per-node record of the tracker; models `QuorumTracker::NodeInfo`. -/
structure NodeInfo where
  mQSet : Option SCPQuorumSet
  mDistance : Nat
  mClosestQSetValidators : Finset NodeID
deriving DecidableEq

/-- The tracker map; models `QuorumTracker::QuorumMap`. -/
abbrev QuorumMap := NodeID → Option NodeInfo

/-- Update of the closest-validators set performed at the end of the
per-leaf lambda in `QuorumTracker::expand`: at distance 1 the leaf itself is
inserted; at greater distances the expanded node's set is merged in. -/
def updClosest (old : NodeInfo) (info : NodeInfo) (newDist : Nat)
    (lid : NodeID) : NodeInfo :=
  if newDist = 1 then
    { old with mClosestQSetValidators := insert lid old.mClosestQSetValidators }
  else
    { old with mClosestQSetValidators :=
        old.mClosestQSetValidators ∪ info.mClosestQSetValidators }

/-- One iteration of the per-leaf lambda of `QuorumTracker::expand`
(`herder/QuorumTracker.cpp:37-87`).  The state is the map paired with the
running `res` flag; once `res` is false the lambda returns immediately. -/
def expandLeaf (info : NodeInfo) (newDist : Nat)
    (st : QuorumMap × Bool) (lid : NodeID) : QuorumMap × Bool :=
  if st.2 = false then st
  else
    match st.1 lid with
    | none =>
        let upd := updClosest ⟨none, newDist, ∅⟩ info newDist lid
        (fun k => if k = lid then some upd else st.1 k, true)
    | some old =>
        if newDist < old.mDistance then
          if old.mQSet.isSome then (st.1, false)
          else
            let upd := updClosest ⟨old.mQSet, newDist, ∅⟩ info newDist lid
            (fun k => if k = lid then some upd else st.1 k, true)
        else if old.mDistance < newDist then st
        else
          let upd := updClosest old info newDist lid
          (fun k => if k = lid then some upd else st.1 k, true)

/-- `QuorumTracker::expand` (`herder/QuorumTracker.cpp:24-96`): returns the
updated map together with the `res` flag (acceptance). -/
def expand (m : QuorumMap) (id : NodeID) (q : SCPQuorumSet) : QuorumMap × Bool :=
  match m id with
  | none => (m, false)
  | some info =>
      match info.mQSet with
      | none =>
          let infoQ := { info with mQSet := some q }
          let m1 : QuorumMap := fun k => if k = id then some infoQ else m k
          q.nodes.foldl (expandLeaf infoQ (info.mDistance + 1)) (m1, true)
      | some q0 => (m, decide (q0 = q))

/-- Map state right after `QuorumTracker::rebuild` clears the map and inserts
the local node at distance 0 (`herder/QuorumTracker.cpp:103-110`). -/
def rebuildInit (localID : NodeID) : QuorumMap :=
  fun k => if k = localID then some ⟨none, 0, ∅⟩ else none

/-- Maps reachable from the rebuild seed by accepted `expand` calls. -/
inductive AcceptedReach (localID : NodeID) : QuorumMap → Prop
  | init : AcceptedReach localID (rebuildInit localID)
  | step (m : QuorumMap) (id : NodeID) (q : SCPQuorumSet) :
      AcceptedReach localID m → (expand m id q).2 = true →
      AcceptedReach localID (expand m id q).1

/-- The BFS-labelling invariant of the quorum map: the local node sits at
distance 0, and every node at distance `d > 0` has a predecessor at distance
`d - 1` whose descriptor is known and lists it. -/
def QTInv (localID : NodeID) (m : QuorumMap) : Prop :=
  (∃ infoL, m localID = some infoL ∧ infoL.mDistance = 0) ∧
  (∀ n info, m n = some info → 0 < info.mDistance →
    ∃ p pinfo q, m p = some pinfo ∧ pinfo.mDistance + 1 = info.mDistance ∧
      pinfo.mQSet = some q ∧ n ∈ q.nodes)

/-- The per-key effect of an accepted expansion with frontier distance
`newDist` over leaves `leaves`: an existing entry keeps its descriptor and
either keeps its distance or (when undiscovered, i.e. descriptor unknown) is
pulled in to `newDist`; a fresh entry is created at `newDist` with unknown
descriptor; entries are never removed. -/
def leafEffect (newDist : Nat) (leaves : List NodeID)
    (old new : Option NodeInfo) (k : NodeID) : Prop :=
  match old, new with
  | some o, some n =>
      n.mQSet = o.mQSet ∧
      (n.mDistance = o.mDistance ∨
        (o.mQSet = none ∧ n.mDistance = newDist ∧ newDist < o.mDistance ∧
          k ∈ leaves))
  | none, none => True
  | none, some n => n.mQSet = none ∧ n.mDistance = newDist ∧ k ∈ leaves
  | some _, none => False

/-- One dequeue step of the BFS loop of `QuorumTracker::rebuild`
(`herder/QuorumTracker.cpp:111-134`): pop the front node; if its descriptor
is unknown and the lookup yields one, enqueue the descriptor's nodes and run
`expand`.  The state is the backlog paired with the map. -/
inductive RebuildStep (lookup : NodeID → Option SCPQuorumSet) :
    List NodeID × QuorumMap → List NodeID × QuorumMap → Prop
  | skipMissing (n : NodeID) (rest : List NodeID) (m : QuorumMap) :
      m n = none → RebuildStep lookup (n :: rest, m) (rest, m)
  | skipKnown (n : NodeID) (rest : List NodeID) (m : QuorumMap)
      (info : NodeInfo) :
      m n = some info → info.mQSet.isSome →
      RebuildStep lookup (n :: rest, m) (rest, m)
  | skipNoQSet (n : NodeID) (rest : List NodeID) (m : QuorumMap)
      (info : NodeInfo) :
      m n = some info → info.mQSet = none → lookup n = none →
      RebuildStep lookup (n :: rest, m) (rest, m)
  | expandStep (n : NodeID) (rest : List NodeID) (m : QuorumMap)
      (info : NodeInfo) (q : SCPQuorumSet) :
      m n = some info → info.mQSet = none → lookup n = some q →
      RebuildStep lookup (n :: rest, m) (rest ++ q.nodes, (expand m n q).1)

/-- States of the rebuild loop reachable from the seed (backlog holding the
local node, map holding it at distance 0). -/
inductive RebuildReach (lookup : NodeID → Option SCPQuorumSet)
    (localID : NodeID) : List NodeID × QuorumMap → Prop
  | init : RebuildReach lookup localID ([localID], rebuildInit localID)
  | step (s t : List NodeID × QuorumMap) :
      RebuildReach lookup localID s → RebuildStep lookup s t →
      RebuildReach lookup localID t

/-- A node is pending when it is tracked, its descriptor is unknown, and the
rebuild lookup has a descriptor for it: exactly the nodes whose dequeue will
run `expand`. -/
def Pending (lookup : NodeID → Option SCPQuorumSet) (m : QuorumMap)
    (v : NodeID) : Prop :=
  ∃ info, m v = some info ∧ info.mQSet = none ∧ (lookup v).isSome

/-- The BFS level invariant of the rebuild loop: there is a current level `l`
such that tracked-and-expanded nodes sit at distance at most `l + 1`, pending
nodes sit at level `l` or `l + 1` and all appear in the backlog, and the
backlog splits into a front part whose pending members are exactly the
pending nodes at level `l` followed by a back part. -/
def RInv (lookup : NodeID → Option SCPQuorumSet)
    (s : List NodeID × QuorumMap) : Prop :=
  ∃ l : Nat, ∃ bl1 bl2 : List NodeID,
    s.1 = bl1 ++ bl2 ∧
    (∀ v ∈ s.1, s.2 v ≠ none) ∧
    (∀ v, Pending lookup s.2 v → v ∈ s.1) ∧
    (∀ u info, s.2 u = some info → info.mQSet ≠ none →
      info.mDistance ≤ l + 1) ∧
    (∀ v info, s.2 v = some info → info.mQSet = none → (lookup v).isSome →
      l ≤ info.mDistance ∧ info.mDistance ≤ l + 1) ∧
    (∀ v ∈ bl1, ∀ info, s.2 v = some info → info.mQSet = none →
      (lookup v).isSome → info.mDistance = l) ∧
    (∀ v info, s.2 v = some info → info.mQSet = none → (lookup v).isSome →
      info.mDistance = l → v ∈ bl1)

/-! ## Ledger scope state (from `ledger/LedgerState.cpp`)

`std::map<LedgerKey, std::shared_ptr<LedgerEntry>>` is embedded as an
association list of `LedgerKey × Option LedgerEntry`, where the inner `none`
is the null shared pointer marking an erased key (tombstone).  `operator[]`
assignment is `mapSet` (replace in place or append), `erase` is `mapDel`. -/

/-- Lookup in an association-list map; models `std::map::find`. -/
def mapGet {K V : Type} [DecidableEq K] : List (K × V) → K → Option V
  | [], _ => none
  | (k0, v0) :: t, k => if k0 = k then some v0 else mapGet t k

/-- Insert-or-assign in an association-list map; models `map[k] = v`. -/
def mapSet {K V : Type} [DecidableEq K] : List (K × V) → K → V → List (K × V)
  | [], k, v => [(k, v)]
  | (k0, v0) :: t, k, v =>
      if k0 = k then (k0, v) :: t else (k0, v0) :: mapSet t k v

/-- Key removal in an association-list map; models `map.erase(k)`. -/
def mapDel {K V : Type} [DecidableEq K] : List (K × V) → K → List (K × V)
  | [], _ => []
  | (k0, v0) :: t, k => if k0 = k then mapDel t k else (k0, v0) :: mapDel t k

/-- Scope entry map: ledger key to entry-or-tombstone. -/
abbrev EntryMap := List (LedgerKey × Option LedgerEntry)

/-- Ledger header; only `ledgerSeq` is inspected by the embedded code, the
rest of the header travels opaquely. -/
structure LedgerHeader where
  ledgerSeq : Nat
  rest : Nat
deriving DecidableEq, Repr

/-- Newest version of a key visible through a scope
(`LedgerState::Impl::getNewestVersion`): the scope's own record if present
(tombstone means gone), else the parent's view. -/
def getNewestVersion (parent : LedgerKey → Option LedgerEntry)
    (entries : EntryMap) (k : LedgerKey) : Option LedgerEntry :=
  match mapGet entries k with
  | some v => v
  | none => parent k

/-- The mutable state of `LedgerState::Impl`.  `mActive` holds the keys of
the registered entry handles, `mActiveHeader` whether a header handle is
live, `mChild` whether a child scope is attached. -/
structure ScopeState where
  mEntry : EntryMap
  mActive : Finset LedgerKey
  mActiveHeader : Bool
  mChild : Bool
  mHeader : LedgerHeader
  mShouldUpdateLastModified : Bool
  mIsSealed : Bool
deriving DecidableEq

/-- State of a freshly constructed scope (`LedgerState::Impl::Impl`): empty
working set, no handles, header copied from the parent. -/
def freshScope (h : LedgerHeader) (flag : Bool) : ScopeState :=
  ⟨[], ∅, false, false, h, flag, false⟩

/-- `LedgerState::Impl::create` (`ledger/LedgerState.cpp:226-244`): the key
must have no visible newest version; the entry is recorded and a handle is
registered. -/
def createOp (parent : LedgerKey → Option LedgerEntry) (s : ScopeState)
    (e : LedgerEntry) : Except String ScopeState :=
  if s.mIsSealed then .error "LedgerState is sealed"
  else if s.mChild then .error "LedgerState has child"
  else if (getNewestVersion parent s.mEntry (LedgerEntryKey e)).isSome then
    .error "Key already exists"
  else
    .ok { s with mEntry := mapSet s.mEntry (LedgerEntryKey e) (some e),
                 mActive := insert (LedgerEntryKey e) s.mActive }

/-- `LedgerState::Impl::erase` (`ledger/LedgerState.cpp:281-305`). -/
def eraseOp (parent : LedgerKey → Option LedgerEntry) (s : ScopeState)
    (k : LedgerKey) : Except String ScopeState :=
  if s.mIsSealed then .error "LedgerState is sealed"
  else if s.mChild then .error "LedgerState has child"
  else if (getNewestVersion parent s.mEntry k).isNone then
    .error "Key does not exist"
  else if k ∈ s.mActive then
    .error "Key is active"
  else if (parent k).isNone then
    .ok { s with mEntry := mapDel s.mEntry k }
  else
    .ok { s with mEntry := mapSet s.mEntry k none }

/-- `LedgerState::Impl::load` (`ledger/LedgerState.cpp:733-755`): returns the
updated scope and the handle's entry (`none` is the empty handle returned
when the key has no visible version; the scope is then untouched). -/
def loadOp (parent : LedgerKey → Option LedgerEntry) (s : ScopeState)
    (k : LedgerKey) : Except String (ScopeState × Option LedgerEntry) :=
  if s.mIsSealed then .error "LedgerState is sealed"
  else if s.mChild then .error "LedgerState has child"
  else if k ∈ s.mActive then
    .error "Key is active"
  else
    match getNewestVersion parent s.mEntry k with
    | none => .ok (s, none)
    | some newest =>
        .ok ({ s with mEntry := mapSet s.mEntry k (some newest),
                      mActive := insert k s.mActive }, some newest)

/-- `LedgerState::Impl::loadWithoutRecord` (`ledger/LedgerState.cpp:845-864`):
like `load` but the entry is not copied into the scope's working set. -/
def loadWithoutRecordOp (parent : LedgerKey → Option LedgerEntry)
    (s : ScopeState) (k : LedgerKey) :
    Except String (ScopeState × Option LedgerEntry) :=
  if s.mIsSealed then .error "LedgerState is sealed"
  else if s.mChild then .error "LedgerState has child"
  else if k ∈ s.mActive then
    .error "Key is active"
  else
    match getNewestVersion parent s.mEntry k with
    | none => .ok (s, none)
    | some newest => .ok ({ s with mActive := insert k s.mActive }, some newest)

/-- `LedgerState::Impl::loadHeader` (`ledger/LedgerState.cpp:800-812`). -/
def loadHeaderOp (s : ScopeState) : Except String ScopeState :=
  if s.mIsSealed then .error "LedgerState is sealed"
  else if s.mChild then .error "LedgerState has child"
  else if s.mActiveHeader then
    .error "LedgerStateHeader is active"
  else
    .ok { s with mActiveHeader := true }

/-- `LedgerState::Impl::addChild` (`ledger/LedgerState.cpp:140-149`):
attaching a child clears the handle registries wholesale. -/
def addChildOp (s : ScopeState) : Except String ScopeState :=
  if s.mIsSealed then .error "LedgerState is sealed"
  else if s.mChild then .error "LedgerState has child"
  else .ok { s with mChild := true, mActive := ∅, mActiveHeader := false }

/-- `LedgerState::Impl::sealAndMaybeUpdateLastModified`
(`ledger/LedgerState.cpp:923-943`), the common body of `getChanges`,
`getDelta`, `getLiveEntries`, `getDeadEntries` and `commit`: refuses with a
live child, otherwise seals, clears the handle registries, and (when
configured) stamps every live entry with the header's sequence number. -/
def stampEntries (seq : Nat) (E : EntryMap) : EntryMap :=
  E.map (fun p => (p.1, p.2.map (fun e => { e with lastModifiedLedgerSeq := seq })))

def sealOp (s : ScopeState) : Except String ScopeState :=
  if s.mChild then .error "LedgerState has child"
  else
  let newEntries := if s.mShouldUpdateLastModified then
      stampEntries s.mHeader.ledgerSeq s.mEntry
    else s.mEntry
  .ok { s with mIsSealed := true, mActive := ∅, mActiveHeader := false, mEntry := newEntries }

/-- `LedgerState::Impl::unsealHeader` (`ledger/LedgerState.cpp:905-921`):
legal only on a sealed scope with no live header handle; the caller-supplied
mutation runs under a transient header handle that deactivates itself when
the call returns. -/
def unsealHeaderOp (s : ScopeState) (f : LedgerHeader → LedgerHeader) :
    Except String ScopeState :=
  if ¬ s.mIsSealed then .error "LedgerState is not sealed"
  else if s.mActiveHeader then .error "LedgerStateHeader is active"
  else .ok { s with mHeader := f s.mHeader }

/-- `LedgerState::Impl::deactivate` (`ledger/LedgerState.cpp:252-261`). -/
def deactivateOp (s : ScopeState) (k : LedgerKey) :
    Except String ScopeState :=
  if k ∈ s.mActive then .ok { s with mActive := s.mActive.erase k }
  else .error "Key does not exist"

/-- `LedgerState::Impl::deactivateHeader`. -/
def deactivateHeaderOp (s : ScopeState) : Except String ScopeState :=
  .ok { s with mActiveHeader := false }

/-- The merge a scope performs on itself when its child commits
(`LedgerState::Impl::commitChild`, `ledger/LedgerState.cpp:192-218`):
entries overwrite, tombstones either delete keys the grandparent has never
seen or become tombstones here; the `parent` argument is this scope's own
parent view. -/
def commitMergeEntries (parent : LedgerKey → Option LedgerEntry)
    (pEntries : EntryMap) (centries : EntryMap) : EntryMap :=
  centries.foldl (fun acc kv =>
    match kv.2 with
    | some e => mapSet acc kv.1 (some e)
    | none =>
        if (parent kv.1).isNone then mapDel acc kv.1
        else mapSet acc kv.1 none) pEntries

/-- Effect of `commitChild` plus header adoption on the parent scope. -/
def childCommitOp (parent : LedgerKey → Option LedgerEntry) (s : ScopeState)
    (centries : EntryMap) (cheader : LedgerHeader) :
    Except String ScopeState :=
  if s.mChild then
    .ok { s with mEntry := commitMergeEntries parent s.mEntry centries, mHeader := cheader, mChild := false }
  else .error "LedgerState has no child"

/-- Effect of `rollbackChild` on the parent scope. -/
def childRollbackOp (s : ScopeState) : Except String ScopeState :=
  if s.mChild then .ok { s with mChild := false }
  else .error "LedgerState has no child"

/-- `LedgerState::Impl::rollback` (`ledger/LedgerState.cpp:873-885`): never
throws; handle registries are cleared before the parent drops the scope. -/
def rollbackOp (s : ScopeState) : ScopeState :=
  { s with mActive := ∅, mActiveHeader := false, mChild := false }

/-- The operations of the scope state machine. -/
inductive ScopeOp
  | create (e : LedgerEntry)
  | eraseKey (k : LedgerKey)
  | load (k : LedgerKey)
  | loadWithoutRecord (k : LedgerKey)
  | loadHeader
  | addChild
  | getChanges
  | getDelta
  | getLiveEntries
  | getDeadEntries
  | commit
  | unsealHeader (f : LedgerHeader → LedgerHeader)
  | deactivate (k : LedgerKey)
  | deactivateHeader
  | childCommit (centries : EntryMap) (cheader : LedgerHeader)
  | childRollback

/-- Whether the operation runs `sealAndMaybeUpdateLastModified`. -/
def ScopeOp.isSealing : ScopeOp → Bool
  | .getChanges | .getDelta | .getLiveEntries | .getDeadEntries | .commit =>
      true
  | _ => false

/-- One state transition of the scope, dispatching to the embedded methods;
`commit` additionally clears the handle registries after sealing
(`LedgerState::Impl::commit`). -/
def scopeStep (parent : LedgerKey → Option LedgerEntry) (s : ScopeState) :
    ScopeOp → Except String ScopeState
  | .create e => createOp parent s e
  | .eraseKey k => eraseOp parent s k
  | .load k =>
      match loadOp parent s k with
      | .error msg => .error msg
      | .ok p => .ok p.1
  | .loadWithoutRecord k =>
      match loadWithoutRecordOp parent s k with
      | .error msg => .error msg
      | .ok p => .ok p.1
  | .loadHeader => loadHeaderOp s
  | .addChild => addChildOp s
  | .getChanges | .getDelta | .getLiveEntries | .getDeadEntries => sealOp s
  | .commit =>
      match sealOp s with
      | .error msg => .error msg
      | .ok s2 => .ok { s2 with mActive := ∅, mActiveHeader := false }
  | .unsealHeader f => unsealHeaderOp s f
  | .deactivate k => deactivateOp s k
  | .deactivateHeader => deactivateHeaderOp s
  | .childCommit centries cheader => childCommitOp parent s centries cheader
  | .childRollback => childRollbackOp s

/-- Scope states reachable from a fresh scope by successful operations (a
throwing call leaves the C++ object unchanged: every check precedes every
mutation in the embedded methods). -/
inductive ScopeReach (parent : LedgerKey → Option LedgerEntry)
    (init : ScopeState) : ScopeState → Prop
  | refl : ScopeReach parent init init
  | step (s t : ScopeState) (op : ScopeOp) : ScopeReach parent init s →
      scopeStep parent s op = .ok t → ScopeReach parent init t

/-- Housekeeping invariant of a reachable scope: sealing and child
attachment imply empty handle registries, and every active key has a visible
newest version. -/
def ScopeInv (parent : LedgerKey → Option LedgerEntry) (s : ScopeState) :
    Prop :=
  (s.mIsSealed = true → s.mActive = ∅ ∧ s.mActiveHeader = false) ∧
  (s.mChild = true → s.mActive = ∅ ∧ s.mActiveHeader = false) ∧
  (∀ k ∈ s.mActive, (getNewestVersion parent s.mEntry k).isSome)

/-! ## The best-offer search (from `LedgerState::Impl::getBestOffer` and
`LedgerStateRoot::Impl::getBestOffer`) -/

/-- The pair check of the scope's local pass
(`ledger/LedgerState.cpp:362-363`): the entry's offer payload matches the
requested buying/selling assets. -/
def offerMatches (e : LedgerEntry) (b s : Asset) : Bool :=
  decide (e.offerData.buying = b) && decide (e.offerData.selling = s)

/-- One iteration of the scope-local loop of `LedgerState::Impl::getBestOffer`
(`ledger/LedgerState.cpp:348-373`): skip non-offer keys; insert the key into
`exclude`, skipping the entry when it was already there; skip tombstones and
pair mismatches; otherwise keep the better of the running best and the
entry. -/
def scopeBestStep (b s : Asset) (st : Option LedgerEntry × Finset LedgerKey)
    (kv : LedgerKey × Option LedgerEntry) :
    Option LedgerEntry × Finset LedgerKey :=
  if kv.1.typeOf ≠ EntryType.OFFER then st
  else if kv.1 ∈ st.2 then st
  else
    let excl := insert kv.1 st.2
    match kv.2 with
    | some e =>
        if offerMatches e b s then
          match st.1 with
          | none => (some e, excl)
          | some bst =>
              if isBetterOffer e bst then (some e, excl) else (some bst, excl)
        else (st.1, excl)
    | none => (st.1, excl)

/-- The scope-local pass of `getBestOffer`: fold the loop over the working
set, starting from no best offer and the caller's exclude set. -/
def scopeLocalBest (b s : Asset) (entries : EntryMap)
    (exclude : Finset LedgerKey) : Option LedgerEntry × Finset LedgerKey :=
  entries.foldl (scopeBestStep b s) (none, exclude)

/-- Modelled from the spec: `loadBestOffers(buying, selling, numOffers,
offset)` is only declared in this repository (`ledger/LedgerState.h:371`, SQL
implementation not present); per §4.D it returns the next `numOffers` offers
of the pair in the best-offer order starting at `offset`.  `sorted` stands
for the full ordered result set of the pair's offers-table query. -/
def loadBestOffers (sorted : List LedgerEntry) (numOffers offset : Nat) :
    List LedgerEntry :=
  (sorted.drop offset).take numOffers

/-- `BATCH_SIZE` (`ledger/LedgerState.cpp:1209`). -/
def BATCH_SIZE : Nat := 5

/-- The batch loop of `LedgerStateRoot::Impl::getBestOffer`
(`ledger/LedgerState.cpp:1210-1228`), fuel-driven: while the cache is not
fully loaded, load the next batch starting at the current list length,
record whether the store is exhausted, append, and return the first loaded
offer not in `exclude`. -/
def rootBestLoop (sorted : List LedgerEntry) (exclude : Finset LedgerKey) :
    Nat → List LedgerEntry → Bool → Option LedgerEntry
  | 0, _, _ => none
  | fuel + 1, offers, allLoaded =>
      if allLoaded then none
      else
        let newOffers := loadBestOffers sorted BATCH_SIZE offers.length
        let allLoaded2 := decide (newOffers.length < BATCH_SIZE)
        let offers2 := offers ++ newOffers
        match newOffers.find? (fun o => decide (LedgerEntryKey o ∉ exclude)) with
        | some o => some o
        | none => rootBestLoop sorted exclude fuel offers2 allLoaded2

/-- `LedgerStateRoot::Impl::getBestOffer` (`ledger/LedgerState.cpp:1187-1231`):
scan the cached list for the first offer not in `exclude`, then keep loading
batches.  `cached`/`allLoaded` are the pair's best-offers-cache record
(absent = `([], false)`, `ledger/LedgerState.cpp:1193-1196`); the fuel
dominates the number of loop iterations. -/
def rootGetBestOffer (sorted : List LedgerEntry)
    (cached : List LedgerEntry) (allLoaded : Bool)
    (exclude : Finset LedgerKey) : Option LedgerEntry :=
  match cached.find? (fun o => decide (LedgerEntryKey o ∉ exclude)) with
  | some o => some o
  | none => rootBestLoop sorted exclude (sorted.length + 2) cached allLoaded

/-- `getBestOffer` through a stack of scopes over the root
(`ledger/LedgerState.cpp:342-391` at each level, delegating to the root at
the bottom): run the local pass, delegate to the parent with the accumulated
exclude set, return the better of the two. -/
def stackGetBestOffer (sorted : List LedgerEntry)
    (cached : List LedgerEntry) (allLoaded : Bool) (b s : Asset) :
    List EntryMap → Finset LedgerKey → Option LedgerEntry
  | [], exclude => rootGetBestOffer sorted cached allLoaded exclude
  | m :: rest, exclude =>
      let r := scopeLocalBest b s m exclude
      let parentBest := stackGetBestOffer sorted cached allLoaded b s rest r.2
      match r.1, parentBest with
      | some bo, some pb => if isBetterOffer bo pb then some bo else some pb
      | some bo, none => some bo
      | none, pb => pb

/-- Newest version of a key through a stack of scopes over a root view
(`getNewestVersion` chained through `mParent`). -/
def stackNewest (root : LedgerKey → Option LedgerEntry) :
    List EntryMap → LedgerKey → Option LedgerEntry
  | [], k => root k
  | m :: rest, k =>
      match mapGet m k with
      | some v => v
      | none => stackNewest root rest k

/-- The root's view of a key given the ordered offer list of the pair: the
unique stored offer with that key, if any. -/
def rootView (sorted : List LedgerEntry) (k : LedgerKey) :
    Option LedgerEntry :=
  sorted.find? (fun o => decide (LedgerEntryKey o = k))

/-- An offer of the pair visible through the stack and not excluded: the
candidate set over which `getBestOffer` is claimed minimal. -/
def VisibleOfferCandidate (sorted : List LedgerEntry)
    (scopes : List EntryMap) (b s : Asset) (exclude : Finset LedgerKey)
    (e : LedgerEntry) : Prop :=
  stackNewest (rootView sorted) scopes (LedgerEntryKey e) = some e ∧
  offerMatches e b s = true ∧
  (LedgerEntryKey e).typeOf = EntryType.OFFER ∧
  LedgerEntryKey e ∉ exclude

/-- An offer of the pair recorded live in one scope's own working set and
not excluded: the candidates of the local pass. -/
def LocalOfferCandidate (m : EntryMap) (b s : Asset)
    (exclude : Finset LedgerKey) (e : LedgerEntry) : Prop :=
  mapGet m (LedgerEntryKey e) = some (some e) ∧
  offerMatches e b s = true ∧
  (LedgerEntryKey e).typeOf = EntryType.OFFER ∧
  LedgerEntryKey e ∉ exclude

/-- The comparison the claim asserts `isBetterOffer` implements: the exact
64-bit cross comparison of the price ratios, ties broken by offer id. -/
def crossBetter (a b2 : LedgerEntry) : Bool :=
  decide (a.offerData.price.n * b2.offerData.price.d <
    b2.offerData.price.n * a.offerData.price.d) ||
  (decide (a.offerData.price.n * b2.offerData.price.d =
    b2.offerData.price.n * a.offerData.price.d) &&
   decide (a.offerData.offerID < b2.offerData.offerID))

/-! ## Handles (from `ledger/LedgerStateEntry.cpp` / `LedgerStateHeader.cpp`)

A `LedgerStateEntry` holds a `weak_ptr` to an impl owned by the scope's
active-handle registry (`mActive` here).  Clearing the registry destroys the
impl, expiring every outstanding weak reference. -/

/-- `LedgerStateEntry::operator bool` (`ledger/LedgerStateEntry.cpp:65-68`):
`!mImpl.expired()` — the handle is live iff the registry still owns the
impl for its key. -/
def handleBool (s : ScopeState) (k : LedgerKey) : Bool :=
  decide (k ∈ s.mActive)

/-- `~LedgerStateEntry` (`ledger/LedgerStateEntry.cpp:31-38`), also the
move-assignment's destruction of the overwritten target: lock the weak
reference and deactivate only on success; after the registry was cleared the
lock fails and the drop is a no-op.  Total — never throws. -/
def handleDrop (s : ScopeState) (k : LedgerKey) : ScopeState :=
  if k ∈ s.mActive then { s with mActive := s.mActive.erase k } else s

/-- `LedgerStateHeader::operator bool` (`ledger/LedgerStateHeader.cpp:55-58`). -/
def headerHandleBool (s : ScopeState) : Bool :=
  s.mActiveHeader

/-- `~LedgerStateHeader` (`ledger/LedgerStateHeader.cpp:21-28`). -/
def headerHandleDrop (s : ScopeState) : ScopeState :=
  if s.mActiveHeader then { s with mActiveHeader := false } else s

/-! ## Composite scope runs used by the create/commit/erase laws -/

/-- `create(e)` in a fresh child scope, seal, commit into the parent scope
`P`, then `load(key(e))` from a fresh scope over the updated parent; returns
the loaded entry (`LedgerState::Impl::create`/`commit`/`commitChild`/`load`
composed). -/
def createCommitLoad (gp : LedgerKey → Option LedgerEntry) (P : ScopeState)
    (hdrS : LedgerHeader) (su : Bool) (e : LedgerEntry) (hdr2 : LedgerHeader)
    (flag2 : Bool) : Except String (Option LedgerEntry) :=
  match createOp (getNewestVersion gp P.mEntry) (freshScope hdrS su) e with
  | .error msg => .error msg
  | .ok S1 =>
    match sealOp S1 with
    | .error msg => .error msg
    | .ok S2 =>
      match childCommitOp gp P S2.mEntry S2.mHeader with
      | .error msg => .error msg
      | .ok P2 =>
        match loadOp (getNewestVersion gp P2.mEntry) (freshScope hdr2 flag2)
            (LedgerEntryKey e) with
        | .error msg => .error msg
        | .ok p => .ok p.2

/-- `create(e)` then `LedgerStateEntry::erase` (deactivate + erase) in a
fresh child scope; returns the scope's entry map afterwards. -/
def createEraseEntries (gp : LedgerKey → Option LedgerEntry) (P : ScopeState)
    (hdrS : LedgerHeader) (su : Bool) (e : LedgerEntry) :
    Except String EntryMap :=
  match createOp (getNewestVersion gp P.mEntry) (freshScope hdrS su) e with
  | .error msg => .error msg
  | .ok S1 =>
    match deactivateOp S1 (LedgerEntryKey e) with
    | .error msg => .error msg
    | .ok S1d =>
      match eraseOp (getNewestVersion gp P.mEntry) S1d (LedgerEntryKey e) with
      | .error msg => .error msg
      | .ok S2 => .ok S2.mEntry

/-- `create(e); erase(key(e))` in a fresh child scope, seal, commit into the
parent scope `P`; returns the updated parent. -/
def createEraseCommit (gp : LedgerKey → Option LedgerEntry) (P : ScopeState)
    (hdrS : LedgerHeader) (su : Bool) (e : LedgerEntry) :
    Except String ScopeState :=
  match createOp (getNewestVersion gp P.mEntry) (freshScope hdrS su) e with
  | .error msg => .error msg
  | .ok S1 =>
    match deactivateOp S1 (LedgerEntryKey e) with
    | .error msg => .error msg
    | .ok S1d =>
      match eraseOp (getNewestVersion gp P.mEntry) S1d (LedgerEntryKey e) with
      | .error msg => .error msg
      | .ok S2 =>
        match sealOp S2 with
        | .error msg => .error msg
        | .ok S3 => childCommitOp gp P S3.mEntry S3.mHeader

/-! ## The persistent root (from `LedgerStateRoot::Impl`) -/

/-- Observable state of `LedgerStateRoot::Impl`: the store (the database as
seen inside the open write transaction, abstracted to a type `σ`), the entry
cache, the best-offers cache, the header, whether a child is attached and
whether the write transaction is open. -/
structure RootState (σ : Type) where
  mStore : σ
  mEntryCache : List (LedgerKey × Option LedgerEntry)
  mBestOffersCache : List ((Asset × Asset) × (List LedgerEntry × Bool))
  mHeader : LedgerHeader
  mChild : Bool
  mTxnOpen : Bool

/-- The entry loop of `LedgerStateRoot::Impl::commitChild`
(`ledger/LedgerState.cpp:1007-1030`): per child entry, dispatch to the
per-type store routine (abstracted as `storeF`, returning `none` on a thrown
exception) and on success put the key into the entry cache with the entry or
an explicit null.  The error value carries the partially updated store kept
by the still-open transaction. -/
def storeLoop {σ : Type}
    (storeF : LedgerKey → Option LedgerEntry → σ → Option σ) :
    σ → List (LedgerKey × Option LedgerEntry) →
    List (LedgerKey × Option LedgerEntry) →
    Except σ (σ × List (LedgerKey × Option LedgerEntry))
  | st, [], cache => .ok (st, cache)
  | st, (k, oe) :: rest, cache =>
      match storeF k oe st with
      | none => .error st
      | some st2 => storeLoop storeF st2 rest (mapSet cache k oe)

/-- The per-key cache update performed by a successful commit loop. -/
def storeCachePut (l : List (LedgerKey × Option LedgerEntry))
    (c : List (LedgerKey × Option LedgerEntry)) :
    List (LedgerKey × Option LedgerEntry) :=
  l.foldl (fun c2 kv => mapSet c2 kv.1 kv.2) c

/-- `LedgerStateRoot::Impl::commitChild` (`ledger/LedgerState.cpp:999-1044`):
clear the best-offers cache, run the store loop; on failure replace the entry
cache with a fresh empty one and re-raise (`false`) leaving the transaction
open, the child attached and the header unchanged; on success commit the
transaction, drop the child and adopt the child's header (`true`). -/
def rootCommitChild {σ : Type}
    (storeF : LedgerKey → Option LedgerEntry → σ → Option σ)
    (r : RootState σ) (centries : List (LedgerKey × Option LedgerEntry))
    (cheader : LedgerHeader) : RootState σ × Bool :=
  match storeLoop storeF r.mStore centries r.mEntryCache with
  | .error st2 =>
      ({ r with mBestOffersCache := [], mStore := st2, mEntryCache := [] },
       false)
  | .ok (st2, cache2) =>
      ({ r with mBestOffersCache := [], mStore := st2, mEntryCache := cache2, mTxnOpen := false, mChild := false, mHeader := cheader },
       true)

/-! ## Inflation winners (from `LedgerState::Impl`, `ledger/LedgerState.cpp:516-649`) -/

/-- An inflation winner; models `InflationWinner`. -/
structure InflationWinner where
  accountID : AccountID
  votes : Int
deriving DecidableEq, Repr

/-- `MIN_VOTES_TO_INCLUDE` (`ledger/LedgerState.cpp:525`). -/
def MIN_VOTES_TO_INCLUDE : Int := 1000000000

/-- `m[a] += v` on an ascending association list; models `std::map`
`operator[]` (default-inserting zero) followed by `+=`. -/
def mapAddVote : List (AccountID × Int) → AccountID → Int →
    List (AccountID × Int)
  | [], a, v => [(a, v)]
  | (a0, v0) :: t, a, v =>
      if a = a0 then (a0, v0 + v) :: t
      else if a < a0 then (a, v) :: (a0, v0) :: t
      else (a0, v0) :: mapAddVote t a v

/-- `m[a] = v` on an ascending association list; models `std::map`
`operator[]` followed by assignment. -/
def mapSetVote : List (AccountID × Int) → AccountID → Int →
    List (AccountID × Int)
  | [], a, v => [(a, v)]
  | (a0, v0) :: t, a, v =>
      if a = a0 then (a0, v) :: t
      else if a < a0 then (a, v) :: (a0, v0) :: t
      else (a0, v0) :: mapSetVote t a v

/-- One iteration of the `getDeltaVotes` loop
(`ledger/LedgerState.cpp:527-554`): skip non-account keys; add the balance of
a live entry whose account has an inflation destination and balance at least
`MIN_VOTES_TO_INCLUDE`; subtract likewise for the parent's previous
version. -/
def deltaVoteStep (parent : LedgerKey → Option LedgerEntry)
    (acc : List (AccountID × Int)) (kv : LedgerKey × Option LedgerEntry) :
    List (AccountID × Int) :=
  if kv.1.typeOf ≠ EntryType.ACCOUNT then acc
  else
    let acc1 :=
      match kv.2 with
      | some e =>
        match e.accountData.inflationDest with
        | some d =>
            if MIN_VOTES_TO_INCLUDE ≤ e.accountData.balance then
              mapAddVote acc d e.accountData.balance
            else acc
        | none => acc
      | none => acc
    match parent kv.1 with
    | some prev =>
      match prev.accountData.inflationDest with
      | some d =>
          if MIN_VOTES_TO_INCLUDE ≤ prev.accountData.balance then
            mapAddVote acc1 d (-prev.accountData.balance)
          else acc1
      | none => acc1
    | none => acc1

/-- `LedgerState::Impl::getDeltaVotes` (`ledger/LedgerState.cpp:522-556`);
`parent` models `mParent.getNewestVersion`. -/
def getDeltaVotes (parent : LedgerKey → Option LedgerEntry)
    (entries : EntryMap) : List (AccountID × Int) :=
  entries.foldl (deltaVoteStep parent) []

/-- `LedgerState::Impl::getTotalVotes` (`ledger/LedgerState.cpp:558-579`). -/
def getTotalVotes (parentWinners : List InflationWinner)
    (deltaVotes : List (AccountID × Int)) (minVotes : Int) :
    List (AccountID × Int) :=
  let totalVotes :=
    parentWinners.foldl (fun tv w => mapSetVote tv w.accountID w.votes) []
  deltaVotes.foldl (fun tv d =>
    if (mapGet tv d.1).isSome ∨ minVotes ≤ d.2 then mapAddVote tv d.1 d.2
    else tv) totalVotes

/-- The `std::sort` comparator of `enumerateInflationWinners`
(`ledger/LedgerState.cpp:598-606`): votes descending, ties by strkey
descending (`KeyUtils::toStrKey` is strictly monotone in the key, so the
strkey comparison is the identity order on the modelled `AccountID`). -/
def winnerLess (lhs rhs : InflationWinner) : Bool :=
  if lhs.votes = rhs.votes then decide (rhs.accountID < lhs.accountID)
  else decide (rhs.votes < lhs.votes)

/-- Sorted insertion under `winnerLess` (stable, like `std::sort` up to the
strict weak order, whose here ties are impossible: equal votes and equal
account cannot occur for distinct winners of one enumeration). -/
def insertWinner (w : InflationWinner) :
    List InflationWinner → List InflationWinner
  | [] => [w]
  | x :: t => if winnerLess w x then w :: x :: t else x :: insertWinner w t

/-- Insertion sort under `winnerLess`; models the `std::sort` call. -/
def sortWinners : List InflationWinner → List InflationWinner
  | [] => []
  | x :: t => insertWinner x (sortWinners t)

/-- `LedgerState::Impl::enumerateInflationWinners`
(`ledger/LedgerState.cpp:581-612`). -/
def enumerateInflationWinners (totalVotes : List (AccountID × Int))
    (maxWinners : Nat) (minVotes : Int) : List InflationWinner :=
  let winners := (totalVotes.filter (fun p => decide (minVotes ≤ p.2))).map
    (fun p => InflationWinner.mk p.1 p.2)
  (sortWinners winners).take maxWinners

/-- Value of `std::max_element(deltaVotes, second<)->second` on a NONEMPTY
range (first element `h`, rest `t`). -/
def maxVoteDelta (h : AccountID × Int) (t : List (AccountID × Int)) : Int :=
  t.foldl (fun m p => if m < p.2 then p.2 else m) h.2

/-- `LedgerState::Impl::getInflationWinners`
(`ledger/LedgerState.cpp:614-649`); `parentWinners` models
`mParent.getInflationWinners`.  When the delta map is empty
`std::max_element` returns the past-the-end iterator and the source
dereferences it (`->second`, line 635): undefined behaviour, modelled as
`none`. -/
def getInflationWinners (parentWinners : Nat → Int → List InflationWinner)
    (parent : LedgerKey → Option LedgerEntry) (entries : EntryMap)
    (maxWinners : Nat) (minVotes : Int) : Option (List InflationWinner) :=
  let deltaVotes := getDeltaVotes parent entries
  match deltaVotes with
  | [] => none
  | h :: t =>
    let numChanged := (deltaVotes.filter (fun p => decide (p.2 ≠ 0))).length
    let newMaxWinners := maxWinners + numChanged
    let maxIncrease := max 0 (maxVoteDelta h t)
    let newMinVotes := max 0 (minVotes - maxIncrease)
    let totalVotes :=
      getTotalVotes (parentWinners newMaxWinners newMinVotes) deltaVotes
        minVotes
    some (enumerateInflationWinners totalVotes maxWinners minVotes)

/-! ## Concrete states exercising the scope machine -/

/-- Empty parent view used by the concrete runs. -/
def scopeDemoParent : LedgerKey → Option LedgerEntry := fun _ => none

/-- Concrete header. -/
def scopeDemoHeader : LedgerHeader := ⟨5, 0⟩

/-- The scope obtained by sealing a fresh scope (via `getChanges`). -/
def scopeDemoSealed : ScopeState := ⟨[], ∅, false, false, scopeDemoHeader, false, true⟩

/-- Concrete account entry. -/
def scopeDemoEntry : LedgerEntry := ⟨0, .account ⟨42, 7, none⟩⟩

/-- The scope obtained from a fresh scope by `create scopeDemoEntry`: the
created key is registered as an active handle. -/
def scopeDemoActive : ScopeState := ⟨[(LedgerKey.account 42, some scopeDemoEntry)], insert (LedgerKey.account 42) ∅, false, false, scopeDemoHeader, false, false⟩

/-- The scope obtained from a fresh scope by `addChild`. -/
def scopeDemoChild : ScopeState := ⟨[], ∅, false, true, scopeDemoHeader, false, false⟩

/-! ## Lemmas about the binary64 division model -/

theorem log2f_correct (fuel : Nat) : ∀ n : Nat, 1 ≤ n → n < 2 ^ fuel →
    2 ^ log2f fuel n ≤ n ∧ n < 2 ^ (log2f fuel n + 1) := by
  induction fuel with
  | zero => intro n h1 h2; omega
  | succ fuel ih =>
    intro n h1 h2
    rw [log2f]
    by_cases hn : n ≤ 1
    · simp only [hn, if_true]
      constructor
      · simpa using h1
      · omega
    · simp only [hn, if_false]
      have hdiv1 : 1 ≤ n / 2 := by omega
      have hdiv2 : n / 2 < 2 ^ fuel := by
        rw [Nat.div_lt_iff_lt_mul (by norm_num)]
        calc n < 2 ^ (fuel + 1) := h2
        _ = 2 ^ fuel * 2 := by ring
      obtain ⟨hlo, hhi⟩ := ih (n / 2) hdiv1 hdiv2
      constructor
      · calc 2 ^ (log2f fuel (n / 2) + 1) = 2 ^ log2f fuel (n / 2) * 2 := by ring
        _ ≤ n / 2 * 2 := by omega
        _ ≤ n := by omega
      · calc n < (n / 2 + 1) * 2 := by omega
        _ ≤ 2 ^ (log2f fuel (n / 2) + 1) * 2 := by
              have : n / 2 + 1 ≤ 2 ^ (log2f fuel (n / 2) + 1) := hhi
              omega
        _ = 2 ^ (log2f fuel (n / 2) + 1 + 1) := by ring

theorem expFor_correct (a b : Nat) (ha : 1 ≤ a) (hb : 1 ≤ b)
    (ha2 : a < 2 ^ 32) (hb2 : b < 2 ^ 32) :
    (2 : ℚ) ^ expFor a b ≤ (a : ℚ) / b ∧ (a : ℚ) / b < 2 ^ (expFor a b + 1) := by
  have hb0 : 0 < b := hb
  have hbq : (0 : ℚ) < (b : ℚ) := by exact_mod_cast hb0
  set v : Nat := a * 2 ^ 64 / b with hv
  have hv1 : 1 ≤ v := by
    rw [hv, Nat.le_div_iff_mul_le hb0]
    calc 1 * b = b := by ring
    _ ≤ 2 ^ 32 := le_of_lt hb2
    _ ≤ a * 2 ^ 64 := by nlinarith
  have hv2 : v < 2 ^ 128 := by
    have : v ≤ a * 2 ^ 64 := Nat.div_le_self _ _
    nlinarith
  obtain ⟨hlo, hhi⟩ := log2f_correct 128 v hv1 hv2
  set L : Nat := log2f 128 v with hL
  have hlo2 : 2 ^ L * b ≤ a * 2 ^ 64 := by
    have := (Nat.le_div_iff_mul_le hb0).mp hlo
    omega
  have hhi2 : a * 2 ^ 64 < 2 ^ (L + 1) * b := by
    have := (Nat.div_lt_iff_lt_mul hb0).mp hhi
    omega
  have hpow : (2 : ℚ) ^ (expFor a b) = 2 ^ L / 2 ^ 64 := by
    have hcast : expFor a b = ((L : ℕ) : ℤ) - 64 := by rw [expFor, ← hv, ← hL]
    rw [hcast, zpow_sub₀ (by norm_num : (2 : ℚ) ≠ 0), zpow_natCast]
    norm_num
  have hpow1 : (2 : ℚ) ^ (expFor a b + 1) = 2 ^ (L + 1) / 2 ^ 64 := by
    have hcast : expFor a b + 1 = ((L + 1 : ℕ) : ℤ) - 64 := by
      rw [expFor, ← hv, ← hL]; push_cast; ring
    rw [hcast, zpow_sub₀ (by norm_num : (2 : ℚ) ≠ 0), zpow_natCast]
    norm_num
  constructor
  · rw [hpow, div_le_div_iff₀ (by norm_num) hbq]
    have : ((2 : ℚ) ^ L * b) ≤ (a : ℚ) * 2 ^ 64 := by exact_mod_cast hlo2
    linarith
  · rw [hpow1, div_lt_div_iff₀ hbq (by norm_num)]
    have : ((a : ℚ)) * 2 ^ 64 < 2 ^ (L + 1) * b := by exact_mod_cast hhi2
    linarith

theorem rneNat_eq_rneVal (x y : Nat) (hy : 1 ≤ y) :
    (rneNat x y : ℤ) = rneVal ((x : ℚ) / y) := by
  have hy0 : 0 < y := hy
  have hyq : (0 : ℚ) < (y : ℚ) := by exact_mod_cast hy0
  set q : Nat := x / y with hq
  set r : Nat := x % y with hr
  have hx : y * q + r = x := Nat.div_add_mod x y
  have hrly : r < y := Nat.mod_lt _ hy0
  have hxq : (x : ℚ) = y * q + r := by exact_mod_cast hx.symm
  have hval : (x : ℚ) / y = q + r / y := by
    rw [hxq]
    field_simp
    ring
  have hr0 : (0 : ℚ) ≤ (r : ℚ) / y := by positivity
  have hr1 : (r : ℚ) / y < 1 := by
    rw [div_lt_one hyq]; exact_mod_cast hrly
  have hfloor : ⌊(x : ℚ) / y⌋ = (q : ℤ) := by
    rw [hval, Int.floor_eq_iff]
    constructor
    · push_cast; linarith
    · push_cast; linarith
  have hfr : (x : ℚ) / y - ⌊(x : ℚ) / y⌋ = (r : ℚ) / y := by
    rw [hfloor, hval]; push_cast; ring
  have hc1 : ((r : ℚ) / y < 1 / 2) ↔ (2 * r < y) := by
    rw [div_lt_div_iff₀ hyq (by norm_num)]
    constructor
    · intro h
      have h2 : ((2 * r : ℕ) : ℚ) < ((y : ℕ) : ℚ) := by push_cast; linarith
      exact_mod_cast h2
    · intro h
      have h2 : ((2 * r : ℕ) : ℚ) < ((y : ℕ) : ℚ) := by exact_mod_cast h
      push_cast at h2; linarith
  have hc2 : ((1 : ℚ) / 2 < (r : ℚ) / y) ↔ (y < 2 * r) := by
    rw [div_lt_div_iff₀ (by norm_num) hyq]
    constructor
    · intro h
      have h2 : ((y : ℕ) : ℚ) < ((2 * r : ℕ) : ℚ) := by push_cast; linarith
      exact_mod_cast h2
    · intro h
      have h2 : ((y : ℕ) : ℚ) < ((2 * r : ℕ) : ℚ) := by exact_mod_cast h
      push_cast at h2; linarith
  have hc3 : ((q : ℤ) % 2 = 0) ↔ (q % 2 = 0) := by omega
  rw [rneVal, hfr, hfloor]
  simp only [hc1, hc2, hc3, rneNat, ← hq, ← hr]
  split_ifs <;> push_cast <;> ring

theorem rneVal_bounds (v : ℚ) :
    v - 1 / 2 ≤ (rneVal v : ℚ) ∧ (rneVal v : ℚ) ≤ v + 1 / 2 := by
  have h1 : ((⌊v⌋ : ℚ)) ≤ v := Int.floor_le v
  have h2 : v < ⌊v⌋ + 1 := Int.lt_floor_add_one v
  rw [rneVal]
  split_ifs <;> constructor <;> push_cast <;> linarith

theorem rneVal_mono {v w : ℚ} (h : v ≤ w) : rneVal v ≤ rneVal w := by
  by_contra hcon
  push_neg at hcon
  have hvw : rneVal w + 1 ≤ rneVal v := hcon
  obtain ⟨hv1, hv2⟩ := rneVal_bounds v
  obtain ⟨hw1, hw2⟩ := rneVal_bounds w
  have hcast : ((rneVal w : ℚ)) + 1 ≤ (rneVal v : ℚ) := by exact_mod_cast hvw
  have heq1 : (rneVal v : ℚ) = v + 1 / 2 := by linarith
  have heq2 : (rneVal w : ℚ) = w - 1 / 2 := by linarith
  have heqvw : v = w := by linarith
  rw [heqvw] at heq1
  linarith

theorem expFor_ubound (a b : Nat) (ha : 1 ≤ a) (hb : 1 ≤ b)
    (ha2 : a < 2 ^ 32) (hb2 : b < 2 ^ 32) : expFor a b < 32 := by
  obtain ⟨hlo, _⟩ := expFor_correct a b ha hb ha2 hb2
  by_contra hcon
  push_neg at hcon
  have h1 : (2 : ℚ) ^ (32 : ℤ) ≤ 2 ^ expFor a b :=
    zpow_le_zpow_right₀ (by norm_num) hcon
  have h2 : (a : ℚ) / b ≤ (a : ℚ) := by
    apply div_le_self (by positivity)
    exact_mod_cast hb
  have ha2n : a < 4294967296 := by omega
  have h3 : (a : ℚ) < 2 ^ (32 : ℤ) := by
    norm_num
    exact_mod_cast ha2n
  linarith

theorem expFor_lbound (a b : Nat) (ha : 1 ≤ a) (hb : 1 ≤ b)
    (ha2 : a < 2 ^ 32) (hb2 : b < 2 ^ 32) : -32 ≤ expFor a b := by
  obtain ⟨_, hhi⟩ := expFor_correct a b ha hb ha2 hb2
  by_contra hcon
  push_neg at hcon
  have hbq : (0 : ℚ) < (b : ℚ) := by exact_mod_cast hb
  have h1 : (2 : ℚ) ^ (expFor a b + 1) ≤ 2 ^ (-32 : ℤ) :=
    zpow_le_zpow_right₀ (by norm_num) (by omega)
  have hb2n : b ≤ 4294967296 := by omega
  have hble : (b : ℚ) ≤ 2 ^ (32 : ℤ) := by
    norm_num
    exact_mod_cast hb2n
  have h2 : (2 : ℚ) ^ (-32 : ℤ) ≤ 1 / b := by
    calc (2 : ℚ) ^ (-32 : ℤ) = 1 / 2 ^ (32 : ℤ) := by rw [zpow_neg, one_div]
    _ ≤ 1 / b := one_div_le_one_div_of_le hbq hble
  have h3 : (1 : ℚ) / b ≤ (a : ℚ) / b := by
    gcongr
    exact_mod_cast ha
  exact lt_irrefl _ (lt_of_lt_of_le hhi (le_trans h1 (le_trans h2 h3)))

theorem s_toNat_cast (a b : Nat) (h : expFor a b < 32) :
    (((52 - expFor a b).toNat : ℕ) : ℤ) = 52 - expFor a b :=
  Int.toNat_of_nonneg (by omega)

theorem roundMD_core (a b : Nat) (ha : 1 ≤ a) (hb : 1 ≤ b)
    (ha2 : a < 2 ^ 32) (hb2 : b < 2 ^ 32) :
    ((roundMD a b).1 : ℤ) =
        rneVal (((a : ℚ) / b) * 2 ^ (52 - expFor a b)) ∧
      2 ^ 52 ≤ (roundMD a b).1 ∧ (roundMD a b).1 ≤ 2 ^ 53 ∧
      (2 : ℚ) ^ expFor a b ≤ mdVal (roundMD a b) ∧
      mdVal (roundMD a b) ≤ 2 ^ (expFor a b + 1) := by
  obtain ⟨hlo, hhi⟩ := expFor_correct a b ha hb ha2 hb2
  have hub := expFor_ubound a b ha hb ha2 hb2
  have hbq : (0 : ℚ) < (b : ℚ) := by exact_mod_cast hb
  set e : ℤ := expFor a b with he
  set s : Nat := (52 - e).toNat with hs
  have hscast : ((s : ℕ) : ℤ) = 52 - e := s_toNat_cast a b hub
  set v : ℚ := ((a : ℚ) / b) * 2 ^ (52 - e) with hv
  have hxv : ((a * 2 ^ s : ℕ) : ℚ) / b = v := by
    rw [hv]
    push_cast
    rw [mul_div_right_comm]
    congr 1
    rw [← hscast, zpow_natCast]
  have hm : ((roundMD a b).1 : ℤ) = rneVal v := by
    show ((rneNat (a * 2 ^ s) b : ℕ) : ℤ) = rneVal v
    rw [rneNat_eq_rneVal _ _ hb, hxv]
  have hvlo : (4503599627370496 : ℚ) ≤ v := by
    have h1 : (2 : ℚ) ^ e * 2 ^ (52 - e) ≤ v := by
      rw [hv]
      have hp : (0 : ℚ) < 2 ^ (52 - e) := by positivity
      exact mul_le_mul_of_nonneg_right hlo (le_of_lt hp)
    calc (4503599627370496 : ℚ) = 2 ^ (52 : ℤ) := by norm_num
    _ = 2 ^ (e + (52 - e)) := by rw [show e + (52 - e) = (52 : ℤ) by ring]
    _ = 2 ^ e * 2 ^ (52 - e) := zpow_add₀ (by norm_num) _ _
    _ ≤ v := h1
  have hvhi : v < (9007199254740992 : ℚ) := by
    have h1 : v < (2 : ℚ) ^ (e + 1) * 2 ^ (52 - e) := by
      rw [hv]
      have hp : (0 : ℚ) < 2 ^ (52 - e) := by positivity
      exact mul_lt_mul_of_pos_right hhi hp
    calc v < (2 : ℚ) ^ (e + 1) * 2 ^ (52 - e) := h1
    _ = 2 ^ ((e + 1) + (52 - e)) := (zpow_add₀ (by norm_num) _ _).symm
    _ = 2 ^ (53 : ℤ) := by rw [show (e + 1) + (52 - e) = (53 : ℤ) by ring]
    _ = (9007199254740992 : ℚ) := by norm_num
  obtain ⟨hb1, hb2q⟩ := rneVal_bounds v
  have hmlo : 2 ^ 52 ≤ (roundMD a b).1 := by
    have h1 : (4503599627370495 : ℚ) < (rneVal v : ℚ) := by linarith
    have h2 : (4503599627370495 : ℤ) < rneVal v := by exact_mod_cast h1
    have h3 : (4503599627370495 : ℤ) < ((roundMD a b).1 : ℤ) := by rw [hm]; exact h2
    have h4 : 4503599627370495 < (roundMD a b).1 := by exact_mod_cast h3
    norm_num
    omega
  have hmhi : (roundMD a b).1 ≤ 2 ^ 53 := by
    have h1 : (rneVal v : ℚ) < (9007199254740993 : ℚ) := by linarith
    have h2 : rneVal v < (9007199254740993 : ℤ) := by exact_mod_cast h1
    have h3 : ((roundMD a b).1 : ℤ) < (9007199254740993 : ℤ) := by rw [hm]; exact h2
    have h4 : (roundMD a b).1 < 9007199254740993 := by exact_mod_cast h3
    norm_num
    omega
  have hexp : (roundMD a b).2 = e := rfl
  have hpos : (0 : ℚ) < 2 ^ (e - 52) := by positivity
  refine ⟨hm, hmlo, hmhi, ?_, ?_⟩
  · rw [mdVal, hexp]
    have hcast : (4503599627370496 : ℚ) ≤ ((roundMD a b).1 : ℚ) := by
      have : ((2 ^ 52 : ℕ) : ℚ) ≤ ((roundMD a b).1 : ℚ) := by exact_mod_cast hmlo
      calc (4503599627370496 : ℚ) = ((2 ^ 52 : ℕ) : ℚ) := by norm_num
      _ ≤ _ := this
    calc (2 : ℚ) ^ e = 2 ^ ((52 : ℤ) + (e - 52)) := by
          rw [show (52 : ℤ) + (e - 52) = e by ring]
    _ = 2 ^ (52 : ℤ) * 2 ^ (e - 52) := zpow_add₀ (by norm_num) _ _
    _ = (4503599627370496 : ℚ) * 2 ^ (e - 52) := by norm_num
    _ ≤ ((roundMD a b).1 : ℚ) * 2 ^ (e - 52) :=
          mul_le_mul_of_nonneg_right hcast (le_of_lt hpos)
  · rw [mdVal, hexp]
    have hcast : ((roundMD a b).1 : ℚ) ≤ (9007199254740992 : ℚ) := by
      have : ((roundMD a b).1 : ℚ) ≤ ((2 ^ 53 : ℕ) : ℚ) := by exact_mod_cast hmhi
      calc ((roundMD a b).1 : ℚ) ≤ ((2 ^ 53 : ℕ) : ℚ) := this
      _ = (9007199254740992 : ℚ) := by norm_num
    calc ((roundMD a b).1 : ℚ) * 2 ^ (e - 52) ≤ (9007199254740992 : ℚ) * 2 ^ (e - 52) :=
          mul_le_mul_of_nonneg_right hcast (le_of_lt hpos)
    _ = 2 ^ (53 : ℤ) * 2 ^ (e - 52) := by norm_num
    _ = 2 ^ ((53 : ℤ) + (e - 52)) := (zpow_add₀ (by norm_num) _ _).symm
    _ = 2 ^ (e + 1) := by rw [show (53 : ℤ) + (e - 52) = e + 1 by ring]

theorem roundMD_mono (a1 b1 a2 b2 : Nat)
    (ha1 : 1 ≤ a1) (hb1 : 1 ≤ b1) (ha12 : a1 < 2 ^ 32) (hb12 : b1 < 2 ^ 32)
    (ha2 : 1 ≤ a2) (hb2 : 1 ≤ b2) (ha22 : a2 < 2 ^ 32) (hb22 : b2 < 2 ^ 32)
    (h : (a1 : ℚ) / b1 ≤ (a2 : ℚ) / b2) :
    mdVal (roundMD a1 b1) ≤ mdVal (roundMD a2 b2) := by
  obtain ⟨hlo1, hhi1⟩ := expFor_correct a1 b1 ha1 hb1 ha12 hb12
  obtain ⟨hlo2, hhi2⟩ := expFor_correct a2 b2 ha2 hb2 ha22 hb22
  obtain ⟨hm1, _, _, hv1lo, hv1hi⟩ := roundMD_core a1 b1 ha1 hb1 ha12 hb12
  obtain ⟨hm2, _, _, hv2lo, hv2hi⟩ := roundMD_core a2 b2 ha2 hb2 ha22 hb22
  have hee : expFor a1 b1 ≤ expFor a2 b2 := by
    by_contra hcon
    push_neg at hcon
    have h1 : (2 : ℚ) ^ (expFor a2 b2 + 1) ≤ 2 ^ expFor a1 b1 :=
      zpow_le_zpow_right₀ (by norm_num) (by omega)
    linarith
  rcases eq_or_lt_of_le hee with heq | hlt
  · have hsame : (52 : ℤ) - expFor a1 b1 = 52 - expFor a2 b2 := by omega
    have hmono : rneVal (((a1 : ℚ) / b1) * 2 ^ (52 - expFor a1 b1)) ≤
        rneVal (((a2 : ℚ) / b2) * 2 ^ (52 - expFor a2 b2)) := by
      apply rneVal_mono
      rw [hsame]
      apply mul_le_mul_of_nonneg_right h (by positivity)
    have hcast : ((roundMD a1 b1).1 : ℚ) ≤ ((roundMD a2 b2).1 : ℚ) := by
      have : ((roundMD a1 b1).1 : ℤ) ≤ ((roundMD a2 b2).1 : ℤ) := by
        rw [hm1, hm2]; exact hmono
      exact_mod_cast this
    show ((roundMD a1 b1).1 : ℚ) * 2 ^ ((roundMD a1 b1).2 - 52) ≤
        ((roundMD a2 b2).1 : ℚ) * 2 ^ ((roundMD a2 b2).2 - 52)
    have he1 : (roundMD a1 b1).2 = expFor a1 b1 := rfl
    have he2 : (roundMD a2 b2).2 = expFor a2 b2 := rfl
    rw [he1, he2, ← heq]
    apply mul_le_mul_of_nonneg_right hcast (by positivity)
  · have h1 : (2 : ℚ) ^ (expFor a1 b1 + 1) ≤ 2 ^ expFor a2 b2 :=
      zpow_le_zpow_right₀ (by norm_num) (by omega)
    linarith

theorem mdVal_normMD (p : Nat × Int) : mdVal (normMD p) = mdVal p := by
  rw [normMD]
  split_ifs with h
  · show ((2 ^ 52 : ℕ) : ℚ) * 2 ^ (p.2 + 1 - 52) = (p.1 : ℚ) * 2 ^ (p.2 - 52)
    rw [h]
    push_cast
    rw [show p.2 + 1 - 52 = (p.2 - 52) + 1 by ring,
      zpow_add_one₀ (by norm_num : (2 : ℚ) ≠ 0)]
    ring_nf
  · rfl

theorem priceDouble_range (p : Price) (h : PriceOk p) :
    2 ^ 52 ≤ (priceDouble p).1 ∧ (priceDouble p).1 < 2 ^ 53 := by
  obtain ⟨hn0, hn1, hd0, hd1⟩ := h
  have hn1n : p.n < 2147483648 := by norm_num at hn1; exact hn1
  have hd1n : p.d < 2147483648 := by norm_num at hd1; exact hd1
  have h1 : 1 ≤ p.n.toNat := by omega
  have h2 : p.n.toNat < 2 ^ 32 := by norm_num; omega
  have h3 : 1 ≤ p.d.toNat := by omega
  have h4 : p.d.toNat < 2 ^ 32 := by norm_num; omega
  obtain ⟨_, hmlo, hmhi, _, _⟩ := roundMD_core p.n.toNat p.d.toNat h1 h3 h2 h4
  rw [priceDouble, normMD]
  split_ifs with hcase
  · constructor
    · exact le_refl _
    · norm_num
  · constructor
    · exact hmlo
    · omega

theorem mdVal_lt_of_exp_lt (p q : Nat × Int) (hp : p.1 < 2 ^ 53)
    (hq : 2 ^ 52 ≤ q.1) (h : p.2 < q.2) : mdVal p < mdVal q := by
  have hppos : (0 : ℚ) < 2 ^ (p.2 - 52) := by positivity
  have hqpos : (0 : ℚ) < 2 ^ (q.2 - 52) := by positivity
  have hpc : ((p.1 : ℕ) : ℚ) < (9007199254740992 : ℚ) := by
    have : p.1 < 9007199254740992 := by norm_num at hp; exact hp
    exact_mod_cast this
  have hqc : (4503599627370496 : ℚ) ≤ ((q.1 : ℕ) : ℚ) := by
    have : 4503599627370496 ≤ q.1 := by norm_num at hq; exact hq
    exact_mod_cast this
  calc mdVal p = (p.1 : ℚ) * 2 ^ (p.2 - 52) := rfl
  _ < (9007199254740992 : ℚ) * 2 ^ (p.2 - 52) := mul_lt_mul_of_pos_right hpc hppos
  _ = 2 ^ (53 : ℤ) * 2 ^ (p.2 - 52) := by norm_num
  _ = 2 ^ (p.2 + 1) := by
        rw [← zpow_add₀ (by norm_num : (2 : ℚ) ≠ 0)]
        congr 1
        ring
  _ ≤ 2 ^ q.2 := zpow_le_zpow_right₀ (by norm_num) (by omega)
  _ = 2 ^ (52 : ℤ) * 2 ^ (q.2 - 52) := by
        rw [← zpow_add₀ (by norm_num : (2 : ℚ) ≠ 0)]
        congr 1
        ring
  _ = (4503599627370496 : ℚ) * 2 ^ (q.2 - 52) := by norm_num
  _ ≤ (q.1 : ℚ) * 2 ^ (q.2 - 52) := mul_le_mul_of_nonneg_right hqc (le_of_lt hqpos)
  _ = mdVal q := rfl

theorem mdVal_inj_norm (p q : Nat × Int)
    (hp52 : 2 ^ 52 ≤ p.1) (hp53 : p.1 < 2 ^ 53)
    (hq52 : 2 ^ 52 ≤ q.1) (hq53 : q.1 < 2 ^ 53)
    (h : mdVal p = mdVal q) : p = q := by
  rcases lt_trichotomy p.2 q.2 with hlt | heq | hgt
  · exact absurd h (ne_of_lt (mdVal_lt_of_exp_lt p q hp53 hq52 hlt))
  · have hpos : (0 : ℚ) < 2 ^ (p.2 - 52) := by positivity
    have hval : (p.1 : ℚ) * 2 ^ (p.2 - 52) = (q.1 : ℚ) * 2 ^ (q.2 - 52) := h
    rw [← heq] at hval
    have hm : (p.1 : ℚ) = (q.1 : ℚ) := mul_right_cancel₀ (ne_of_gt hpos) hval
    have hm2 : p.1 = q.1 := by exact_mod_cast hm
    exact Prod.ext hm2 heq
  · exact absurd h.symm (ne_of_lt (mdVal_lt_of_exp_lt q p hq53 hp52 hgt))

theorem mdLt_iff_val (p q : Nat × Int)
    (hp52 : 2 ^ 52 ≤ p.1) (hp53 : p.1 < 2 ^ 53)
    (hq52 : 2 ^ 52 ≤ q.1) (hq53 : q.1 < 2 ^ 53) :
    mdLt p q = true ↔ mdVal p < mdVal q := by
  rw [mdLt]
  simp only [Bool.or_eq_true, Bool.and_eq_true, decide_eq_true_eq]
  constructor
  · rintro (hlt | ⟨heq, hm⟩)
    · exact mdVal_lt_of_exp_lt p q hp53 hq52 hlt
    · have hpos : (0 : ℚ) < 2 ^ (p.2 - 52) := by positivity
      have hmc : (p.1 : ℚ) < (q.1 : ℚ) := by exact_mod_cast hm
      calc mdVal p = (p.1 : ℚ) * 2 ^ (p.2 - 52) := rfl
      _ < (q.1 : ℚ) * 2 ^ (p.2 - 52) := mul_lt_mul_of_pos_right hmc hpos
      _ = (q.1 : ℚ) * 2 ^ (q.2 - 52) := by rw [heq]
      _ = mdVal q := rfl
  · intro hval
    rcases lt_trichotomy p.2 q.2 with hlt | heq | hgt
    · exact Or.inl hlt
    · refine Or.inr ⟨heq, ?_⟩
      have hpos : (0 : ℚ) < 2 ^ (p.2 - 52) := by positivity
      have hval2 : (p.1 : ℚ) * 2 ^ (p.2 - 52) < (q.1 : ℚ) * 2 ^ (p.2 - 52) := by
        have : mdVal q = (q.1 : ℚ) * 2 ^ (p.2 - 52) := by
          show (q.1 : ℚ) * 2 ^ (q.2 - 52) = _
          rw [heq]
        rw [← this]
        exact hval
      have := lt_of_mul_lt_mul_right hval2 (le_of_lt hpos)
      exact_mod_cast this
    · exact absurd (mdVal_lt_of_exp_lt q p hq53 hp52 hgt) (not_lt_of_lt hval)

theorem priceVal_lt_iff (pa pb : Price) (ha : PriceOk pa) (hb : PriceOk pb) :
    priceVal pa < priceVal pb ↔ pa.n * pb.d < pb.n * pa.d := by
  have hda : (0 : ℚ) < (pa.d : ℚ) := by exact_mod_cast ha.2.2.1
  have hdb : (0 : ℚ) < (pb.d : ℚ) := by exact_mod_cast hb.2.2.1
  rw [priceVal, priceVal, div_lt_div_iff₀ hda hdb]
  constructor
  · intro h; exact_mod_cast h
  · intro h; exact_mod_cast h

theorem priceDouble_mono (pa pb : Price) (ha : PriceOk pa) (hb : PriceOk pb)
    (h : priceVal pa ≤ priceVal pb) :
    mdVal (priceDouble pa) ≤ mdVal (priceDouble pb) := by
  obtain ⟨han0, han1, had0, had1⟩ := ha
  obtain ⟨hbn0, hbn1, hbd0, hbd1⟩ := hb
  have hna : ((pa.n.toNat : ℕ) : ℚ) = ((pa.n : ℤ) : ℚ) := by
    exact_mod_cast congrArg (fun z : ℤ => (z : ℚ)) (Int.toNat_of_nonneg (le_of_lt han0))
  have hda : ((pa.d.toNat : ℕ) : ℚ) = ((pa.d : ℤ) : ℚ) := by
    exact_mod_cast congrArg (fun z : ℤ => (z : ℚ)) (Int.toNat_of_nonneg (le_of_lt had0))
  have hnb : ((pb.n.toNat : ℕ) : ℚ) = ((pb.n : ℤ) : ℚ) := by
    exact_mod_cast congrArg (fun z : ℤ => (z : ℚ)) (Int.toNat_of_nonneg (le_of_lt hbn0))
  have hdb : ((pb.d.toNat : ℕ) : ℚ) = ((pb.d : ℤ) : ℚ) := by
    exact_mod_cast congrArg (fun z : ℤ => (z : ℚ)) (Int.toNat_of_nonneg (le_of_lt hbd0))
  rw [priceDouble, priceDouble, mdVal_normMD, mdVal_normMD]
  apply roundMD_mono
  · omega
  · omega
  · norm_num at han1 ⊢; omega
  · norm_num at had1 ⊢; omega
  · omega
  · omega
  · norm_num at hbn1 ⊢; omega
  · norm_num at hbd1 ⊢; omega
  · rw [hna, hda, hnb, hdb]
    exact h

/-- C1, amended.  `isBetterOffer` does not decide the price comparison by the
exact 64-bit cross product `a.n*b.d < b.n*a.d`; it compares the prices as
IEEE binary64 quotients (`double(n)/double(d)`).  Amended statement: for
offers with in-range prices, `isBetterOffer a b` returns true iff either the
two price ratios round to distinct doubles and the exact integer comparison
`a.n*b.d < b.n*a.d` holds (the two orders agree whenever the doubles are
distinct), or the two ratios round to the same double (possible for unequal
ratios) and `a.offerID < b.offerID`. -/
theorem isBetterOffer_rounded_cross_comparison
    (la lb : LedgerEntry) (oa ob : OfferEntry)
    (hla : la.data = .offer oa) (hlb : lb.data = .offer ob)
    (ha : PriceOk oa.price) (hb : PriceOk ob.price) :
    (isBetterOffer la lb = true ↔
      (priceDouble oa.price ≠ priceDouble ob.price ∧
        oa.price.n * ob.price.d < ob.price.n * oa.price.d) ∨
      (priceDouble oa.price = priceDouble ob.price ∧ oa.offerID < ob.offerID)) := by
  have hoa : la.offerData = oa := by rw [LedgerEntry.offerData, hla]
  have hob : lb.offerData = ob := by rw [LedgerEntry.offerData, hlb]
  obtain ⟨hpa1, hpa2⟩ := priceDouble_range oa.price ha
  obtain ⟨hpb1, hpb2⟩ := priceDouble_range ob.price hb
  rw [isBetterOffer, hoa, hob]
  by_cases hlt : mdLt (priceDouble oa.price) (priceDouble ob.price) = true
  · rw [if_pos hlt]
    have hvlt : mdVal (priceDouble oa.price) < mdVal (priceDouble ob.price) :=
      (mdLt_iff_val _ _ hpa1 hpa2 hpb1 hpb2).mp hlt
    have hne : priceDouble oa.price ≠ priceDouble ob.price := by
      intro heq
      rw [heq] at hvlt
      exact lt_irrefl _ hvlt
    have hcross : oa.price.n * ob.price.d < ob.price.n * oa.price.d := by
      by_contra hcon
      have hnotlt : ¬ priceVal oa.price < priceVal ob.price := by
        intro hc
        exact hcon ((priceVal_lt_iff _ _ ha hb).mp hc)
      have hle : priceVal ob.price ≤ priceVal oa.price := le_of_not_lt hnotlt
      have := priceDouble_mono ob.price oa.price hb ha hle
      exact absurd hvlt (not_lt_of_le this)
    exact iff_of_true rfl (Or.inl ⟨hne, hcross⟩)
  · rw [if_neg hlt]
    by_cases heq : priceDouble oa.price = priceDouble ob.price
    · rw [if_pos heq]
      simp only [decide_eq_true_eq]
      constructor
      · intro h
        exact Or.inr ⟨heq, h⟩
      · rintro (⟨hne, _⟩ | ⟨_, h⟩)
        · exact absurd heq hne
        · exact h
    · rw [if_neg heq]
      apply iff_of_false (by simp)
      rintro (⟨hne, hcross⟩ | ⟨heq2, _⟩)
      · have hvlt : priceVal oa.price < priceVal ob.price :=
          (priceVal_lt_iff _ _ ha hb).mpr hcross
        have hvle : mdVal (priceDouble oa.price) ≤ mdVal (priceDouble ob.price) :=
          priceDouble_mono _ _ ha hb (le_of_lt hvlt)
        have hvne : mdVal (priceDouble oa.price) ≠ mdVal (priceDouble ob.price) := by
          intro hveq
          exact heq (mdVal_inj_norm _ _ hpa1 hpa2 hpb1 hpb2 hveq)
        have hvstrict : mdVal (priceDouble oa.price) < mdVal (priceDouble ob.price) :=
          lt_of_le_of_ne hvle hvne
        exact hlt ((mdLt_iff_val _ _ hpa1 hpa2 hpb1 hpb2).mpr hvstrict)
      · exact heq heq2

/-- C1 witness: the amended statement instantiated at the offers with prices
`1/3` and `1/2` (distinct doubles, exact comparison decides). -/
theorem isBetterOffer_rounded_cross_comparison_witness :
    (isBetterOffer sampleOfferA sampleOfferB = true ↔
      (priceDouble sampleOfferA.offerData.price ≠
          priceDouble sampleOfferB.offerData.price ∧
        sampleOfferA.offerData.price.n * sampleOfferB.offerData.price.d <
          sampleOfferB.offerData.price.n * sampleOfferA.offerData.price.d) ∨
      (priceDouble sampleOfferA.offerData.price =
          priceDouble sampleOfferB.offerData.price ∧
        sampleOfferA.offerData.offerID < sampleOfferB.offerData.offerID)) :=
  isBetterOffer_rounded_cross_comparison sampleOfferA sampleOfferB
    sampleOfferA.offerData sampleOfferB.offerData rfl rfl
    (by decide) (by decide)

/-- C1 counterexample: at the colliding prices `1249046611/2147483647` and
`1249046554/2147483549` (distinct exact ratios, identical doubles) the claim
as stated is false: `isBetterOffer` returns true because the doubles tie and
the offer ids break the tie, while the exact 64-bit comparison
`a.n*b.d < b.n*a.d` is false (the first ratio is strictly greater). -/
theorem isBetterOffer_not_exact_cross_comparison :
    ¬ ((isBetterOffer collisionOfferA collisionOfferB = true) ↔
      (collisionOfferA.offerData.price.n * collisionOfferB.offerData.price.d <
        collisionOfferB.offerData.price.n * collisionOfferA.offerData.price.d ∨
      (collisionOfferA.offerData.price.n * collisionOfferB.offerData.price.d =
        collisionOfferB.offerData.price.n * collisionOfferA.offerData.price.d ∧
        collisionOfferA.offerData.offerID < collisionOfferB.offerData.offerID))) := by
  decide

/-! ## Lemmas about the quorum tracker -/

theorem expandLeaf_false (info : NodeInfo) (nd : Nat) (m : QuorumMap)
    (lid : NodeID) : expandLeaf info nd (m, false) lid = (m, false) := by
  rw [expandLeaf]
  simp

theorem foldl_expandLeaf_false (info : NodeInfo) (nd : Nat)
    (l : List NodeID) (m : QuorumMap) :
    l.foldl (expandLeaf info nd) (m, false) = (m, false) := by
  induction l with
  | nil => rfl
  | cons lid t ih => rw [List.foldl_cons, expandLeaf_false, ih]

theorem leafEffect_refl (nd : Nat) (leaves : List NodeID)
    (x : Option NodeInfo) (k : NodeID) : leafEffect nd leaves x x k := by
  cases x with
  | none => trivial
  | some o => exact ⟨rfl, Or.inl rfl⟩

theorem leafEffect_trans (nd : Nat) (leaves : List NodeID)
    (a b c : Option NodeInfo) (k : NodeID)
    (h1 : leafEffect nd leaves a b k) (h2 : leafEffect nd leaves b c k) :
    leafEffect nd leaves a c k := by
  cases a with
  | none =>
    cases b with
    | none => exact h2
    | some nb =>
      cases c with
      | none => exact absurd h2 (by rw [leafEffect]; simp)
      | some nc =>
        obtain ⟨hq1, hd1, hk1⟩ := h1
        obtain ⟨hq2, hd2⟩ := h2
        refine ⟨by rw [hq2, hq1], ?_, hk1⟩
        rcases hd2 with hd2 | ⟨_, hd2, hlt, _⟩
        · rw [hd2, hd1]
        · rw [hd2]
  | some oa =>
    cases b with
    | none => exact absurd h1 (by rw [leafEffect]; simp)
    | some ob =>
      cases c with
      | none => exact absurd h2 (by rw [leafEffect]; simp)
      | some nc =>
        obtain ⟨hq1, hd1⟩ := h1
        obtain ⟨hq2, hd2⟩ := h2
        refine ⟨by rw [hq2, hq1], ?_⟩
        rcases hd1 with hd1 | ⟨hn1, hd1, hlt1, hk1⟩
        · rcases hd2 with hd2 | ⟨hn2, hd2, hlt2, hk2⟩
          · exact Or.inl (by rw [hd2, hd1])
          · refine Or.inr ⟨by rw [← hq1, hn2], hd2, by omega, hk2⟩
        · rcases hd2 with hd2 | ⟨hn2, hd2, hlt2, hk2⟩
          · exact Or.inr ⟨hn1, by rw [hd2, hd1], hlt1, hk1⟩
          · exact Or.inr ⟨hn1, hd2, by omega, hk2⟩

theorem expandLeaf_none_eq (info : NodeInfo) (nd : Nat) (mc : QuorumMap)
    (lid : NodeID) (h : mc lid = none) :
    expandLeaf info nd (mc, true) lid =
      (fun k => if k = lid then some (updClosest ⟨none, nd, ∅⟩ info nd lid)
        else mc k, true) := by
  rw [expandLeaf]
  simp [h]

theorem expandLeaf_some_eq (info : NodeInfo) (nd : Nat) (mc : QuorumMap)
    (lid : NodeID) (old : NodeInfo) (h : mc lid = some old) :
    expandLeaf info nd (mc, true) lid =
      (if nd < old.mDistance then
        if old.mQSet.isSome then (mc, false)
        else (fun k => if k = lid then
          some (updClosest ⟨old.mQSet, nd, ∅⟩ info nd lid) else mc k, true)
      else if old.mDistance < nd then (mc, true)
      else (fun k => if k = lid then some (updClosest old info nd lid)
        else mc k, true)) := by
  rw [expandLeaf]
  simp [h]

theorem expandLeaf_step_effect (info : NodeInfo) (nd : Nat)
    (leaves : List NodeID) (mc : QuorumMap) (lid : NodeID)
    (hmem : lid ∈ leaves)
    (hres : (expandLeaf info nd (mc, true) lid).2 = true) :
    (∀ k, k ≠ lid → (expandLeaf info nd (mc, true) lid).1 k = mc k) ∧
    leafEffect nd leaves (mc lid) ((expandLeaf info nd (mc, true) lid).1 lid)
      lid ∧
    (expandLeaf info nd (mc, true) lid).1 lid ≠ none := by
  cases hml : mc lid with
  | none =>
    rw [expandLeaf_none_eq info nd mc lid hml] at hres ⊢
    refine ⟨fun k hk => by simp [hk], ?_, by simp⟩
    simp only [hml, if_pos rfl]
    rw [updClosest]
    split_ifs <;> exact ⟨rfl, rfl, hmem⟩
  | some old =>
    rw [expandLeaf_some_eq info nd mc lid old hml] at hres ⊢
    by_cases hlt : nd < old.mDistance
    · rw [if_pos hlt] at hres ⊢
      by_cases hqs : old.mQSet.isSome
      · rw [if_pos hqs] at hres
        exact absurd hres (by simp)
      · rw [if_neg hqs] at hres ⊢
        have hqn : old.mQSet = none := Option.not_isSome_iff_eq_none.mp hqs
        refine ⟨fun k hk => by simp [hk], ?_, by simp⟩
        simp only [hml, if_pos rfl]
        rw [updClosest]
        split_ifs <;> exact ⟨by rw [hqn], Or.inr ⟨hqn, rfl, hlt, hmem⟩⟩
    · rw [if_neg hlt] at hres ⊢
      by_cases hlt2 : old.mDistance < nd
      · rw [if_pos hlt2]
        refine ⟨fun k _ => rfl, ?_, ?_⟩
        · show leafEffect nd leaves (some old) (mc lid) lid
          rw [hml]
          exact leafEffect_refl nd leaves _ lid
        · show mc lid ≠ none
          rw [hml]
          simp
      · rw [if_neg hlt2]
        refine ⟨fun k hk => by simp [hk], ?_, by simp⟩
        simp only [hml, if_pos rfl]
        rw [updClosest]
        split_ifs <;> exact ⟨rfl, Or.inl rfl⟩

theorem expandLeaf_preserves_id (info infoQ : NodeInfo) (nd : Nat)
    (mc : QuorumMap) (lid id : NodeID)
    (hid : mc id = some infoQ) (hd : infoQ.mDistance + 1 = nd) :
    (expandLeaf info nd (mc, true) lid).1 id = some infoQ := by
  by_cases heq : lid = id
  · subst heq
    rw [expandLeaf_some_eq info nd mc lid infoQ hid]
    have h1 : ¬ nd < infoQ.mDistance := by omega
    have h2 : infoQ.mDistance < nd := by omega
    rw [if_neg h1, if_pos h2]
    exact hid
  · cases hml : mc lid with
    | none =>
      rw [expandLeaf_none_eq info nd mc lid hml]
      simpa [Ne.symm heq] using hid
    | some old =>
      rw [expandLeaf_some_eq info nd mc lid old hml]
      split_ifs <;> simp_all [Ne.symm heq]

theorem foldl_expandLeaf_effects (info infoQ : NodeInfo) (nd : Nat)
    (leaves : List NodeID) (id : NodeID)
    (hd : infoQ.mDistance + 1 = nd) :
    ∀ (l : List NodeID) (mc : QuorumMap), (∀ x ∈ l, x ∈ leaves) →
    mc id = some infoQ →
    (l.foldl (expandLeaf info nd) (mc, true)).2 = true →
    (l.foldl (expandLeaf info nd) (mc, true)).1 id = some infoQ ∧
    (∀ k, leafEffect nd leaves (mc k)
      ((l.foldl (expandLeaf info nd) (mc, true)).1 k) k) ∧
    (∀ k ∈ l, (l.foldl (expandLeaf info nd) (mc, true)).1 k ≠ none) := by
  intro l
  induction l with
  | nil =>
    intro mc _ hmc _
    exact ⟨hmc, fun k => leafEffect_refl nd leaves _ k, by simp⟩
  | cons lid t ih =>
    intro mc hsub hmc hacc
    rw [List.foldl_cons] at hacc ⊢
    rcases hp : expandLeaf info nd (mc, true) lid with ⟨mc1, res⟩
    rw [hp] at hacc
    cases res with
    | false =>
      rw [foldl_expandLeaf_false] at hacc
      exact absurd hacc (by simp)
    | true =>
      have hres : (expandLeaf info nd (mc, true) lid).2 = true := by rw [hp]
      have hid1 : mc1 id = some infoQ := by
        have h0 := expandLeaf_preserves_id info infoQ nd mc lid id hmc hd
        rw [hp] at h0
        exact h0
      have hmem : lid ∈ leaves := hsub lid (List.mem_cons_self lid t)
      obtain ⟨hother0, heff0, hne0⟩ :=
        expandLeaf_step_effect info nd leaves mc lid hmem hres
      rw [hp] at hother0 heff0 hne0
      have hother : ∀ k, k ≠ lid → mc1 k = mc k := hother0
      have heff : leafEffect nd leaves (mc lid) (mc1 lid) lid := heff0
      have hne : mc1 lid ≠ none := hne0
      obtain ⟨ih1, ih2, ih3⟩ :=
        ih mc1 (fun x hx => hsub x (List.mem_cons_of_mem lid hx)) hid1 hacc
      refine ⟨ih1, ?_, ?_⟩
      · intro k
        by_cases hk : k = lid
        · subst hk
          exact leafEffect_trans nd leaves _ _ _ k heff (ih2 k)
        · have hmk : mc1 k = mc k := hother k hk
          have h2 := ih2 k
          rw [hmk] at h2
          exact h2
      · intro k hk
        rcases List.mem_cons.mp hk with hk | hk
        · subst hk
          have h2 := ih2 k
          intro hcon
          rw [hcon] at h2
          cases hmk : mc1 k with
          | none => exact hne hmk
          | some o =>
            rw [hmk] at h2
            exact h2
        · exact ih3 k hk

theorem expand_not_found_eq (m : QuorumMap) (id : NodeID) (q : SCPQuorumSet)
    (h : m id = none) : expand m id q = (m, false) := by
  rw [expand]
  simp [h]

theorem expand_known_eq (m : QuorumMap) (id : NodeID) (q : SCPQuorumSet)
    (info : NodeInfo) (q0 : SCPQuorumSet) (hid : m id = some info)
    (hq : info.mQSet = some q0) :
    expand m id q = (m, decide (q0 = q)) := by
  rw [expand]
  simp [hid, hq]

theorem expand_unknown_eq (m : QuorumMap) (id : NodeID) (q : SCPQuorumSet)
    (info : NodeInfo) (hid : m id = some info) (hq : info.mQSet = none) :
    expand m id q = q.nodes.foldl
      (expandLeaf { info with mQSet := some q } (info.mDistance + 1))
      (fun k => if k = id then some { info with mQSet := some q } else m k,
        true) := by
  rw [expand]
  simp [hid, hq]

theorem expand_accepted_effects (m : QuorumMap) (id : NodeID)
    (q : SCPQuorumSet) (info : NodeInfo)
    (hid : m id = some info) (hq : info.mQSet = none)
    (hacc : (expand m id q).2 = true) :
    (expand m id q).1 id = some { info with mQSet := some q } ∧
    (∀ k, k ≠ id → leafEffect (info.mDistance + 1) q.nodes (m k)
      ((expand m id q).1 k) k) ∧
    (∀ k, k ∈ q.nodes → (expand m id q).1 k ≠ none) := by
  have heq := expand_unknown_eq m id q info hid hq
  rw [heq] at hacc ⊢
  have hm1 : (fun k => if k = id then some { info with mQSet := some q }
      else m k) id = some { info with mQSet := some q } := by simp
  obtain ⟨h1, h2, h3⟩ := foldl_expandLeaf_effects
    { info with mQSet := some q } { info with mQSet := some q }
    (info.mDistance + 1) q.nodes id rfl q.nodes _ (fun x hx => hx) hm1 hacc
  refine ⟨h1, ?_, h3⟩
  intro k hk
  have h2k := h2 k
  simp only [if_neg hk] at h2k
  exact h2k

theorem updClosest_fields (old info : NodeInfo) (nd : Nat) (lid : NodeID) :
    (updClosest old info nd lid).mQSet = old.mQSet ∧
    (updClosest old info nd lid).mDistance = old.mDistance := by
  rw [updClosest]
  split_ifs <;> exact ⟨rfl, rfl⟩

theorem foldl_expandLeaf_no_reject (info : NodeInfo) (nd : Nat) :
    ∀ (l : List NodeID) (mc : QuorumMap),
    (∀ u uinfo, mc u = some uinfo → uinfo.mQSet ≠ none →
      uinfo.mDistance ≤ nd) →
    (l.foldl (expandLeaf info nd) (mc, true)).2 = true ∧
    (∀ u uinfo, (l.foldl (expandLeaf info nd) (mc, true)).1 u = some uinfo →
      uinfo.mQSet ≠ none → uinfo.mDistance ≤ nd) := by
  intro l
  induction l with
  | nil => intro mc hb; exact ⟨rfl, hb⟩
  | cons lid t ih =>
    intro mc hb
    rw [List.foldl_cons]
    cases hml : mc lid with
    | none =>
      rw [expandLeaf_none_eq info nd mc lid hml]
      apply ih
      intro u uinfo hu hq
      by_cases huk : u = lid
      · subst huk
        simp only [if_pos rfl] at hu
        obtain ⟨hq1, _⟩ := updClosest_fields ⟨none, nd, ∅⟩ info nd u
        rw [(Option.some.injEq _ _).mp hu.symm] at hq
        rw [hq1] at hq
        exact absurd rfl hq
      · simp only [if_neg huk] at hu
        exact hb u uinfo hu hq
    | some old =>
      rw [expandLeaf_some_eq info nd mc lid old hml]
      by_cases hlt : nd < old.mDistance
      · rw [if_pos hlt]
        by_cases hqs : old.mQSet.isSome
        · have hqn : old.mQSet ≠ none := by
            intro hcon
            rw [hcon] at hqs
            exact absurd hqs (by simp)
          have := hb lid old hml hqn
          omega
        · rw [if_neg hqs]
          have hqn : old.mQSet = none := Option.not_isSome_iff_eq_none.mp hqs
          apply ih
          intro u uinfo hu hq
          by_cases huk : u = lid
          · subst huk
            simp only [if_pos rfl] at hu
            obtain ⟨hq1, _⟩ := updClosest_fields ⟨old.mQSet, nd, ∅⟩ info nd u
            rw [(Option.some.injEq _ _).mp hu.symm, hq1, hqn] at hq
            exact absurd rfl hq
          · simp only [if_neg huk] at hu
            exact hb u uinfo hu hq
      · rw [if_neg hlt]
        by_cases hlt2 : old.mDistance < nd
        · rw [if_pos hlt2]
          exact ih mc hb
        · rw [if_neg hlt2]
          apply ih
          intro u uinfo hu hq
          by_cases huk : u = lid
          · subst huk
            simp only [if_pos rfl] at hu
            obtain ⟨hq1, hd1⟩ := updClosest_fields old info nd u
            rw [(Option.some.injEq _ _).mp hu.symm, hd1]
            omega
          · simp only [if_neg huk] at hu
            exact hb u uinfo hu hq

theorem expand_no_reject (m : QuorumMap) (id : NodeID) (q : SCPQuorumSet)
    (info : NodeInfo) (hid : m id = some info) (hq : info.mQSet = none)
    (hbound : ∀ u uinfo, m u = some uinfo → uinfo.mQSet ≠ none →
      uinfo.mDistance ≤ info.mDistance + 1) :
    (expand m id q).2 = true := by
  rw [expand_unknown_eq m id q info hid hq]
  apply (foldl_expandLeaf_no_reject _ _ q.nodes _ ?_).1
  intro u uinfo hu hqn
  by_cases huk : u = id
  · subst huk
    simp only [if_pos rfl] at hu
    rw [(Option.some.injEq _ _).mp hu.symm]
    show info.mDistance ≤ info.mDistance + 1
    omega
  · simp only [if_neg huk] at hu
    exact hbound u uinfo hu hqn

theorem QTInv_init (localID : NodeID) : QTInv localID (rebuildInit localID) := by
  constructor
  · exact ⟨⟨none, 0, ∅⟩, by rw [rebuildInit]; simp, rfl⟩
  · intro n info hn hd
    simp only [rebuildInit] at hn
    by_cases hl : n = localID
    · rw [if_pos hl] at hn
      rw [(Option.some.injEq _ _).mp hn.symm] at hd
      exact absurd hd (by simp)
    · rw [if_neg hl] at hn
      exact absurd hn (by simp)

theorem QTInv_expand (localID : NodeID) (m : QuorumMap) (id : NodeID)
    (q : SCPQuorumSet) (hinv : QTInv localID m)
    (hacc : (expand m id q).2 = true) :
    QTInv localID (expand m id q).1 := by
  cases him : m id with
  | none =>
    rw [expand_not_found_eq m id q him] at hacc
    exact absurd hacc (by simp)
  | some info =>
    cases hqs : info.mQSet with
    | some q0 =>
      rw [expand_known_eq m id q info q0 him hqs]
      exact hinv
    | none =>
      obtain ⟨hid_res, heff, _⟩ := expand_accepted_effects m id q info him hqs hacc
      obtain ⟨hL, hpred⟩ := hinv
      constructor
      · obtain ⟨infoL, hmL, hL0⟩ := hL
        by_cases hloc : localID = id
        · subst hloc
          rw [him] at hmL
          have : infoL = info := (Option.some.injEq _ _).mp hmL.symm
          exact ⟨{ info with mQSet := some q }, hid_res, by
            show info.mDistance = 0
            rw [← this, hL0]⟩
        · have he := heff localID hloc
          rw [hmL] at he
          cases hres : (expand m id q).1 localID with
          | none => rw [hres] at he; exact absurd he (by rw [leafEffect]; simp)
          | some n =>
            rw [hres] at he
            obtain ⟨hq1, hd1⟩ := he
            refine ⟨n, rfl, ?_⟩
            rcases hd1 with hd1 | ⟨_, _, hlow, _⟩
            · rw [hd1, hL0]
            · rw [hL0] at hlow
              omega
      · intro n ninfo hn hd0
        by_cases hnid : n = id
        · subst hnid
          rw [hid_res] at hn
          have hninfo : ninfo = { info with mQSet := some q } :=
            (Option.some.injEq _ _).mp hn.symm
          have hdn : ninfo.mDistance = info.mDistance := by rw [hninfo]
          rw [hdn] at hd0
          obtain ⟨p, pinfo, qp, hp, hpd, hpq, hpmem⟩ :=
            hpred n info him hd0
          have hpnid : p ≠ n := by
            intro hcon
            rw [hcon, him] at hp
            have : pinfo = info := (Option.some.injEq _ _).mp hp.symm
            rw [this, hqs] at hpq
            exact Option.noConfusion hpq
          have hep := heff p hpnid
          rw [hp] at hep
          cases hres : (expand m n q).1 p with
          | none => rw [hres] at hep; exact absurd hep (by rw [leafEffect]; simp)
          | some p2 =>
            rw [hres] at hep
            obtain ⟨hq1, hd1⟩ := hep
            have hd2 : p2.mDistance = pinfo.mDistance := by
              rcases hd1 with hd1 | ⟨hnone, _, _, _⟩
              · exact hd1
              · rw [hnone] at hpq; exact Option.noConfusion hpq
            exact ⟨p, p2, qp, hres, by rw [hd2, hdn]; exact hpd,
              by rw [hq1]; exact hpq, hpmem⟩
        · have hen := heff n hnid
          cases hmn : m n with
          | some o =>
            rw [hmn, hn] at hen
            obtain ⟨hq1, hd1⟩ := hen
            rcases hd1 with hd1 | ⟨honone, hdnew, hlow, hmem⟩
            · obtain ⟨p, pinfo, qp, hp, hpd, hpq, hpmem⟩ :=
                hpred n o hmn (by rw [← hd1]; exact hd0)
              have hpnid2 : p ≠ id := by
                intro hcon
                rw [hcon, him] at hp
                have : pinfo = info := (Option.some.injEq _ _).mp hp.symm
                rw [this, hqs] at hpq
                exact Option.noConfusion hpq
              have hep := heff p hpnid2
              rw [hp] at hep
              cases hres : (expand m id q).1 p with
              | none => rw [hres] at hep; exact absurd hep (by rw [leafEffect]; simp)
              | some p2 =>
                rw [hres] at hep
                obtain ⟨hq2, hd2⟩ := hep
                have hd3 : p2.mDistance = pinfo.mDistance := by
                  rcases hd2 with hd2 | ⟨hnone, _, _, _⟩
                  · exact hd2
                  · rw [hnone] at hpq; exact Option.noConfusion hpq
                exact ⟨p, p2, qp, hres, by rw [hd3, hd1]; exact hpd,
                  by rw [hq2]; exact hpq, hpmem⟩
            · refine ⟨id, { info with mQSet := some q }, q, hid_res, ?_, rfl,
                hmem⟩
              show info.mDistance + 1 = ninfo.mDistance
              rw [hdnew]
          | none =>
            rw [hmn, hn] at hen
            obtain ⟨_, hdnew, hmem⟩ := hen
            refine ⟨id, { info with mQSet := some q }, q, hid_res, ?_, rfl,
              hmem⟩
            show info.mDistance + 1 = ninfo.mDistance
            rw [hdnew]

/-- C8: every quorum map reachable from the rebuild seed by accepted `expand`
calls keeps the local node at distance 0, and gives every node at distance
`d > 0` a predecessor at distance `d - 1` whose descriptor is known and lists
that node among its members. -/
theorem quorum_map_bfs_invariant (localID : NodeID) (m : QuorumMap)
    (h : AcceptedReach localID m) : QTInv localID m := by
  induction h with
  | init => exact QTInv_init localID
  | step m0 id q _ hacc ih => exact QTInv_expand localID m0 id q ih hacc

/-- C8 witness: the invariant holds after expanding the local node `0` by the
descriptor listing nodes `1` and `2`. -/
theorem quorum_map_bfs_invariant_witness :
    QTInv 0 (expand (rebuildInit 0) 0 ⟨[1, 2]⟩).1 :=
  quorum_map_bfs_invariant 0 _
    (AcceptedReach.step (rebuildInit 0) 0 ⟨[1, 2]⟩ AcceptedReach.init
      (by decide))

theorem leafEffect_ne_none (nd : Nat) (leaves : List NodeID)
    (o : NodeInfo) (x : Option NodeInfo) (k : NodeID)
    (h : leafEffect nd leaves (some o) x k) : x ≠ none := by
  cases x with
  | none => exact absurd h (by rw [leafEffect]; simp)
  | some n => simp

theorem rinv_init (lookup : NodeID → Option SCPQuorumSet) (localID : NodeID) :
    RInv lookup ([localID], rebuildInit localID) := by
  refine ⟨0, [localID], [], by simp, ?_, ?_, ?_, ?_, ?_, ?_⟩
  · intro v hv
    have : v = localID := by simpa using hv
    subst this
    simp [rebuildInit]
  · intro v hp
    obtain ⟨info, hm, _, _⟩ := hp
    simp only [rebuildInit] at hm
    by_cases hvl : v = localID
    · simp [hvl]
    · rw [if_neg hvl] at hm
      exact Option.noConfusion hm
  · intro u info hu hq
    simp only [rebuildInit] at hu
    by_cases hvl : u = localID
    · rw [if_pos hvl] at hu
      rw [(Option.some.injEq _ _).mp hu.symm] at hq
      exact absurd rfl hq
    · rw [if_neg hvl] at hu
      exact Option.noConfusion hu
  · intro v info hv _ _
    simp only [rebuildInit] at hv
    by_cases hvl : v = localID
    · rw [if_pos hvl] at hv
      rw [(Option.some.injEq _ _).mp hv.symm]
      exact ⟨le_refl _, by show (0 : Nat) ≤ 0 + 1; omega⟩
    · rw [if_neg hvl] at hv
      exact Option.noConfusion hv
  · intro v _ info hv _ _
    simp only [rebuildInit] at hv
    by_cases hvl : v = localID
    · rw [if_pos hvl] at hv
      rw [(Option.some.injEq _ _).mp hv.symm]
    · rw [if_neg hvl] at hv
      exact Option.noConfusion hv
  · intro v info hv _ _ _
    simp only [rebuildInit] at hv
    by_cases hvl : v = localID
    · simp [hvl]
    · rw [if_neg hvl] at hv
      exact Option.noConfusion hv

theorem rinv_skip (lookup : NodeID → Option SCPQuorumSet) (v : NodeID)
    (rest : List NodeID) (m : QuorumMap)
    (hinv : RInv lookup (v :: rest, m))
    (hnp : ¬ Pending lookup m v) : RInv lookup (rest, m) := by
  obtain ⟨l, bl1, bl2, hsplit, hi, hii, hiii, hiv, hv5, hvi⟩ := hinv
  cases bl1 with
  | nil =>
    refine ⟨l, [], rest, by simp, ?_, ?_, hiii, hiv, by simp, ?_⟩
    · intro u hu
      exact hi u (List.mem_cons_of_mem v hu)
    · intro u hp
      have hu := hii u hp
      rcases List.mem_cons.mp hu with hu | hu
      · subst hu
        exact absurd hp hnp
      · exact hu
    · intro u info hu hq hl hd
      have := hvi u info hu hq hl hd
      simp at this
  | cons h t1 =>
    rw [List.cons_append] at hsplit
    injection hsplit with hh1 hrest
    subst hh1
    refine ⟨l, t1, bl2, hrest, ?_, ?_, hiii, hiv, ?_, ?_⟩
    · intro u hu
      exact hi u (List.mem_cons_of_mem v hu)
    · intro u hp
      have hu := hii u hp
      rcases List.mem_cons.mp hu with hu | hu
      · subst hu
        exact absurd hp hnp
      · exact hu
    · intro u hu info hm hq hl2
      exact hv5 u (List.mem_cons_of_mem v hu) info hm hq hl2
    · intro u info hm hq hl2 hd
      have := hvi u info hm hq hl2 hd
      rcases List.mem_cons.mp this with hu | hu
      · subst hu
        exact absurd ⟨info, hm, hq, hl2⟩ hnp
      · exact hu

theorem rinv_front_pending (lookup : NodeID → Option SCPQuorumSet)
    (n : NodeID) (rest : List NodeID) (m : QuorumMap)
    (hinv : RInv lookup (n :: rest, m))
    (hp : Pending lookup m n) :
    ∃ l t1 b2, rest = t1 ++ b2 ∧
      (∀ v ∈ n :: rest, m v ≠ none) ∧
      (∀ v, Pending lookup m v → v ∈ n :: rest) ∧
      (∀ u info, m u = some info → info.mQSet ≠ none →
        info.mDistance ≤ l + 1) ∧
      (∀ v info, m v = some info → info.mQSet = none → (lookup v).isSome →
        l ≤ info.mDistance ∧ info.mDistance ≤ l + 1) ∧
      (∀ v ∈ n :: t1, ∀ info, m v = some info → info.mQSet = none →
        (lookup v).isSome → info.mDistance = l) ∧
      (∀ v info, m v = some info → info.mQSet = none → (lookup v).isSome →
        info.mDistance = l → v ∈ n :: t1) ∧
      (∀ info, m n = some info → info.mDistance = l) := by
  obtain ⟨l, bl1, bl2, hsplit, hi, hii, hiii, hiv, hv5, hvi⟩ := hinv
  obtain ⟨infoN, hmN, hqN, hlN⟩ := hp
  cases bl1 with
  | nil =>
    have hnol : ∀ v info, m v = some info → info.mQSet = none →
        (lookup v).isSome → info.mDistance ≠ l := by
      intro v info hm hq hl2 hd
      have := hvi v info hm hq hl2 hd
      simp at this
    refine ⟨l + 1, rest, [], by simp, hi, hii, ?_, ?_, ?_, ?_, ?_⟩
    · intro u info hu hq
      have := hiii u info hu hq
      omega
    · intro v info hm hq hl2
      obtain ⟨h1, h2⟩ := hiv v info hm hq hl2
      have := hnol v info hm hq hl2
      omega
    · intro v _ info hm hq hl2
      obtain ⟨h1, h2⟩ := hiv v info hm hq hl2
      have := hnol v info hm hq hl2
      omega
    · intro v info hm hq hl2 _
      exact hii v ⟨info, hm, hq, hl2⟩
    · intro info hm
      rw [hmN] at hm
      have heq : info = infoN := (Option.some.injEq _ _).mp hm.symm
      subst heq
      obtain ⟨h1, h2⟩ := hiv n info hmN hqN hlN
      have := hnol n info hmN hqN hlN
      omega
  | cons h t1 =>
    rw [List.cons_append] at hsplit
    injection hsplit with hh1 hrest
    subst hh1
    refine ⟨l, t1, bl2, hrest, hi, hii, hiii, hiv, ?_, hvi, ?_⟩
    · intro v hv info hm hq hl2
      exact hv5 v hv info hm hq hl2
    · intro info hm
      rw [hmN] at hm
      have heq : info = infoN := (Option.some.injEq _ _).mp hm.symm
      subst heq
      exact hv5 n (List.mem_cons_self n t1) info hmN hqN hlN

theorem rinv_step (lookup : NodeID → Option SCPQuorumSet)
    (s t : List NodeID × QuorumMap) (hinv : RInv lookup s)
    (hstep : RebuildStep lookup s t) : RInv lookup t := by
  cases hstep with
  | skipMissing n rest m hm =>
    apply rinv_skip lookup n rest m hinv
    intro hp
    obtain ⟨info, hinfo, _, _⟩ := hp
    rw [hm] at hinfo
    exact Option.noConfusion hinfo
  | skipKnown n rest m info hm hq =>
    apply rinv_skip lookup n rest m hinv
    intro hp
    obtain ⟨info2, hinfo, hq2, _⟩ := hp
    rw [hm] at hinfo
    have : info2 = info := (Option.some.injEq _ _).mp hinfo.symm
    subst this
    rw [hq2] at hq
    exact absurd hq (by simp)
  | skipNoQSet n rest m info hm hq hl =>
    apply rinv_skip lookup n rest m hinv
    intro hp
    obtain ⟨info2, hinfo, _, hl2⟩ := hp
    rw [hm] at hinfo
    have : info2 = info := (Option.some.injEq _ _).mp hinfo.symm
    rw [hl] at hl2
    exact absurd hl2 (by simp)
  | expandStep n rest m info q hm hq hl =>
    have hpend : Pending lookup m n := ⟨info, hm, hq, by rw [hl]; simp⟩
    obtain ⟨l, t1, b2, hrest, hi, hii, hiii, hiv, hv5, hvi, hdl⟩ :=
      rinv_front_pending lookup n rest m hinv hpend
    have hdln : info.mDistance = l := hdl info hm
    have hacc : (expand m n q).2 = true := by
      apply expand_no_reject m n q info hm hq
      intro u uinfo hu hqn
      have := hiii u uinfo hu hqn
      omega
    obtain ⟨hid_res, heff, hfresh⟩ := expand_accepted_effects m n q info hm hq hacc
    have hndq : (expand m n q).1 n = some { info with mQSet := some q } := hid_res
    refine ⟨l, t1, b2 ++ q.nodes, ?_, ?_, ?_, ?_, ?_, ?_, ?_⟩
    · show rest ++ q.nodes = t1 ++ (b2 ++ q.nodes)
      rw [hrest, List.append_assoc]
    · -- every backlog node is tracked
      intro v hv
      have hv2 : v ∈ rest ++ q.nodes := hv
      rcases List.mem_append.mp hv2 with hvr | hvq
      · have hvold : v ∈ n :: rest := List.mem_cons_of_mem n hvr
        by_cases hvn : v = n
        · rw [hvn]
          show (expand m n q).1 n ≠ none
          rw [hndq]
          simp
        · have hold := hi v hvold
          cases hmv : m v with
          | none => exact absurd hmv hold
          | some o =>
            have he := heff v hvn
            rw [hmv] at he
            exact leafEffect_ne_none _ _ o _ v he
      · exact hfresh v hvq
    · -- pending nodes appear in the backlog
      intro v hp2
      obtain ⟨vinfo, hmv, hqv, hlv⟩ := hp2
      have hmv2 : (expand m n q).1 v = some vinfo := hmv
      show v ∈ rest ++ q.nodes
      by_cases hvn : v = n
      · rw [hvn, hndq] at hmv2
        have : vinfo = { info with mQSet := some q } :=
          (Option.some.injEq _ _).mp hmv2.symm
        rw [this] at hqv
        exact Option.noConfusion hqv
      · have he := heff v hvn
        cases hmv0 : m v with
        | some o =>
          rw [hmv0, hmv2] at he
          obtain ⟨hq1, _⟩ := he
          have hopend : Pending lookup m v := by
            refine ⟨o, hmv0, ?_, hlv⟩
            rw [← hq1, hqv]
          have hvmem := hii v hopend
          rcases List.mem_cons.mp hvmem with hvm | hvm
          · exact absurd hvm hvn
          · exact List.mem_append_left _ hvm
        | none =>
          rw [hmv0, hmv2] at he
          obtain ⟨_, _, hmem⟩ := he
          exact List.mem_append_right _ hmem
    · -- expanded nodes sit at distance at most l + 1
      intro u uinfo hu hqn
      have hu2 : (expand m n q).1 u = some uinfo := hu
      by_cases hun : u = n
      · rw [hun, hndq] at hu2
        have : uinfo = { info with mQSet := some q } :=
          (Option.some.injEq _ _).mp hu2.symm
        rw [this]
        show info.mDistance ≤ l + 1
        omega
      · have he := heff u hun
        cases hmu : m u with
        | none =>
          rw [hmu, hu2] at he
          obtain ⟨hwq, _, _⟩ := he
          rw [hwq] at hqn
          exact absurd rfl hqn
        | some o =>
          rw [hmu, hu2] at he
          obtain ⟨hq1, hd1⟩ := he
          rcases hd1 with hd1 | ⟨honone, _, _, _⟩
          · rw [hd1]
            apply hiii u o hmu
            rw [← hq1]
            exact hqn
          · rw [honone] at hq1
            rw [hq1] at hqn
            exact absurd rfl hqn
    · -- pending nodes sit at level l or l + 1
      intro v vinfo hmv hqv hlv
      have hmv2 : (expand m n q).1 v = some vinfo := hmv
      by_cases hvn : v = n
      · rw [hvn, hndq] at hmv2
        have : vinfo = { info with mQSet := some q } :=
          (Option.some.injEq _ _).mp hmv2.symm
        rw [this] at hqv
        exact Option.noConfusion hqv
      · have he := heff v hvn
        cases hmv0 : m v with
        | some o =>
          rw [hmv0, hmv2] at he
          obtain ⟨hq1, hd1⟩ := he
          have hqo : o.mQSet = none := by rw [← hq1, hqv]
          obtain ⟨h1, h2⟩ := hiv v o hmv0 hqo hlv
          rcases hd1 with hd1 | ⟨_, _, hlow, _⟩
          · rw [hd1]
            exact ⟨h1, h2⟩
          · omega
        | none =>
          rw [hmv0, hmv2] at he
          obtain ⟨_, hd, _⟩ := he
          rw [hd]
          omega
    · -- pending members of the front segment sit exactly at level l
      intro v hvmem vinfo hmv hqv hlv
      have hmv2 : (expand m n q).1 v = some vinfo := hmv
      by_cases hvn : v = n
      · rw [hvn, hndq] at hmv2
        have : vinfo = { info with mQSet := some q } :=
          (Option.some.injEq _ _).mp hmv2.symm
        rw [this] at hqv
        exact Option.noConfusion hqv
      · have hvold : v ∈ n :: t1 := List.mem_cons_of_mem n hvmem
        have he := heff v hvn
        cases hmv0 : m v with
        | some o =>
          rw [hmv0, hmv2] at he
          obtain ⟨hq1, hd1⟩ := he
          have hqo : o.mQSet = none := by rw [← hq1, hqv]
          have hdo : o.mDistance = l := hv5 v hvold o hmv0 hqo hlv
          rcases hd1 with hd1 | ⟨_, _, hlow, _⟩
          · rw [hd1, hdo]
          · omega
        | none =>
          have : m v ≠ none := by
            apply hi v
            rw [hrest]
            exact List.mem_cons_of_mem n (List.mem_append_left b2 hvmem)
          exact absurd hmv0 this
    · -- every pending node at level l is in the front segment
      intro v vinfo hmv hqv hlv hdv
      have hmv2 : (expand m n q).1 v = some vinfo := hmv
      by_cases hvn : v = n
      · rw [hvn, hndq] at hmv2
        have : vinfo = { info with mQSet := some q } :=
          (Option.some.injEq _ _).mp hmv2.symm
        rw [this] at hqv
        exact Option.noConfusion hqv
      · have he := heff v hvn
        cases hmv0 : m v with
        | some o =>
          rw [hmv0, hmv2] at he
          obtain ⟨hq1, hd1⟩ := he
          have hqo : o.mQSet = none := by rw [← hq1, hqv]
          rcases hd1 with hd1 | ⟨_, hdnew, _, _⟩
          · have hdo : o.mDistance = l := by rw [← hd1, hdv]
            have := hvi v o hmv0 hqo hlv hdo
            rcases List.mem_cons.mp this with hvm | hvm
            · exact absurd hvm hvn
            · exact hvm
          · rw [hdnew] at hdv
            omega
        | none =>
          rw [hmv0, hmv2] at he
          obtain ⟨_, hd, _⟩ := he
          rw [hd] at hdv
          omega

theorem rebuild_reach_rinv (lookup : NodeID → Option SCPQuorumSet)
    (localID : NodeID) (s : List NodeID × QuorumMap)
    (h : RebuildReach lookup localID s) : RInv lookup s := by
  induction h with
  | init => exact rinv_init lookup localID
  | step s0 t0 _ hstep ih => exact rinv_step lookup s0 t0 ih hstep

/-- C9: during a rebuild driven by any (pure) lookup function, every internal
`expand` call is accepted: whenever the BFS loop dequeues a front node whose
descriptor is unknown and the lookup yields one, the node is tracked and
`expand` returns true, so the fatal rejection branch of `rebuild` is
unreachable. -/
theorem rebuild_expand_always_accepted
    (lookup : NodeID → Option SCPQuorumSet) (localID : NodeID)
    (n : NodeID) (rest : List NodeID) (m : QuorumMap)
    (h : RebuildReach lookup localID (n :: rest, m)) :
    m n ≠ none ∧
    (∀ info q, m n = some info → info.mQSet = none → lookup n = some q →
      (expand m n q).2 = true) := by
  have hinv := rebuild_reach_rinv lookup localID (n :: rest, m) h
  constructor
  · obtain ⟨l, bl1, bl2, _, hi, _⟩ := hinv
    exact hi n (List.mem_cons_self n rest)
  · intro info q hm hq hl
    have hpend : Pending lookup m n := ⟨info, hm, hq, by rw [hl]; simp⟩
    obtain ⟨l, t1, b2, _, _, _, hiii, _, _, _, hdl⟩ :=
      rinv_front_pending lookup n rest m hinv hpend
    have hdln : info.mDistance = l := hdl info hm
    apply expand_no_reject m n q info hm hq
    intro u uinfo hu hqn
    have := hiii u uinfo hu hqn
    omega

/-- C9 witness: at the initial rebuild state for local node `0` with a lookup
giving node `0` the descriptor listing node `1`, the front node is tracked and
its `expand` call is accepted. -/
theorem rebuild_expand_always_accepted_witness :
    rebuildInit 0 0 ≠ none ∧
    (∀ info q, rebuildInit 0 0 = some info → info.mQSet = none →
      (fun x : NodeID => if x = 0 then some (⟨[1]⟩ : SCPQuorumSet) else none) 0 =
        some q →
      (expand (rebuildInit 0) 0 q).2 = true) :=
  rebuild_expand_always_accepted
    (fun x : NodeID => if x = 0 then some (⟨[1]⟩ : SCPQuorumSet) else none)
    0 0 [] (rebuildInit 0) RebuildReach.init

/-! ## Lemmas about the association-list maps -/

theorem mapGet_set_eq {K V : Type} [DecidableEq K] (l : List (K × V))
    (k : K) (v : V) : mapGet (mapSet l k v) k = some v := by
  induction l with
  | nil => simp [mapGet, mapSet]
  | cons p t ih =>
    rw [mapSet]
    by_cases hk : p.1 = k
    · rw [if_pos hk, mapGet, if_pos hk]
    · rw [if_neg hk, mapGet, if_neg hk]
      exact ih

theorem mapGet_set_ne {K V : Type} [DecidableEq K] (l : List (K × V))
    (k k2 : K) (v : V) (h : k2 ≠ k) :
    mapGet (mapSet l k v) k2 = mapGet l k2 := by
  induction l with
  | nil => simp [mapGet, mapSet, Ne.symm h]
  | cons p t ih =>
    rw [mapSet]
    by_cases hk : p.1 = k
    · rw [if_pos hk, mapGet, mapGet]
      have : ¬ p.1 = k2 := by rw [hk]; exact Ne.symm h
      rw [if_neg this, if_neg this]
    · rw [if_neg hk, mapGet, mapGet]
      by_cases hk2 : p.1 = k2
      · rw [if_pos hk2, if_pos hk2]
      · rw [if_neg hk2, if_neg hk2]
        exact ih

theorem mapGet_del_eq {K V : Type} [DecidableEq K] (l : List (K × V))
    (k : K) : mapGet (mapDel l k) k = none := by
  induction l with
  | nil => simp [mapGet, mapDel]
  | cons p t ih =>
    obtain ⟨k0, v0⟩ := p
    show mapGet (mapDel ((k0, v0) :: t) k) k = none
    simp only [mapDel]
    by_cases hk : k0 = k
    · rw [if_pos hk]
      exact ih
    · rw [if_neg hk]
      show mapGet ((k0, v0) :: mapDel t k) k = none
      rw [mapGet, if_neg hk]
      exact ih

theorem mapGet_del_ne {K V : Type} [DecidableEq K] (l : List (K × V))
    (k k2 : K) (h : k2 ≠ k) : mapGet (mapDel l k) k2 = mapGet l k2 := by
  induction l with
  | nil => simp [mapGet, mapDel]
  | cons p t ih =>
    obtain ⟨k0, v0⟩ := p
    show mapGet (mapDel ((k0, v0) :: t) k) k2 = mapGet ((k0, v0) :: t) k2
    simp only [mapDel]
    by_cases hk : k0 = k
    · rw [if_pos hk, mapGet]
      have hne : ¬ k0 = k2 := by rw [hk]; exact Ne.symm h
      rw [if_neg hne]
      exact ih
    · rw [if_neg hk]
      show mapGet ((k0, v0) :: mapDel t k) k2 = mapGet ((k0, v0) :: t) k2
      rw [mapGet, mapGet]
      by_cases hk2 : k0 = k2
      · rw [if_pos hk2, if_pos hk2]
      · rw [if_neg hk2, if_neg hk2]
        exact ih

theorem getNewestVersion_set_eq (parent : LedgerKey → Option LedgerEntry)
    (E : EntryMap) (k : LedgerKey) (v : Option LedgerEntry) :
    getNewestVersion parent (mapSet E k v) k = v := by
  rw [getNewestVersion, mapGet_set_eq]

theorem getNewestVersion_set_ne (parent : LedgerKey → Option LedgerEntry)
    (E : EntryMap) (k k2 : LedgerKey) (v : Option LedgerEntry) (h : k2 ≠ k) :
    getNewestVersion parent (mapSet E k v) k2 =
      getNewestVersion parent E k2 := by
  rw [getNewestVersion, getNewestVersion, mapGet_set_ne E k k2 v h]

theorem getNewestVersion_del_ne (parent : LedgerKey → Option LedgerEntry)
    (E : EntryMap) (k k2 : LedgerKey) (h : k2 ≠ k) :
    getNewestVersion parent (mapDel E k) k2 =
      getNewestVersion parent E k2 := by
  rw [getNewestVersion, getNewestVersion, mapGet_del_ne E k k2 h]

/-! ## Outcome characterizations of the scope operations -/

theorem createOp_ok (parent : LedgerKey → Option LedgerEntry)
    (s : ScopeState) (e : LedgerEntry) (t : ScopeState)
    (h : createOp parent s e = .ok t) :
    s.mIsSealed = false ∧ s.mChild = false ∧
    getNewestVersion parent s.mEntry (LedgerEntryKey e) = none ∧
    t = { s with mEntry := mapSet s.mEntry (LedgerEntryKey e) (some e), mActive := insert (LedgerEntryKey e) s.mActive } := by
  rw [createOp] at h
  split_ifs at h with h1 h2 h3
  exact ⟨by simpa using h1, by simpa using h2,
    Option.not_isSome_iff_eq_none.mp (by simpa using h3),
    (Except.ok.inj h).symm⟩

theorem eraseOp_ok (parent : LedgerKey → Option LedgerEntry)
    (s : ScopeState) (k : LedgerKey) (t : ScopeState)
    (h : eraseOp parent s k = .ok t) :
    s.mIsSealed = false ∧ s.mChild = false ∧
    (getNewestVersion parent s.mEntry k).isSome = true ∧
    k ∉ s.mActive ∧
    ((parent k = none ∧ t = { s with mEntry := mapDel s.mEntry k }) ∨
     ((parent k).isSome = true ∧ t = { s with mEntry := mapSet s.mEntry k none })) := by
  rw [eraseOp] at h
  split_ifs at h with h1 h2 h3 h4 h5
  · exact ⟨by simpa using h1, by simpa using h2,
      by simpa [Option.isNone_iff_eq_none, Option.isSome_iff_ne_none] using h3,
      h4, Or.inl ⟨Option.isNone_iff_eq_none.mp (by simpa using h5),
        (Except.ok.inj h).symm⟩⟩
  · exact ⟨by simpa using h1, by simpa using h2,
      by simpa [Option.isNone_iff_eq_none, Option.isSome_iff_ne_none] using h3,
      h4, Or.inr ⟨by simpa [Option.isNone_iff_eq_none,
        Option.isSome_iff_ne_none] using h5, (Except.ok.inj h).symm⟩⟩

theorem loadOp_ok (parent : LedgerKey → Option LedgerEntry)
    (s : ScopeState) (k : LedgerKey) (p : ScopeState × Option LedgerEntry)
    (h : loadOp parent s k = .ok p) :
    s.mIsSealed = false ∧ s.mChild = false ∧ k ∉ s.mActive ∧
    ((getNewestVersion parent s.mEntry k = none ∧ p = (s, none)) ∨
     (∃ newest, getNewestVersion parent s.mEntry k = some newest ∧
       p = ({ s with mEntry := mapSet s.mEntry k (some newest), mActive := insert k s.mActive }, some newest))) := by
  rw [loadOp] at h
  split_ifs at h with h1 h2 h3
  cases hnv : getNewestVersion parent s.mEntry k with
  | none =>
    rw [hnv] at h
    exact ⟨by simpa using h1, by simpa using h2, h3,
      Or.inl ⟨rfl, (Except.ok.inj h).symm⟩⟩
  | some newest =>
    rw [hnv] at h
    exact ⟨by simpa using h1, by simpa using h2, h3,
      Or.inr ⟨newest, rfl, (Except.ok.inj h).symm⟩⟩

theorem loadWithoutRecordOp_ok (parent : LedgerKey → Option LedgerEntry)
    (s : ScopeState) (k : LedgerKey) (p : ScopeState × Option LedgerEntry)
    (h : loadWithoutRecordOp parent s k = .ok p) :
    s.mIsSealed = false ∧ s.mChild = false ∧ k ∉ s.mActive ∧
    ((getNewestVersion parent s.mEntry k = none ∧ p = (s, none)) ∨
     (∃ newest, getNewestVersion parent s.mEntry k = some newest ∧
       p = ({ s with mActive := insert k s.mActive }, some newest))) := by
  rw [loadWithoutRecordOp] at h
  split_ifs at h with h1 h2 h3
  cases hnv : getNewestVersion parent s.mEntry k with
  | none =>
    rw [hnv] at h
    exact ⟨by simpa using h1, by simpa using h2, h3,
      Or.inl ⟨rfl, (Except.ok.inj h).symm⟩⟩
  | some newest =>
    rw [hnv] at h
    exact ⟨by simpa using h1, by simpa using h2, h3,
      Or.inr ⟨newest, rfl, (Except.ok.inj h).symm⟩⟩

theorem loadHeaderOp_ok (s : ScopeState) (t : ScopeState)
    (h : loadHeaderOp s = .ok t) :
    s.mIsSealed = false ∧ s.mChild = false ∧ s.mActiveHeader = false ∧
    t = { s with mActiveHeader := true } := by
  rw [loadHeaderOp] at h
  split_ifs at h with h1 h2 h3
  exact ⟨by simpa using h1, by simpa using h2, by simpa using h3,
    (Except.ok.inj h).symm⟩

theorem addChildOp_ok (s : ScopeState) (t : ScopeState)
    (h : addChildOp s = .ok t) :
    s.mIsSealed = false ∧ s.mChild = false ∧
    t = { s with mChild := true, mActive := ∅, mActiveHeader := false } := by
  rw [addChildOp] at h
  split_ifs at h with h1 h2
  exact ⟨by simpa using h1, by simpa using h2, (Except.ok.inj h).symm⟩

theorem sealOp_ok (s : ScopeState) (t : ScopeState) (h : sealOp s = .ok t) :
    s.mChild = false ∧
    t = { s with mIsSealed := true, mActive := ∅, mActiveHeader := false, mEntry := if s.mShouldUpdateLastModified then stampEntries s.mHeader.ledgerSeq s.mEntry else s.mEntry } := by
  rw [sealOp] at h
  split_ifs at h with h1 h2
  · refine ⟨by simpa using h1, ?_⟩
    rw [if_pos h2]
    exact (Except.ok.inj h).symm
  · refine ⟨by simpa using h1, ?_⟩
    rw [if_neg h2]
    exact (Except.ok.inj h).symm

theorem unsealHeaderOp_ok (s : ScopeState)
    (f : LedgerHeader → LedgerHeader) (t : ScopeState)
    (h : unsealHeaderOp s f = .ok t) :
    s.mIsSealed = true ∧ s.mActiveHeader = false ∧
    t = { s with mHeader := f s.mHeader } := by
  rw [unsealHeaderOp] at h
  split_ifs at h with h1 h2
  push_neg at h1
  exact ⟨h1, by simpa using h2, (Except.ok.inj h).symm⟩

theorem deactivateOp_ok (s : ScopeState) (k : LedgerKey) (t : ScopeState)
    (h : deactivateOp s k = .ok t) :
    k ∈ s.mActive ∧ t = { s with mActive := s.mActive.erase k } := by
  rw [deactivateOp] at h
  split_ifs at h with h1
  exact ⟨h1, (Except.ok.inj h).symm⟩

theorem childCommitOp_ok (parent : LedgerKey → Option LedgerEntry)
    (s : ScopeState) (centries : EntryMap) (cheader : LedgerHeader)
    (t : ScopeState) (h : childCommitOp parent s centries cheader = .ok t) :
    s.mChild = true ∧
    t = { s with mEntry := commitMergeEntries parent s.mEntry centries, mHeader := cheader, mChild := false } := by
  rw [childCommitOp] at h
  split_ifs at h with h1
  exact ⟨h1, (Except.ok.inj h).symm⟩

theorem childRollbackOp_ok (s : ScopeState) (t : ScopeState)
    (h : childRollbackOp s = .ok t) :
    s.mChild = true ∧ t = { s with mChild := false } := by
  rw [childRollbackOp] at h
  split_ifs at h with h1
  exact ⟨h1, (Except.ok.inj h).symm⟩

/-! ## The scope state machine invariant -/

theorem scopeInv_init (parent : LedgerKey → Option LedgerEntry)
    (h : LedgerHeader) (flag : Bool) : ScopeInv parent (freshScope h flag) := by
  refine ⟨fun hcon => ?_, fun hcon => ?_, fun k hk => ?_⟩
  · exact absurd hcon (by rw [freshScope]; simp)
  · exact absurd hcon (by rw [freshScope]; simp)
  · exact absurd hk (by rw [freshScope]; simp)

theorem scopeInv_step (parent : LedgerKey → Option LedgerEntry)
    (s t : ScopeState) (op : ScopeOp) (hinv : ScopeInv parent s)
    (hstep : scopeStep parent s op = .ok t) : ScopeInv parent t := by
  obtain ⟨hseal, hchild, hact⟩ := hinv
  cases op with
  | create e =>
    obtain ⟨h1, h2, h3, ht⟩ := createOp_ok parent s e t hstep
    subst ht
    refine ⟨fun hcon => absurd hcon (by rw [h1]; simp),
      fun hcon => absurd hcon (by rw [h2]; simp), ?_⟩
    intro k hk
    show (getNewestVersion parent
      (mapSet s.mEntry (LedgerEntryKey e) (some e)) k).isSome = true
    by_cases hke : k = LedgerEntryKey e
    · rw [hke, getNewestVersion_set_eq]
      simp
    · rw [getNewestVersion_set_ne parent s.mEntry _ k _ hke]
      exact hact k (by
        rcases Finset.mem_insert.mp hk with hk2 | hk2
        · exact absurd hk2 hke
        · exact hk2)
  | eraseKey k0 =>
    obtain ⟨h1, h2, h3, h4, hcase⟩ := eraseOp_ok parent s k0 t hstep
    rcases hcase with ⟨hp, ht⟩ | ⟨hp, ht⟩ <;> subst ht
    · refine ⟨fun hcon => absurd hcon (by rw [h1]; simp),
        fun hcon => absurd hcon (by rw [h2]; simp), ?_⟩
      intro k hk
      show (getNewestVersion parent (mapDel s.mEntry k0) k).isSome = true
      have hne : k ≠ k0 := fun hcon => h4 (hcon ▸ hk)
      rw [getNewestVersion_del_ne parent s.mEntry k0 k hne]
      exact hact k hk
    · refine ⟨fun hcon => absurd hcon (by rw [h1]; simp),
        fun hcon => absurd hcon (by rw [h2]; simp), ?_⟩
      intro k hk
      show (getNewestVersion parent (mapSet s.mEntry k0 none) k).isSome = true
      have hne : k ≠ k0 := fun hcon => h4 (hcon ▸ hk)
      rw [getNewestVersion_set_ne parent s.mEntry k0 k none hne]
      exact hact k hk
  | load k0 =>
    rw [scopeStep] at hstep
    cases hl : loadOp parent s k0 with
    | error msg => rw [hl] at hstep; exact Except.noConfusion hstep
    | ok p =>
      rw [hl] at hstep
      have ht := Except.ok.inj hstep
      obtain ⟨h1, h2, h3, hcase⟩ := loadOp_ok parent s k0 p hl
      rcases hcase with ⟨hnv, hp⟩ | ⟨newest, hnv, hp⟩
      · have ht2 : t = s := by rw [hp] at ht; exact ht.symm
        subst ht2
        exact ⟨hseal, hchild, hact⟩
      · have ht2 : t = { s with mEntry := mapSet s.mEntry k0 (some newest), mActive := insert k0 s.mActive } := by
          rw [hp] at ht
          exact ht.symm
        subst ht2
        refine ⟨fun hcon => absurd hcon (by rw [h1]; simp),
          fun hcon => absurd hcon (by rw [h2]; simp), ?_⟩
        intro k hk
        show (getNewestVersion parent
          (mapSet s.mEntry k0 (some newest)) k).isSome = true
        by_cases hke : k = k0
        · rw [hke, getNewestVersion_set_eq]
          simp
        · rw [getNewestVersion_set_ne parent s.mEntry k0 k _ hke]
          exact hact k (by
            rcases Finset.mem_insert.mp hk with hk2 | hk2
            · exact absurd hk2 hke
            · exact hk2)
  | loadWithoutRecord k0 =>
    rw [scopeStep] at hstep
    cases hl : loadWithoutRecordOp parent s k0 with
    | error msg => rw [hl] at hstep; exact Except.noConfusion hstep
    | ok p =>
      rw [hl] at hstep
      have ht := Except.ok.inj hstep
      obtain ⟨h1, h2, h3, hcase⟩ := loadWithoutRecordOp_ok parent s k0 p hl
      rcases hcase with ⟨hnv, hp⟩ | ⟨newest, hnv, hp⟩
      · have ht2 : t = s := by rw [hp] at ht; exact ht.symm
        subst ht2
        exact ⟨hseal, hchild, hact⟩
      · have ht2 : t = { s with mActive := insert k0 s.mActive } := by
          rw [hp] at ht
          exact ht.symm
        subst ht2
        refine ⟨fun hcon => absurd hcon (by rw [h1]; simp),
          fun hcon => absurd hcon (by rw [h2]; simp), ?_⟩
        intro k hk
        rcases Finset.mem_insert.mp hk with hk2 | hk2
        · show (getNewestVersion parent s.mEntry k).isSome = true
          rw [hk2, hnv]
          simp
        · exact hact k hk2
  | loadHeader =>
    obtain ⟨h1, h2, h3, ht⟩ := loadHeaderOp_ok s t hstep
    subst ht
    exact ⟨fun hcon => absurd hcon (by rw [h1]; simp),
      fun hcon => absurd hcon (by rw [h2]; simp), hact⟩
  | addChild =>
    obtain ⟨h1, h2, ht⟩ := addChildOp_ok s t hstep
    subst ht
    exact ⟨fun hcon => absurd hcon (by rw [h1]; simp), fun _ => ⟨rfl, rfl⟩,
      fun k hk => absurd hk (by simp)⟩
  | getChanges =>
    obtain ⟨h1, ht⟩ := sealOp_ok s t hstep
    subst ht
    exact ⟨fun _ => ⟨rfl, rfl⟩, fun hcon => absurd hcon (by rw [h1]; simp),
      fun k hk => absurd hk (by simp)⟩
  | getDelta =>
    obtain ⟨h1, ht⟩ := sealOp_ok s t hstep
    subst ht
    exact ⟨fun _ => ⟨rfl, rfl⟩, fun hcon => absurd hcon (by rw [h1]; simp),
      fun k hk => absurd hk (by simp)⟩
  | getLiveEntries =>
    obtain ⟨h1, ht⟩ := sealOp_ok s t hstep
    subst ht
    exact ⟨fun _ => ⟨rfl, rfl⟩, fun hcon => absurd hcon (by rw [h1]; simp),
      fun k hk => absurd hk (by simp)⟩
  | getDeadEntries =>
    obtain ⟨h1, ht⟩ := sealOp_ok s t hstep
    subst ht
    exact ⟨fun _ => ⟨rfl, rfl⟩, fun hcon => absurd hcon (by rw [h1]; simp),
      fun k hk => absurd hk (by simp)⟩
  | commit =>
    rw [scopeStep] at hstep
    cases hs2 : sealOp s with
    | error msg => rw [hs2] at hstep; exact Except.noConfusion hstep
    | ok s2 =>
      rw [hs2] at hstep
      have ht := Except.ok.inj hstep
      obtain ⟨h1, hs2e⟩ := sealOp_ok s s2 hs2
      rw [← ht]
      refine ⟨fun _ => ⟨rfl, rfl⟩, fun hcon => ?_, fun k hk => absurd hk (by simp)⟩
      exact absurd hcon (by rw [hs2e]; simp [h1])
  | unsealHeader f =>
    obtain ⟨h1, h2, ht⟩ := unsealHeaderOp_ok s f t hstep
    subst ht
    refine ⟨fun _ => hseal h1, fun hcon => hchild hcon, ?_⟩
    intro k hk
    have hk2 : k ∈ s.mActive := hk
    rw [(hseal h1).1] at hk2
    exact absurd hk2 (by simp)
  | deactivate k0 =>
    obtain ⟨h1, ht⟩ := deactivateOp_ok s k0 t hstep
    subst ht
    refine ⟨fun hcon => ⟨by rw [(hseal hcon).1]; simp, (hseal hcon).2⟩,
      fun hcon => ⟨by rw [(hchild hcon).1]; simp, (hchild hcon).2⟩, ?_⟩
    intro k hk
    exact hact k (Finset.mem_of_mem_erase hk)
  | deactivateHeader =>
    rw [scopeStep, deactivateHeaderOp] at hstep
    have ht := Except.ok.inj hstep
    rw [← ht]
    exact ⟨fun hcon => ⟨(hseal hcon).1, rfl⟩,
      fun hcon => ⟨(hchild hcon).1, rfl⟩, hact⟩
  | childCommit centries cheader =>
    obtain ⟨h1, ht⟩ := childCommitOp_ok parent s centries cheader t hstep
    subst ht
    refine ⟨fun _ => hchild h1, fun hcon => absurd hcon (by simp), ?_⟩
    intro k hk
    have hk2 : k ∈ s.mActive := hk
    rw [(hchild h1).1] at hk2
    exact absurd hk2 (by simp)
  | childRollback =>
    obtain ⟨h1, ht⟩ := childRollbackOp_ok s t hstep
    subst ht
    exact ⟨fun hcon => hseal hcon, fun hcon => absurd hcon (by simp), hact⟩

theorem scopeReach_inv (parent : LedgerKey → Option LedgerEntry)
    (h0 : LedgerHeader) (flag : Bool) (s : ScopeState)
    (h : ScopeReach parent (freshScope h0 flag) s) : ScopeInv parent s := by
  induction h with
  | refl => exact scopeInv_init parent h0 flag
  | step s0 t0 op _ hstep ih => exact scopeInv_step parent s0 t0 op ih hstep


/-! ## The sealed-scope discipline (C5) and active-key errors (C7) -/

/-- C5: for every reachable scope, the sealed flag is set exactly once, by
the first of `getChanges`, `getDelta`, `getLiveEntries`, `getDeadEntries` or
`commit` (after any successful step the flag is the old flag OR-ed with
whether the step seals, so it is monotone and only sealing steps set it);
once sealed, `create`, `erase`, `load`, `loadWithoutRecord`, `loadHeader`
and `addChild` all error while `unsealHeader` succeeds, and `unsealHeader`
errors on an unsealed scope. -/
theorem sealed_scope_discipline (parent : LedgerKey → Option LedgerEntry)
    (h0 : LedgerHeader) (flag : Bool) (s : ScopeState)
    (hreach : ScopeReach parent (freshScope h0 flag) s) :
    (s.mIsSealed = true →
      (∀ e, ∃ msg, createOp parent s e = .error msg) ∧
      (∀ k, ∃ msg, eraseOp parent s k = .error msg) ∧
      (∀ k, ∃ msg, loadOp parent s k = .error msg) ∧
      (∀ k, ∃ msg, loadWithoutRecordOp parent s k = .error msg) ∧
      (∃ msg, loadHeaderOp s = .error msg) ∧
      (∃ msg, addChildOp s = .error msg) ∧
      (∀ f, ∃ t, unsealHeaderOp s f = .ok t)) ∧
    (s.mIsSealed = false → ∀ f, ∃ msg, unsealHeaderOp s f = .error msg) ∧
    (∀ op t, scopeStep parent s op = .ok t →
      t.mIsSealed = (s.mIsSealed || op.isSealing)) := by
  have hinv := scopeReach_inv parent h0 flag s hreach
  refine ⟨fun hs => ?_, fun hs f => ?_, fun op t hstep => ?_⟩
  · have hAH : s.mActiveHeader = false := (hinv.1 hs).2
    refine ⟨fun e => ?_, fun k => ?_, fun k => ?_, fun k => ?_, ?_, ?_, fun f => ?_⟩
    · exact ⟨_, by rw [createOp, if_pos hs]⟩
    · exact ⟨_, by rw [eraseOp, if_pos hs]⟩
    · exact ⟨_, by rw [loadOp, if_pos hs]⟩
    · exact ⟨_, by rw [loadWithoutRecordOp, if_pos hs]⟩
    · exact ⟨_, by rw [loadHeaderOp, if_pos hs]⟩
    · exact ⟨_, by rw [addChildOp, if_pos hs]⟩
    · refine ⟨{ s with mHeader := f s.mHeader }, ?_⟩
      rw [unsealHeaderOp, if_neg (by rw [hs]; simp), if_neg (by rw [hAH]; simp)]
  · refine ⟨"LedgerState is not sealed", ?_⟩
    rw [unsealHeaderOp, if_pos (by rw [hs]; simp)]
  · cases op with
    | create e =>
      obtain ⟨h1, h2, h3, ht⟩ := createOp_ok parent s e t hstep
      subst ht
      simp [ScopeOp.isSealing]
    | eraseKey k0 =>
      obtain ⟨h1, h2, h3, h4, hcase⟩ := eraseOp_ok parent s k0 t hstep
      rcases hcase with ⟨hp, ht⟩ | ⟨hp, ht⟩ <;> subst ht <;>
        simp [ScopeOp.isSealing]
    | load k0 =>
      rw [scopeStep] at hstep
      cases hl : loadOp parent s k0 with
      | error msg => rw [hl] at hstep; exact Except.noConfusion hstep
      | ok p =>
        rw [hl] at hstep
        have ht := Except.ok.inj hstep
        obtain ⟨h1, h2, h3, hcase⟩ := loadOp_ok parent s k0 p hl
        rcases hcase with ⟨hnv, hp⟩ | ⟨newest, hnv, hp⟩
        · have ht2 : t = s := by rw [hp] at ht; exact ht.symm
          subst ht2
          simp [ScopeOp.isSealing]
        · have ht2 : t = { s with mEntry := mapSet s.mEntry k0 (some newest), mActive := insert k0 s.mActive } := by
            rw [hp] at ht
            exact ht.symm
          subst ht2
          simp [ScopeOp.isSealing]
    | loadWithoutRecord k0 =>
      rw [scopeStep] at hstep
      cases hl : loadWithoutRecordOp parent s k0 with
      | error msg => rw [hl] at hstep; exact Except.noConfusion hstep
      | ok p =>
        rw [hl] at hstep
        have ht := Except.ok.inj hstep
        obtain ⟨h1, h2, h3, hcase⟩ := loadWithoutRecordOp_ok parent s k0 p hl
        rcases hcase with ⟨hnv, hp⟩ | ⟨newest, hnv, hp⟩
        · have ht2 : t = s := by rw [hp] at ht; exact ht.symm
          subst ht2
          simp [ScopeOp.isSealing]
        · have ht2 : t = { s with mActive := insert k0 s.mActive } := by
            rw [hp] at ht
            exact ht.symm
          subst ht2
          simp [ScopeOp.isSealing]
    | loadHeader =>
      obtain ⟨h1, h2, h3, ht⟩ := loadHeaderOp_ok s t hstep
      subst ht
      simp [ScopeOp.isSealing]
    | addChild =>
      obtain ⟨h1, h2, ht⟩ := addChildOp_ok s t hstep
      subst ht
      simp [ScopeOp.isSealing]
    | getChanges =>
      obtain ⟨h1, ht⟩ := sealOp_ok s t hstep
      subst ht
      simp [ScopeOp.isSealing]
    | getDelta =>
      obtain ⟨h1, ht⟩ := sealOp_ok s t hstep
      subst ht
      simp [ScopeOp.isSealing]
    | getLiveEntries =>
      obtain ⟨h1, ht⟩ := sealOp_ok s t hstep
      subst ht
      simp [ScopeOp.isSealing]
    | getDeadEntries =>
      obtain ⟨h1, ht⟩ := sealOp_ok s t hstep
      subst ht
      simp [ScopeOp.isSealing]
    | commit =>
      rw [scopeStep] at hstep
      cases hs2 : sealOp s with
      | error msg => rw [hs2] at hstep; exact Except.noConfusion hstep
      | ok s2 =>
        rw [hs2] at hstep
        have ht := Except.ok.inj hstep
        obtain ⟨h1, hs2e⟩ := sealOp_ok s s2 hs2
        rw [← ht, hs2e]
        simp [ScopeOp.isSealing]
    | unsealHeader f =>
      obtain ⟨h1, h2, ht⟩ := unsealHeaderOp_ok s f t hstep
      subst ht
      simp [ScopeOp.isSealing, h1]
    | deactivate k0 =>
      obtain ⟨h1, ht⟩ := deactivateOp_ok s k0 t hstep
      subst ht
      simp [ScopeOp.isSealing]
    | deactivateHeader =>
      rw [scopeStep, deactivateHeaderOp] at hstep
      have ht := Except.ok.inj hstep
      rw [← ht]
      simp [ScopeOp.isSealing]
    | childCommit centries cheader =>
      obtain ⟨h1, ht⟩ := childCommitOp_ok parent s centries cheader t hstep
      subst ht
      simp [ScopeOp.isSealing]
    | childRollback =>
      obtain ⟨h1, ht⟩ := childRollbackOp_ok s t hstep
      subst ht
      simp [ScopeOp.isSealing]

/-- C5 witness: the scope obtained by sealing a fresh scope with
`getChanges` refuses `loadHeader` and allows `unsealHeader`. -/
theorem sealed_scope_discipline_witness :
    (∃ msg, loadHeaderOp scopeDemoSealed = Except.error msg) ∧
    (∃ t, unsealHeaderOp scopeDemoSealed (fun h => h) = Except.ok t) := by
  have h := sealed_scope_discipline scopeDemoParent scopeDemoHeader false
    scopeDemoSealed
    (ScopeReach.step (freshScope scopeDemoHeader false) scopeDemoSealed
      ScopeOp.getChanges ScopeReach.refl rfl)
  exact ⟨(h.1 rfl).2.2.2.2.1, (h.1 rfl).2.2.2.2.2.2 (fun h2 => h2)⟩

/-- C7: in every reachable scope, a key registered in the active-handle
registry cannot be loaded (with or without record), and no entry with that
key can be created: all three calls error (and, errors being raised before
any mutation in the embedded methods, the entry map is untouched). -/
theorem active_key_ops_error (parent : LedgerKey → Option LedgerEntry)
    (h0 : LedgerHeader) (flag : Bool) (s : ScopeState)
    (hreach : ScopeReach parent (freshScope h0 flag) s) (k : LedgerKey)
    (hk : k ∈ s.mActive) :
    (∃ msg, loadOp parent s k = .error msg) ∧
    (∃ msg, loadWithoutRecordOp parent s k = .error msg) ∧
    (∀ e, LedgerEntryKey e = k → ∃ msg, createOp parent s e = .error msg) := by
  have hinv := scopeReach_inv parent h0 flag s hreach
  obtain ⟨hseal, hchild, hact⟩ := hinv
  refine ⟨?_, ?_, ?_⟩
  · cases hbs : s.mIsSealed with
    | true => exact ⟨_, by rw [loadOp, if_pos hbs]⟩
    | false =>
      cases hbc : s.mChild with
      | true =>
        exact ⟨_, by rw [loadOp, if_neg (by rw [hbs]; simp), if_pos hbc]⟩
      | false =>
        exact ⟨_, by
          rw [loadOp, if_neg (by rw [hbs]; simp), if_neg (by rw [hbc]; simp),
            if_pos hk]⟩
  · cases hbs : s.mIsSealed with
    | true => exact ⟨_, by rw [loadWithoutRecordOp, if_pos hbs]⟩
    | false =>
      cases hbc : s.mChild with
      | true =>
        exact ⟨_, by
          rw [loadWithoutRecordOp, if_neg (by rw [hbs]; simp), if_pos hbc]⟩
      | false =>
        exact ⟨_, by
          rw [loadWithoutRecordOp, if_neg (by rw [hbs]; simp),
            if_neg (by rw [hbc]; simp), if_pos hk]⟩
  · intro e hek
    cases hbs : s.mIsSealed with
    | true => exact ⟨_, by rw [createOp, if_pos hbs]⟩
    | false =>
      cases hbc : s.mChild with
      | true =>
        exact ⟨_, by rw [createOp, if_neg (by rw [hbs]; simp), if_pos hbc]⟩
      | false =>
        exact ⟨_, by
          rw [createOp, if_neg (by rw [hbs]; simp), if_neg (by rw [hbc]; simp),
            if_pos (show (getNewestVersion parent s.mEntry
              (LedgerEntryKey e)).isSome = true by
                rw [hek]; exact hact k hk)]⟩

/-- C7 witness: after creating an account entry in a fresh scope, its key is
active and both load flavours refuse it. -/
theorem active_key_ops_error_witness :
    (∃ msg, loadOp scopeDemoParent scopeDemoActive (LedgerKey.account 42) =
      Except.error msg) ∧
    (∃ msg, loadWithoutRecordOp scopeDemoParent scopeDemoActive
      (LedgerKey.account 42) = Except.error msg) := by
  have h := active_key_ops_error scopeDemoParent scopeDemoHeader false
    scopeDemoActive
    (ScopeReach.step (freshScope scopeDemoHeader false) scopeDemoActive
      (ScopeOp.create scopeDemoEntry) ScopeReach.refl rfl)
    (LedgerKey.account 42) (Finset.mem_insert_self _ _)
  exact ⟨h.1, h.2.1⟩


/-! ## Handle inertness after registry clearing (C10) -/

/-- C10: attaching a child, sealing (hence also the sealing calls routed
through `scopeStep`, including `commit`) and rolling back all clear the
active-handle registries wholesale, and against any scope whose registries
are cleared every previously acquired handle is inert rather than dangling:
its boolean conversion is `false`, and dropping it (or move-assigning over
it) is a no-op that cannot throw — likewise for header handles. -/
theorem handles_inert_after_clear (parent : LedgerKey → Option LedgerEntry)
    (s : ScopeState) :
    (∀ t, addChildOp s = .ok t → t.mActive = ∅ ∧ t.mActiveHeader = false) ∧
    (∀ t, sealOp s = .ok t → t.mActive = ∅ ∧ t.mActiveHeader = false) ∧
    (∀ op t, op.isSealing = true → scopeStep parent s op = .ok t →
      t.mActive = ∅ ∧ t.mActiveHeader = false) ∧
    (rollbackOp s).mActive = ∅ ∧ (rollbackOp s).mActiveHeader = false ∧
    (∀ t : ScopeState, t.mActive = ∅ →
      ∀ k, handleBool t k = false ∧ handleDrop t k = t) ∧
    (∀ t : ScopeState, t.mActiveHeader = false →
      headerHandleBool t = false ∧ headerHandleDrop t = t) := by
  refine ⟨fun t ht => ?_, fun t ht => ?_, fun op t hsealing hstep => ?_,
    rfl, rfl, fun t ht k => ⟨?_, ?_⟩, fun t ht => ⟨ht, ?_⟩⟩
  · obtain ⟨h1, h2, ht2⟩ := addChildOp_ok s t ht
    subst ht2
    exact ⟨rfl, rfl⟩
  · obtain ⟨h1, ht2⟩ := sealOp_ok s t ht
    subst ht2
    exact ⟨rfl, rfl⟩
  · cases op with
    | getChanges =>
      obtain ⟨h1, ht2⟩ := sealOp_ok s t hstep
      subst ht2
      exact ⟨rfl, rfl⟩
    | getDelta =>
      obtain ⟨h1, ht2⟩ := sealOp_ok s t hstep
      subst ht2
      exact ⟨rfl, rfl⟩
    | getLiveEntries =>
      obtain ⟨h1, ht2⟩ := sealOp_ok s t hstep
      subst ht2
      exact ⟨rfl, rfl⟩
    | getDeadEntries =>
      obtain ⟨h1, ht2⟩ := sealOp_ok s t hstep
      subst ht2
      exact ⟨rfl, rfl⟩
    | commit =>
      rw [scopeStep] at hstep
      cases hs2 : sealOp s with
      | error msg => rw [hs2] at hstep; exact Except.noConfusion hstep
      | ok s2 =>
        rw [hs2] at hstep
        have ht2 := Except.ok.inj hstep
        rw [← ht2]
        exact ⟨rfl, rfl⟩
    | create e => exact absurd hsealing (by simp [ScopeOp.isSealing])
    | eraseKey k => exact absurd hsealing (by simp [ScopeOp.isSealing])
    | load k => exact absurd hsealing (by simp [ScopeOp.isSealing])
    | loadWithoutRecord k => exact absurd hsealing (by simp [ScopeOp.isSealing])
    | loadHeader => exact absurd hsealing (by simp [ScopeOp.isSealing])
    | addChild => exact absurd hsealing (by simp [ScopeOp.isSealing])
    | unsealHeader f => exact absurd hsealing (by simp [ScopeOp.isSealing])
    | deactivate k => exact absurd hsealing (by simp [ScopeOp.isSealing])
    | deactivateHeader => exact absurd hsealing (by simp [ScopeOp.isSealing])
    | childCommit c h => exact absurd hsealing (by simp [ScopeOp.isSealing])
    | childRollback => exact absurd hsealing (by simp [ScopeOp.isSealing])
  · rw [handleBool, ht]
    simp
  · rw [handleDrop, ht]
    simp
  · rw [headerHandleDrop, ht]
    simp

/-- C10 witness: `addChild` on a fresh scope clears the registries, and
against the sealed scope a stale handle converts to `false` and drops as a
no-op. -/
theorem handles_inert_after_clear_witness :
    (scopeDemoChild.mActive = ∅ ∧ scopeDemoChild.mActiveHeader = false) ∧
    handleBool scopeDemoSealed (LedgerKey.account 42) = false ∧
    handleDrop scopeDemoSealed (LedgerKey.account 42) = scopeDemoSealed := by
  have h2 := handles_inert_after_clear scopeDemoParent
    (freshScope scopeDemoHeader false)
  have h := handles_inert_after_clear scopeDemoParent scopeDemoSealed
  exact ⟨h2.1 scopeDemoChild rfl,
    (h.2.2.2.2.2.1 scopeDemoSealed rfl (LedgerKey.account 42)).1,
    (h.2.2.2.2.2.1 scopeDemoSealed rfl (LedgerKey.account 42)).2⟩


/-! ## Root commitChild error discipline (C2) -/

theorem storeLoop_ok_cache {σ : Type}
    (storeF : LedgerKey → Option LedgerEntry → σ → Option σ) :
    ∀ (l : List (LedgerKey × Option LedgerEntry)) (st : σ)
      (c : List (LedgerKey × Option LedgerEntry)) (st2 : σ)
      (c2 : List (LedgerKey × Option LedgerEntry)),
      storeLoop storeF st l c = .ok (st2, c2) → c2 = storeCachePut l c := by
  intro l
  induction l with
  | nil =>
    intro st c st2 c2 h
    rw [storeLoop] at h
    have h2 := Except.ok.inj h
    rw [storeCachePut]
    simp
    exact (congrArg Prod.snd h2).symm
  | cons kv rest ih =>
    intro st c st2 c2 h
    obtain ⟨k, oe⟩ := kv
    rw [storeLoop] at h
    cases hsf : storeF k oe st with
    | none => rw [hsf] at h; exact Except.noConfusion h
    | some st3 =>
      rw [hsf] at h
      exact ih st3 (mapSet c k oe) st2 c2 h

theorem storeCachePut_get_not_mem :
    ∀ (l : List (LedgerKey × Option LedgerEntry))
      (c : List (LedgerKey × Option LedgerEntry)) (k : LedgerKey),
      k ∉ l.map Prod.fst →
      mapGet (storeCachePut l c) k = mapGet c k := by
  intro l
  induction l with
  | nil => intro c k _; rfl
  | cons kv rest ih =>
    intro c k hk
    have hk1 : k ≠ kv.1 := by
      intro hcon
      exact hk (by rw [hcon]; exact List.mem_map_of_mem Prod.fst (by simp))
    have hk2 : k ∉ rest.map Prod.fst := by
      intro hcon
      exact hk (List.mem_cons_of_mem _ hcon)
    have hstep : storeCachePut (kv :: rest) c =
        storeCachePut rest (mapSet c kv.1 kv.2) := by
      rw [storeCachePut, storeCachePut]
      rfl
    rw [hstep, ih (mapSet c kv.1 kv.2) k hk2,
      mapGet_set_ne c kv.1 k kv.2 hk1]

/-- C2: on every root commit attempt the best-offers cache is cleared; on
failure the entry cache is replaced wholesale by a fresh empty one and the
error propagates with the transaction still open, the child still attached
and the header unchanged; only on success are the transaction committed, the
child dropped and its header adopted, with the entry cache updated per key
(entry or explicit null), keys the child never touched keeping their cached
value. -/
theorem root_commitChild_discipline {σ : Type}
    (storeF : LedgerKey → Option LedgerEntry → σ → Option σ)
    (r : RootState σ) (centries : List (LedgerKey × Option LedgerEntry))
    (cheader : LedgerHeader) (r2 : RootState σ) (ok : Bool)
    (hchild : r.mChild = true) (htxn : r.mTxnOpen = true)
    (h : rootCommitChild storeF r centries cheader = (r2, ok)) :
    r2.mBestOffersCache = [] ∧
    (ok = false → r2.mEntryCache = [] ∧ r2.mTxnOpen = true ∧
      r2.mChild = true ∧ r2.mHeader = r.mHeader) ∧
    (ok = true → r2.mTxnOpen = false ∧ r2.mChild = false ∧
      r2.mHeader = cheader ∧
      r2.mEntryCache = storeCachePut centries r.mEntryCache ∧
      ∀ k, k ∉ centries.map Prod.fst →
        mapGet r2.mEntryCache k = mapGet r.mEntryCache k) := by
  rw [rootCommitChild] at h
  cases hloop : storeLoop storeF r.mStore centries r.mEntryCache with
  | error st2 =>
    rw [hloop] at h
    have hr : r2 = { r with mBestOffersCache := [], mStore := st2, mEntryCache := [] } :=
      (congrArg Prod.fst h).symm
    have hok : ok = false := (congrArg Prod.snd h).symm
    subst hr
    subst hok
    exact ⟨rfl, fun _ => ⟨rfl, htxn, hchild, rfl⟩,
      fun hcon => absurd hcon (by simp)⟩
  | ok p =>
    obtain ⟨st2, cache2⟩ := p
    rw [hloop] at h
    have hr : r2 = { r with mBestOffersCache := [], mStore := st2, mEntryCache := cache2, mTxnOpen := false, mChild := false, mHeader := cheader } :=
      (congrArg Prod.fst h).symm
    have hok : ok = true := (congrArg Prod.snd h).symm
    subst hr
    subst hok
    have hcache := storeLoop_ok_cache storeF centries r.mStore r.mEntryCache
      st2 cache2 hloop
    refine ⟨rfl, fun hcon => absurd hcon (by simp),
      fun _ => ⟨rfl, rfl, rfl, hcache, ?_⟩⟩
    intro k hk
    show mapGet cache2 k = mapGet r.mEntryCache k
    rw [hcache]
    exact storeCachePut_get_not_mem centries r.mEntryCache k hk

/-- C2 witness: a one-entry commit against a counting store succeeds,
committing the transaction, dropping the child, adopting the header and
caching the stored entry. -/
theorem root_commitChild_discipline_witness :
    (RootState.mk 0 [] [] scopeDemoHeader true true).mChild = true ∧
    (rootCommitChild (fun _ _ n => some (n + 1))
      (RootState.mk 0 [] [] scopeDemoHeader true true)
      [(LedgerKey.account 42, some scopeDemoEntry)] ⟨9, 0⟩).1.mHeader =
        ⟨9, 0⟩ := by
  have h := root_commitChild_discipline (σ := Nat)
    (fun _ _ n => some (n + 1)) (RootState.mk 0 [] [] scopeDemoHeader true true)
    [(LedgerKey.account 42, some scopeDemoEntry)] ⟨9, 0⟩
    (RootState.mk 1 [(LedgerKey.account 42, some scopeDemoEntry)] []
      ⟨9, 0⟩ false false) true rfl rfl rfl
  exact ⟨rfl, (h.2.2 rfl).2.2.1⟩


/-! ## Inflation winners on an empty delta (C4) -/

/-- C4: when the scope's entry map induces an empty inflation-vote delta,
`getInflationWinners` does NOT reduce to the parent's answer: the source
calls `std::max_element` on the empty `deltaVotes` map and dereferences the
returned past-the-end iterator (`->second`, `ledger/LedgerState.cpp:631-635`),
which is undefined behaviour — modelled by the embedded function returning
`none` instead of `some` of the parent's winners. -/
theorem getInflationWinners_empty_delta_ub
    (parentWinners : Nat → Int → List InflationWinner)
    (parent : LedgerKey → Option LedgerEntry) (entries : EntryMap)
    (maxWinners : Nat) (minVotes : Int)
    (hdelta : getDeltaVotes parent entries = []) :
    getInflationWinners parentWinners parent entries maxWinners minVotes =
      none := by
  rw [getInflationWinners]
  rw [hdelta]

/-- C4 witness: a scope whose working set touches only an offer produces an
empty vote delta, hitting the undefined dereference. -/
theorem getInflationWinners_empty_delta_ub_witness :
    getDeltaVotes scopeDemoParent
      [(LedgerEntryKey sampleOfferA, some sampleOfferA)] = [] ∧
    getInflationWinners (fun _ _ => [InflationWinner.mk 1 2000000000])
      scopeDemoParent [(LedgerEntryKey sampleOfferA, some sampleOfferA)]
      3 1000000000 = none := by
  refine ⟨rfl, ?_⟩
  exact getInflationWinners_empty_delta_ub
    (fun _ _ => [InflationWinner.mk 1 2000000000]) scopeDemoParent
    [(LedgerEntryKey sampleOfferA, some sampleOfferA)] 3 1000000000 rfl


/-! ## Create/commit/load and create/erase laws (C6) -/

/-- C6: in a fresh child scope over parent `P` (whose own parent view is
`gp` composed through `P.mEntry`), `create(e); commit` followed by
`load(key(e))` in a fresh scope over the updated parent yields `e` with
`lastModifiedLedgerSeq` stamped to the child's header sequence exactly when
the update flag is set; and `create(e)` followed by the handle's
`erase(key(e))` (deactivate + erase) leaves the child's entry map with no
record at all, so sealing and committing it leaves the parent's entry map
unchanged — no residual tombstone bubbles up. -/
theorem create_commit_erase_laws (gp : LedgerKey → Option LedgerEntry)
    (P : ScopeState) (hdrS : LedgerHeader) (su : Bool) (e : LedgerEntry)
    (hdr2 : LedgerHeader) (flag2 : Bool) (hchild : P.mChild = true)
    (hnone : getNewestVersion gp P.mEntry (LedgerEntryKey e) = none) :
    createCommitLoad gp P hdrS su e hdr2 flag2 =
      .ok (some (if su then { e with lastModifiedLedgerSeq := hdrS.ledgerSeq }
        else e)) ∧
    createEraseEntries gp P hdrS su e = .ok [] ∧
    (createEraseCommit gp P hdrS su e).map ScopeState.mEntry =
      .ok P.mEntry := by
  have hcreate : createOp (getNewestVersion gp P.mEntry) (freshScope hdrS su)
      e = Except.ok (⟨[(LedgerEntryKey e, some e)],
        insert (LedgerEntryKey e) ∅, false, false, hdrS, su, false⟩ :
        ScopeState) := by
    rw [createOp, if_neg (by simp [freshScope]), if_neg (by simp [freshScope]),
      if_neg (by
        rw [show getNewestVersion (getNewestVersion gp P.mEntry)
          (freshScope hdrS su).mEntry (LedgerEntryKey e) = none from hnone]
        simp)]
    rfl
  have hseal : sealOp (⟨[(LedgerEntryKey e, some e)],
      insert (LedgerEntryKey e) ∅, false, false, hdrS, su, false⟩ :
      ScopeState) = Except.ok (⟨[(LedgerEntryKey e,
        some (if su then { e with lastModifiedLedgerSeq := hdrS.ledgerSeq }
          else e))], ∅, false, false, hdrS, su, true⟩ : ScopeState) := by
    cases su with
    | true => rfl
    | false => rfl
  have hcc : childCommitOp gp P (⟨[(LedgerEntryKey e,
      some (if su then { e with lastModifiedLedgerSeq := hdrS.ledgerSeq }
        else e))], ∅, false, false, hdrS, su, true⟩ : ScopeState).mEntry
      (⟨[(LedgerEntryKey e,
      some (if su then { e with lastModifiedLedgerSeq := hdrS.ledgerSeq }
        else e))], ∅, false, false, hdrS, su, true⟩ : ScopeState).mHeader =
      Except.ok (⟨mapSet P.mEntry (LedgerEntryKey e)
        (some (if su then { e with lastModifiedLedgerSeq := hdrS.ledgerSeq }
          else e)), P.mActive, P.mActiveHeader, false, hdrS,
        P.mShouldUpdateLastModified, P.mIsSealed⟩ : ScopeState) := by
    rw [childCommitOp, if_pos hchild]
    rfl
  have hnv2 : getNewestVersion (getNewestVersion gp
      (⟨mapSet P.mEntry (LedgerEntryKey e)
        (some (if su then { e with lastModifiedLedgerSeq := hdrS.ledgerSeq }
          else e)), P.mActive, P.mActiveHeader, false, hdrS,
        P.mShouldUpdateLastModified, P.mIsSealed⟩ : ScopeState).mEntry)
      (freshScope hdr2 flag2).mEntry (LedgerEntryKey e) =
      some (if su then { e with lastModifiedLedgerSeq := hdrS.ledgerSeq }
        else e) := by
    show getNewestVersion gp (mapSet P.mEntry (LedgerEntryKey e)
      (some (if su then { e with lastModifiedLedgerSeq := hdrS.ledgerSeq }
        else e))) (LedgerEntryKey e) =
      some (if su then { e with lastModifiedLedgerSeq := hdrS.ledgerSeq }
        else e)
    exact getNewestVersion_set_eq gp P.mEntry (LedgerEntryKey e) _
  have hload : loadOp (getNewestVersion gp
      (⟨mapSet P.mEntry (LedgerEntryKey e)
        (some (if su then { e with lastModifiedLedgerSeq := hdrS.ledgerSeq }
          else e)), P.mActive, P.mActiveHeader, false, hdrS,
        P.mShouldUpdateLastModified, P.mIsSealed⟩ : ScopeState).mEntry)
      (freshScope hdr2 flag2) (LedgerEntryKey e) =
      Except.ok ((⟨mapSet [] (LedgerEntryKey e)
        (some (if su then { e with lastModifiedLedgerSeq := hdrS.ledgerSeq }
          else e)), insert (LedgerEntryKey e) ∅, false, false, hdr2, flag2,
        false⟩ : ScopeState),
        some (if su then { e with lastModifiedLedgerSeq := hdrS.ledgerSeq }
          else e)) := by
    rw [loadOp, if_neg (by simp [freshScope]), if_neg (by simp [freshScope]),
      if_neg (by simp [freshScope]), hnv2]
    rfl
  have hde : deactivateOp (⟨[(LedgerEntryKey e, some e)],
      insert (LedgerEntryKey e) ∅, false, false, hdrS, su, false⟩ :
      ScopeState) (LedgerEntryKey e) =
      Except.ok (⟨[(LedgerEntryKey e, some e)],
        Finset.erase (insert (LedgerEntryKey e) (∅ : Finset LedgerKey)) (LedgerEntryKey e), false, false,
        hdrS, su, false⟩ : ScopeState) := by
    rw [deactivateOp, if_pos (Finset.mem_insert_self _ _)]
  have hgv3 : getNewestVersion (getNewestVersion gp P.mEntry)
      (⟨[(LedgerEntryKey e, some e)],
        Finset.erase (insert (LedgerEntryKey e) (∅ : Finset LedgerKey)) (LedgerEntryKey e), false, false,
        hdrS, su, false⟩ : ScopeState).mEntry (LedgerEntryKey e) = some e :=
    getNewestVersion_set_eq (getNewestVersion gp P.mEntry) []
      (LedgerEntryKey e) (some e)
  have herase : eraseOp (getNewestVersion gp P.mEntry)
      (⟨[(LedgerEntryKey e, some e)],
        Finset.erase (insert (LedgerEntryKey e) (∅ : Finset LedgerKey)) (LedgerEntryKey e), false, false,
        hdrS, su, false⟩ : ScopeState) (LedgerEntryKey e) =
      Except.ok (⟨mapDel [(LedgerEntryKey e, some e)] (LedgerEntryKey e),
        Finset.erase (insert (LedgerEntryKey e) (∅ : Finset LedgerKey)) (LedgerEntryKey e), false, false,
        hdrS, su, false⟩ : ScopeState) := by
    rw [eraseOp, if_neg (by simp), if_neg (by simp),
      if_neg (by rw [hgv3]; simp), if_neg (Finset.not_mem_erase _ _),
      if_pos (by rw [hnone]; rfl)]
  have hS2entries : mapDel [(LedgerEntryKey e, some e)] (LedgerEntryKey e) =
      [] := by
    rw [mapDel, if_pos rfl]
    rfl
  have hseal2 : sealOp (⟨mapDel [(LedgerEntryKey e, some e)]
      (LedgerEntryKey e),
      Finset.erase (insert (LedgerEntryKey e) (∅ : Finset LedgerKey)) (LedgerEntryKey e), false, false,
      hdrS, su, false⟩ : ScopeState) =
      Except.ok (⟨if su then stampEntries hdrS.ledgerSeq
          (mapDel [(LedgerEntryKey e, some e)] (LedgerEntryKey e))
        else mapDel [(LedgerEntryKey e, some e)] (LedgerEntryKey e), ∅, false,
        false, hdrS, su, true⟩ : ScopeState) := by
    cases su with
    | true => rfl
    | false => rfl
  have hS3entries : (if su then stampEntries hdrS.ledgerSeq
      (mapDel [(LedgerEntryKey e, some e)] (LedgerEntryKey e))
      else mapDel [(LedgerEntryKey e, some e)] (LedgerEntryKey e)) = [] := by
    rw [hS2entries]
    cases su with
    | true => rfl
    | false => rfl
  have hcc2 : childCommitOp gp P (⟨if su then stampEntries hdrS.ledgerSeq
      (mapDel [(LedgerEntryKey e, some e)] (LedgerEntryKey e))
      else mapDel [(LedgerEntryKey e, some e)] (LedgerEntryKey e), ∅, false,
      false, hdrS, su, true⟩ : ScopeState).mEntry
      (⟨if su then stampEntries hdrS.ledgerSeq
      (mapDel [(LedgerEntryKey e, some e)] (LedgerEntryKey e))
      else mapDel [(LedgerEntryKey e, some e)] (LedgerEntryKey e), ∅, false,
      false, hdrS, su, true⟩ : ScopeState).mHeader =
      Except.ok (⟨commitMergeEntries gp P.mEntry
        (if su then stampEntries hdrS.ledgerSeq
          (mapDel [(LedgerEntryKey e, some e)] (LedgerEntryKey e))
        else mapDel [(LedgerEntryKey e, some e)] (LedgerEntryKey e)),
        P.mActive, P.mActiveHeader, false, hdrS,
        P.mShouldUpdateLastModified, P.mIsSealed⟩ : ScopeState) := by
    rw [childCommitOp, if_pos hchild]
  have hP2b : commitMergeEntries gp P.mEntry
      (if su then stampEntries hdrS.ledgerSeq
        (mapDel [(LedgerEntryKey e, some e)] (LedgerEntryKey e))
      else mapDel [(LedgerEntryKey e, some e)] (LedgerEntryKey e)) =
      P.mEntry := by
    rw [hS3entries]
    rfl
  refine ⟨?_, ?_, ?_⟩
  · simp only [createCommitLoad, hcreate, hseal, hcc, hload]
  · simp only [createEraseEntries, hcreate, hde, herase]
    rw [hS2entries]
  · simp only [createEraseCommit, hcreate, hde, herase, hseal2, hcc2,
      Except.map]
    rw [hP2b]

/-- C6 witness: at a concrete parent with an attached child, creating and
committing the demo account entry makes a fresh load return it stamped with
the child's header sequence, and create-then-erase leaves both the child map
and the committed parent map empty. -/
theorem create_commit_erase_laws_witness :
    createCommitLoad scopeDemoParent
      (⟨[], ∅, false, true, ⟨3, 0⟩, false, false⟩ : ScopeState) ⟨9, 0⟩ true
      scopeDemoEntry ⟨3, 0⟩ false =
      .ok (some ⟨9, .account ⟨42, 7, none⟩⟩) ∧
    createEraseEntries scopeDemoParent
      (⟨[], ∅, false, true, ⟨3, 0⟩, false, false⟩ : ScopeState) ⟨9, 0⟩ true
      scopeDemoEntry = .ok [] ∧
    (createEraseCommit scopeDemoParent
      (⟨[], ∅, false, true, ⟨3, 0⟩, false, false⟩ : ScopeState) ⟨9, 0⟩ true
      scopeDemoEntry).map ScopeState.mEntry = .ok [] := by
  have h := create_commit_erase_laws scopeDemoParent
    (⟨[], ∅, false, true, ⟨3, 0⟩, false, false⟩ : ScopeState) ⟨9, 0⟩ true
    scopeDemoEntry ⟨3, 0⟩ false rfl rfl
  exact ⟨h.1, h.2.1, h.2.2⟩


/-! ## Order-theoretic facts about the best-offer comparison (for C3) -/

theorem mdLt_iff_lex (p q : Nat × Int) :
    mdLt p q = true ↔ (p.2 < q.2 ∨ (p.2 = q.2 ∧ p.1 < q.1)) := by
  rw [mdLt]
  simp

theorem isBetterOffer_iff (a b2 : LedgerEntry) :
    isBetterOffer a b2 = true ↔
      (mdLt (priceDouble a.offerData.price) (priceDouble b2.offerData.price) =
        true ∨
      (priceDouble a.offerData.price = priceDouble b2.offerData.price ∧
        a.offerData.offerID < b2.offerData.offerID)) := by
  rw [isBetterOffer]
  split_ifs with h1 h2
  · simp [h1]
  · constructor
    · intro h
      exact Or.inr ⟨h2, by simpa using h⟩
    · rintro (hcon | ⟨h3, h4⟩)
      · exact absurd hcon h1
      · simpa using h4
  · simp [h1, h2]

theorem mdLt_trans (p q r : Nat × Int) (h1 : mdLt p q = true)
    (h2 : mdLt q r = true) : mdLt p r = true := by
  rw [mdLt_iff_lex] at h1 h2 ⊢
  omega

theorem mdLt_eq_of_both_false (p q : Nat × Int) (h1 : mdLt p q = false)
    (h2 : mdLt q p = false) : p = q := by
  have n1 : ¬ (p.2 < q.2 ∨ (p.2 = q.2 ∧ p.1 < q.1)) := by
    rw [← mdLt_iff_lex, h1]
    simp
  have n2 : ¬ (q.2 < p.2 ∨ (q.2 = p.2 ∧ q.1 < p.1)) := by
    rw [← mdLt_iff_lex, h2]
    simp
  obtain ⟨p1, p2⟩ := p
  obtain ⟨q1, q2⟩ := q
  simp only [Prod.mk.injEq]
  constructor
  · omega
  · omega

theorem isBetterOffer_irrefl (e : LedgerEntry) : isBetterOffer e e = false := by
  rw [Bool.eq_false_iff, Ne, isBetterOffer_iff]
  rintro (h | ⟨h, hid⟩)
  · rw [mdLt_iff_lex] at h
    omega
  · omega

theorem isBetterOffer_asymm (a b2 : LedgerEntry)
    (h : isBetterOffer a b2 = true) : isBetterOffer b2 a = false := by
  cases hx : isBetterOffer b2 a with
  | false => rfl
  | true =>
    exfalso
    rw [isBetterOffer_iff] at h hx
    rcases h with h | ⟨he, hi⟩ <;> rcases hx with hx | ⟨hxe, hxi⟩
    · rw [mdLt_iff_lex] at h hx
      omega
    · rw [hxe, mdLt_iff_lex] at h
      omega
    · rw [he, mdLt_iff_lex] at hx
      omega
    · omega

theorem isBetterOffer_trans (a b2 c : LedgerEntry)
    (h1 : isBetterOffer a b2 = true) (h2 : isBetterOffer b2 c = true) :
    isBetterOffer a c = true := by
  rw [isBetterOffer_iff] at h1 h2 ⊢
  rcases h1 with h1 | ⟨h1e, h1i⟩ <;> rcases h2 with h2 | ⟨h2e, h2i⟩
  · exact Or.inl (mdLt_trans _ _ _ h1 h2)
  · rw [← h2e]
    exact Or.inl h1
  · rw [h1e]
    exact Or.inl h2
  · exact Or.inr ⟨h1e.trans h2e, lt_trans h1i h2i⟩

theorem isBetterOffer_negtrans (a b2 c : LedgerEntry)
    (h1 : isBetterOffer a b2 = false) (h2 : isBetterOffer b2 c = false) :
    isBetterOffer a c = false := by
  have nab : ¬ (mdLt (priceDouble a.offerData.price)
      (priceDouble b2.offerData.price) = true ∨
      (priceDouble a.offerData.price = priceDouble b2.offerData.price ∧
        a.offerData.offerID < b2.offerData.offerID)) := by
    rw [← isBetterOffer_iff, h1]
    simp
  have nbc : ¬ (mdLt (priceDouble b2.offerData.price)
      (priceDouble c.offerData.price) = true ∨
      (priceDouble b2.offerData.price = priceDouble c.offerData.price ∧
        b2.offerData.offerID < c.offerData.offerID)) := by
    rw [← isBetterOffer_iff, h2]
    simp
  have hab1 : mdLt (priceDouble a.offerData.price)
      (priceDouble b2.offerData.price) = false := by
    cases hx : mdLt (priceDouble a.offerData.price)
      (priceDouble b2.offerData.price) with
    | false => rfl
    | true => exact absurd (Or.inl hx) nab
  have hbc1 : mdLt (priceDouble b2.offerData.price)
      (priceDouble c.offerData.price) = false := by
    cases hx : mdLt (priceDouble b2.offerData.price)
      (priceDouble c.offerData.price) with
    | false => rfl
    | true => exact absurd (Or.inl hx) nbc
  rw [Bool.eq_false_iff, Ne, isBetterOffer_iff]
  rintro (hlt | ⟨heq, hid⟩)
  · cases hba : mdLt (priceDouble b2.offerData.price)
      (priceDouble a.offerData.price) with
    | false =>
      have he := mdLt_eq_of_both_false _ _ hab1 hba
      rw [he] at hlt
      exact Bool.noConfusion (hbc1.symm.trans hlt)
    | true =>
      have := mdLt_trans _ _ _ hba hlt
      exact Bool.noConfusion (hbc1.symm.trans this)
  · cases hba : mdLt (priceDouble b2.offerData.price)
      (priceDouble a.offerData.price) with
    | false =>
      have he := mdLt_eq_of_both_false _ _ hab1 hba
      have hia : ¬ a.offerData.offerID < b2.offerData.offerID :=
        fun hcon => nab (Or.inr ⟨he, hcon⟩)
      have hib : ¬ b2.offerData.offerID < c.offerData.offerID :=
        fun hcon => nbc (Or.inr ⟨he.symm.trans heq, hcon⟩)
      omega
    | true =>
      rw [heq] at hba
      have hia : mdLt (priceDouble b2.offerData.price)
          (priceDouble c.offerData.price) = true := hba
      exact Bool.noConfusion (hbc1.symm.trans hia)

/-! ## List search helpers (for C3) -/

theorem find_append_some {α : Type} (l1 l2 : List α) (f : α → Bool) (o : α)
    (h : l1.find? f = some o) : (l1 ++ l2).find? f = some o := by
  induction l1 with
  | nil => exact absurd h (by simp)
  | cons a t ih =>
    cases hpa : f a with
    | true =>
      rw [List.find?_cons_of_pos _ hpa] at h
      rw [List.cons_append, List.find?_cons_of_pos _ hpa]
      exact h
    | false =>
      rw [List.find?_cons_of_neg _ (by rw [hpa]; simp)] at h
      rw [List.cons_append, List.find?_cons_of_neg _ (by rw [hpa]; simp)]
      exact ih h

theorem find_append_none {α : Type} (l1 l2 : List α) (f : α → Bool)
    (h : l1.find? f = none) : (l1 ++ l2).find? f = l2.find? f := by
  induction l1 with
  | nil => rfl
  | cons a t ih =>
    cases hpa : f a with
    | true =>
      rw [List.find?_cons_of_pos _ hpa] at h
      exact Option.noConfusion h
    | false =>
      rw [List.find?_cons_of_neg _ (by rw [hpa]; simp)] at h
      rw [List.cons_append, List.find?_cons_of_neg _ (by rw [hpa]; simp)]
      exact ih h

theorem find_min_of_pairwise (f : LedgerEntry → Bool) :
    ∀ (l : List LedgerEntry),
      l.Pairwise (fun x y => isBetterOffer y x = false) →
      ∀ e, l.find? f = some e →
      ∀ o ∈ l, f o = true → isBetterOffer o e = false := by
  intro l
  induction l with
  | nil => intro _ e he; exact absurd he (by simp)
  | cons a t ih =>
    intro hpw e he o ho hfo
    rw [List.pairwise_cons] at hpw
    cases hpa : f a with
    | true =>
      rw [List.find?_cons_of_pos _ hpa] at he
      have hea : e = a := (Option.some.inj he).symm
      subst hea
      rcases List.mem_cons.mp ho with h | h
      · rw [h]
        exact isBetterOffer_irrefl e
      · exact hpw.1 o h
    | false =>
      rw [List.find?_cons_of_neg _ (by rw [hpa]; simp)] at he
      rcases List.mem_cons.mp ho with h | h
      · rw [h, hpa] at hfo
        exact Bool.noConfusion hfo
      · exact ih hpw.2 e he o h hfo

theorem take_min_len {α : Type} (l : List α) (n : Nat) :
    l.take (min n l.length) = l.take n := by
  rcases le_total n l.length with h | h
  · rw [min_eq_left h]
  · rw [min_eq_right h, List.take_length, List.take_of_length_le h]

theorem rootView_eq_of_nodup (sorted : List LedgerEntry)
    (hnd : (sorted.map LedgerEntryKey).Nodup) (e : LedgerEntry)
    (he : e ∈ sorted) : rootView sorted (LedgerEntryKey e) = some e := by
  induction sorted with
  | nil => exact absurd he (by simp)
  | cons a t ih =>
    rw [List.map_cons, List.nodup_cons] at hnd
    rcases List.mem_cons.mp he with h | h
    · rw [h, rootView, List.find?_cons_of_pos _ (by simp)]
    · rw [rootView, List.find?_cons_of_neg]
      · exact ih hnd.2 h
      · have hmem : LedgerEntryKey e ∈ t.map LedgerEntryKey :=
          List.mem_map_of_mem LedgerEntryKey h
        intro hcon
        have h2 : LedgerEntryKey a = LedgerEntryKey e := by simpa using hcon
        exact hnd.1 (h2 ▸ hmem)

theorem rootView_some (sorted : List LedgerEntry) (k : LedgerKey)
    (o : LedgerEntry) (h : rootView sorted k = some o) :
    o ∈ sorted ∧ LedgerEntryKey o = k := by
  refine ⟨List.mem_of_find?_eq_some h, ?_⟩
  have := List.find?_some h
  simpa using this


/-! ## The root best-offer search returns the first non-excluded offer (C3) -/

theorem rootBestLoop_succ (sorted : List LedgerEntry)
    (excl : Finset LedgerKey) (fuel : Nat) (offers : List LedgerEntry) :
    rootBestLoop sorted excl (fuel + 1) offers false =
      match (loadBestOffers sorted BATCH_SIZE offers.length).find?
          (fun o => decide (LedgerEntryKey o ∉ excl)) with
      | some o => some o
      | none => rootBestLoop sorted excl fuel
          (offers ++ loadBestOffers sorted BATCH_SIZE offers.length)
          (decide ((loadBestOffers sorted BATCH_SIZE offers.length).length <
            BATCH_SIZE)) := by
  rw [rootBestLoop, if_neg (by simp)]

theorem rootBestLoop_eq_find (sorted : List LedgerEntry)
    (excl : Finset LedgerKey) :
    ∀ (fuel p : Nat) (allLoaded : Bool),
      p ≤ sorted.length →
      (∀ o ∈ sorted.take p, LedgerEntryKey o ∈ excl) →
      (allLoaded = true → sorted.length ≤ p) →
      sorted.length ≤ fuel + p →
      rootBestLoop sorted excl fuel (sorted.take p) allLoaded =
        (sorted.drop p).find? (fun o => decide (LedgerEntryKey o ∉ excl)) := by
  intro fuel
  induction fuel with
  | zero =>
    intro p allLoaded hp hpref hall hfuel
    rw [rootBestLoop, List.drop_eq_nil_of_le (by omega)]
    rfl
  | succ fuel ih =>
    intro p allLoaded hp hpref hall hfuel
    cases hal : allLoaded with
    | true =>
      rw [rootBestLoop, if_pos rfl, List.drop_eq_nil_of_le (hall hal)]
      rfl
    | false =>
      rw [rootBestLoop_succ]
      have hlen : (sorted.take p).length = p := by
        rw [List.length_take]
        omega
      rw [hlen]
      have hB : BATCH_SIZE = 5 := rfl
      have hnew : loadBestOffers sorted BATCH_SIZE p =
          (sorted.drop p).take BATCH_SIZE := rfl
      have hklen : (loadBestOffers sorted BATCH_SIZE p).length =
          min BATCH_SIZE (sorted.length - p) := by
        rw [hnew, List.length_take, List.length_drop]
      cases hf : (loadBestOffers sorted BATCH_SIZE p).find?
          (fun o => decide (LedgerEntryKey o ∉ excl)) with
      | some o =>
        show (some o : Option LedgerEntry) =
          (sorted.drop p).find? (fun o => decide (LedgerEntryKey o ∉ excl))
        have hfind : (sorted.drop p).find?
            (fun o => decide (LedgerEntryKey o ∉ excl)) = some o := by
          rw [← List.take_append_drop BATCH_SIZE (sorted.drop p)]
          exact find_append_some _ _ _ o hf
        rw [hfind]
      | none =>
        show rootBestLoop sorted excl fuel
            (sorted.take p ++ loadBestOffers sorted BATCH_SIZE p)
            (decide ((loadBestOffers sorted BATCH_SIZE p).length <
              BATCH_SIZE)) =
          (sorted.drop p).find? (fun o => decide (LedgerEntryKey o ∉ excl))
        have hoff : sorted.take p ++ loadBestOffers sorted BATCH_SIZE p =
            sorted.take (p + (loadBestOffers sorted BATCH_SIZE p).length) := by
          rw [List.take_add]
          congr 1
          rw [hklen, hnew]
          rw [show BATCH_SIZE ⊓ (sorted.length - p) =
            min BATCH_SIZE (sorted.drop p).length by rw [List.length_drop]]
          exact (take_min_len (sorted.drop p) BATCH_SIZE).symm
        have hall2 : decide ((loadBestOffers sorted BATCH_SIZE p).length <
            BATCH_SIZE) = true → sorted.length ≤
            p + (loadBestOffers sorted BATCH_SIZE p).length := by
          intro hdec
          have hlt : (loadBestOffers sorted BATCH_SIZE p).length <
              BATCH_SIZE := by simpa using hdec
          rw [hklen] at hlt ⊢
          rw [hB] at hlt ⊢
          omega
        have hpref2 : ∀ o ∈ sorted.take
            (p + (loadBestOffers sorted BATCH_SIZE p).length),
            LedgerEntryKey o ∈ excl := by
          intro o ho
          rw [← hoff] at ho
          rcases List.mem_append.mp ho with h | h
          · exact hpref o h
          · have := List.find?_eq_none.mp hf o h
            simpa using this
        have hp2 : p + (loadBestOffers sorted BATCH_SIZE p).length ≤
            sorted.length := by
          rw [hklen, hB]
          omega
        have hfuel2 : sorted.length ≤ fuel +
            (p + (loadBestOffers sorted BATCH_SIZE p).length) := by
          rw [hklen, hB] at *
          omega
        rw [hoff, ih (p + (loadBestOffers sorted BATCH_SIZE p).length) _ hp2
          hpref2 hall2 hfuel2]
        have hdropeq : sorted.drop
            (p + (loadBestOffers sorted BATCH_SIZE p).length) =
            (sorted.drop p).drop BATCH_SIZE := by
          rw [List.drop_drop, hklen, hB]
          rcases le_total 5 (sorted.length - p) with h5 | h5
          · rw [min_eq_left h5, Nat.add_comm]
          · rw [min_eq_right h5,
              List.drop_eq_nil_of_le (by omega),
              List.drop_eq_nil_of_le (by omega)]
        rw [hdropeq]
        have hrhs : (sorted.drop p).find?
            (fun o => decide (LedgerEntryKey o ∉ excl)) =
            ((sorted.drop p).drop BATCH_SIZE).find?
            (fun o => decide (LedgerEntryKey o ∉ excl)) := by
          rw [← List.take_append_drop BATCH_SIZE (sorted.drop p)]
          rw [find_append_none _ _ _
            (show ((sorted.drop p).take BATCH_SIZE).find?
              (fun o => decide (LedgerEntryKey o ∉ excl)) = none from hf)]
          rw [List.take_append_drop]
        rw [hrhs]

theorem rootGetBestOffer_eq_find (sorted : List LedgerEntry)
    (cached : List LedgerEntry) (allLoaded : Bool) (excl : Finset LedgerKey)
    (hcoh : cached = sorted.take cached.length)
    (hall : allLoaded = true → sorted.length ≤ cached.length) :
    rootGetBestOffer sorted cached allLoaded excl =
      sorted.find? (fun o => decide (LedgerEntryKey o ∉ excl)) := by
  have hp : cached.length ≤ sorted.length := by
    have := congrArg List.length hcoh
    rw [List.length_take] at this
    omega
  rw [rootGetBestOffer]
  cases hf : cached.find? (fun o => decide (LedgerEntryKey o ∉ excl)) with
  | some o =>
    have : sorted.find? (fun o => decide (LedgerEntryKey o ∉ excl)) =
        some o := by
      rw [← List.take_append_drop cached.length sorted]
      refine find_append_some _ _ _ o ?_
      rw [← hcoh]
      exact hf
    rw [this]
  | none =>
    have hpref : ∀ o ∈ sorted.take cached.length, LedgerEntryKey o ∈ excl := by
      intro o ho
      rw [← hcoh] at ho
      have := List.find?_eq_none.mp hf o ho
      simpa using this
    have hloop := rootBestLoop_eq_find sorted excl (sorted.length + 2)
      cached.length allLoaded hp hpref hall (by omega)
    rw [← hcoh] at hloop
    rw [hloop]
    rw [← List.take_append_drop cached.length sorted]
    rw [find_append_none _ _ _ (by rw [← hcoh]; exact hf)]
    rw [List.take_append_drop]


/-! ## Decomposing the local candidate set along the working-set list (C3) -/

theorem mapGet_cons_ne_none (k0 : LedgerKey) (v0 : Option LedgerEntry)
    (rest : EntryMap) (k : LedgerKey) :
    (mapGet ((k0, v0) :: rest) k ≠ none) ↔
      (k0 = k ∨ mapGet rest k ≠ none) := by
  rw [mapGet]
  by_cases hk : k0 = k
  · simp [hk]
  · simp [hk]

theorem lcand_cons_not_offer (k0 : LedgerKey) (v0 : Option LedgerEntry)
    (rest : EntryMap) (b s : Asset) (excl : Finset LedgerKey)
    (ht : ¬ k0.typeOf = EntryType.OFFER) (o : LedgerEntry) :
    LocalOfferCandidate ((k0, v0) :: rest) b s excl o ↔
      LocalOfferCandidate rest b s excl o := by
  constructor
  · rintro ⟨hm, h2, h3, h4⟩
    rw [mapGet] at hm
    by_cases hk : k0 = LedgerEntryKey o
    · rw [← hk] at h3
      exact absurd h3 ht
    · rw [if_neg hk] at hm
      exact ⟨hm, h2, h3, h4⟩
  · rintro ⟨hm, h2, h3, h4⟩
    refine ⟨?_, h2, h3, h4⟩
    rw [mapGet]
    by_cases hk : k0 = LedgerEntryKey o
    · rw [← hk] at h3
      exact absurd h3 ht
    · rw [if_neg hk]
      exact hm

theorem lcand_cons_excluded (k0 : LedgerKey) (v0 : Option LedgerEntry)
    (rest : EntryMap) (b s : Asset) (excl : Finset LedgerKey)
    (hex : k0 ∈ excl) (o : LedgerEntry) :
    LocalOfferCandidate ((k0, v0) :: rest) b s excl o ↔
      LocalOfferCandidate rest b s excl o := by
  constructor
  · rintro ⟨hm, h2, h3, h4⟩
    rw [mapGet] at hm
    by_cases hk : k0 = LedgerEntryKey o
    · exact absurd (hk ▸ hex) h4
    · rw [if_neg hk] at hm
      exact ⟨hm, h2, h3, h4⟩
  · rintro ⟨hm, h2, h3, h4⟩
    refine ⟨?_, h2, h3, h4⟩
    rw [mapGet]
    by_cases hk : k0 = LedgerEntryKey o
    · exact absurd (hk ▸ hex) h4
    · rw [if_neg hk]
      exact hm

theorem lcand_cons_insert (k0 : LedgerKey) (v0 : Option LedgerEntry)
    (rest : EntryMap) (b s : Asset) (excl : Finset LedgerKey)
    (hnocand : ∀ o, k0 = LedgerEntryKey o → v0 = some o →
      offerMatches o b s = true → False) (o : LedgerEntry) :
    LocalOfferCandidate ((k0, v0) :: rest) b s excl o ↔
      LocalOfferCandidate rest b s (insert k0 excl) o := by
  constructor
  · rintro ⟨hm, h2, h3, h4⟩
    rw [mapGet] at hm
    by_cases hk : k0 = LedgerEntryKey o
    · rw [if_pos hk] at hm
      exact absurd h2 (fun hcon =>
        hnocand o hk (Option.some.inj hm) hcon)
    · rw [if_neg hk] at hm
      refine ⟨hm, h2, h3, ?_⟩
      intro hcon
      rcases Finset.mem_insert.mp hcon with h | h
      · exact hk h.symm
      · exact h4 h
  · rintro ⟨hm, h2, h3, h4⟩
    have hk : ¬ k0 = LedgerEntryKey o :=
      fun hcon => h4 (hcon ▸ Finset.mem_insert_self k0 excl)
    refine ⟨?_, h2, h3, fun hcon =>
      h4 (Finset.mem_insert_of_mem hcon)⟩
    rw [mapGet, if_neg hk]
    exact hm

theorem lcand_cons_match (k0 : LedgerKey) (e2 : LedgerEntry)
    (rest : EntryMap) (b s : Asset) (excl : Finset LedgerKey)
    (ht : k0.typeOf = EntryType.OFFER) (hex : k0 ∉ excl)
    (hwf0 : LedgerEntryKey e2 = k0) (hmch : offerMatches e2 b s = true) :
    LocalOfferCandidate ((k0, some e2) :: rest) b s excl e2 ∧
    (∀ o, LocalOfferCandidate ((k0, some e2) :: rest) b s excl o ↔
      (o = e2 ∨ LocalOfferCandidate rest b s (insert k0 excl) o)) := by
  constructor
  · refine ⟨?_, hmch, by rw [hwf0]; exact ht, by rw [hwf0]; exact hex⟩
    rw [mapGet, if_pos hwf0.symm]
  · intro o
    constructor
    · rintro ⟨hm, h2, h3, h4⟩
      rw [mapGet] at hm
      by_cases hk : k0 = LedgerEntryKey o
      · rw [if_pos hk] at hm
        exact Or.inl (Option.some.inj (Option.some.inj hm)).symm
      · rw [if_neg hk] at hm
        refine Or.inr ⟨hm, h2, h3, ?_⟩
        intro hcon
        rcases Finset.mem_insert.mp hcon with h | h
        · exact hk h.symm
        · exact h4 h
    · rintro (rfl | ⟨hm, h2, h3, h4⟩)
      · refine ⟨?_, hmch, by rw [hwf0]; exact ht, by rw [hwf0]; exact hex⟩
        rw [mapGet, if_pos hwf0.symm]
      · have hk : ¬ k0 = LedgerEntryKey o :=
          fun hcon => h4 (hcon ▸ Finset.mem_insert_self k0 excl)
        refine ⟨?_, h2, h3, fun hcon =>
          h4 (Finset.mem_insert_of_mem hcon)⟩
        rw [mapGet, if_neg hk]
        exact hm


/-! ## The scope-local pass computes the local minimum (C3) -/

theorem scopeBest_fold (b s : Asset) :
    ∀ (m : EntryMap),
      (∀ kv ∈ m, ∀ e2, kv.2 = some e2 → LedgerEntryKey e2 = kv.1) →
      ∀ (excl : Finset LedgerKey) (best : Option LedgerEntry),
      (∀ k, k ∈ (m.foldl (scopeBestStep b s) (best, excl)).2 ↔
        (k ∈ excl ∨ (k.typeOf = EntryType.OFFER ∧ mapGet m k ≠ none))) ∧
      (∀ e, (m.foldl (scopeBestStep b s) (best, excl)).1 = some e →
        (best = some e ∨ LocalOfferCandidate m b s excl e)) ∧
      ((m.foldl (scopeBestStep b s) (best, excl)).1 = none →
        best = none ∧ ∀ o, ¬ LocalOfferCandidate m b s excl o) ∧
      (∀ e, (m.foldl (scopeBestStep b s) (best, excl)).1 = some e →
        (∀ b0, best = some b0 → isBetterOffer b0 e = false) ∧
        (∀ o, LocalOfferCandidate m b s excl o →
          isBetterOffer o e = false)) := by
  intro m
  induction m with
  | nil =>
    intro hwf excl best
    refine ⟨fun k => ?_, fun e he => Or.inl he, fun hn => ⟨hn, fun o ho => ?_⟩,
      fun e he => ⟨fun b0 hb0 => ?_, fun o ho => ?_⟩⟩
    · rw [mapGet]
      simp
    · obtain ⟨hm, h2, h3, h4⟩ := ho
      rw [mapGet] at hm
      exact Option.noConfusion hm
    · have he2 : best = some e := he
      rw [he2] at hb0
      rw [Option.some.inj hb0]
      exact isBetterOffer_irrefl b0
    · obtain ⟨hm, h2, h3, h4⟩ := ho
      rw [mapGet] at hm
      exact Option.noConfusion hm
  | cons kv rest ih =>
    intro hwf excl best
    obtain ⟨k0, v0⟩ := kv
    have hwf0 : ∀ e2, v0 = some e2 → LedgerEntryKey e2 = k0 :=
      fun e2 he2 => hwf (k0, v0) (by simp) e2 he2
    have hwft : ∀ kv2 ∈ rest, ∀ e2, kv2.2 = some e2 →
        LedgerEntryKey e2 = kv2.1 :=
      fun kv2 hkv2 => hwf kv2 (List.mem_cons_of_mem _ hkv2)
    by_cases ht : k0.typeOf = EntryType.OFFER
    · by_cases hex : k0 ∈ excl
      · -- offer key already excluded: the step is a no-op
        have hstep : scopeBestStep b s (best, excl) (k0, v0) = (best, excl) := by
          rw [scopeBestStep, if_neg (not_not_intro ht), if_pos hex]
        have hrw : ((k0, v0) :: rest).foldl (scopeBestStep b s) (best, excl) =
            rest.foldl (scopeBestStep b s) (best, excl) := by
          rw [List.foldl_cons, hstep]
        obtain ⟨ih1, ih2, ih3, ih4⟩ := ih hwft excl best
        rw [hrw]
        refine ⟨fun k => ?_, fun e he => ?_, fun hn => ?_, fun e he => ?_⟩
        · rw [ih1 k]
          by_cases hk : k0 = k
          · rw [← hk]
            simp [hex]
          · rw [mapGet_cons_ne_none]
            constructor
            · rintro (h | ⟨h2, h3⟩)
              · exact Or.inl h
              · exact Or.inr ⟨h2, Or.inr h3⟩
            · rintro (h | ⟨h2, h3 | h3⟩)
              · exact Or.inl h
              · exact absurd h3 hk
              · exact Or.inr ⟨h2, h3⟩
        · rcases ih2 e he with h | h
          · exact Or.inl h
          · exact Or.inr ((lcand_cons_excluded k0 v0 rest b s excl hex e).mpr h)
        · obtain ⟨h1, h2⟩ := ih3 hn
          exact ⟨h1, fun o ho =>
            h2 o ((lcand_cons_excluded k0 v0 rest b s excl hex o).mp ho)⟩
        · obtain ⟨h1, h2⟩ := ih4 e he
          exact ⟨h1, fun o ho =>
            h2 o ((lcand_cons_excluded k0 v0 rest b s excl hex o).mp ho)⟩
      · -- offer key, fresh: it is inserted into the exclude set
        cases v0 with
        | none =>
          have hstep : scopeBestStep b s (best, excl) (k0, none) =
              (best, insert k0 excl) := by
            rw [scopeBestStep, if_neg (not_not_intro ht), if_neg hex]
          have hrw : ((k0, none) :: rest).foldl (scopeBestStep b s)
              (best, excl) =
              rest.foldl (scopeBestStep b s) (best, insert k0 excl) := by
            rw [List.foldl_cons, hstep]
          obtain ⟨ih1, ih2, ih3, ih4⟩ := ih hwft (insert k0 excl) best
          have hnocand : ∀ o, k0 = LedgerEntryKey o →
              (none : Option LedgerEntry) = some o →
              offerMatches o b s = true → False :=
            fun o _ hcon _ => Option.noConfusion hcon
          rw [hrw]
          refine ⟨fun k => ?_, fun e he => ?_, fun hn => ?_, fun e he => ?_⟩
          · rw [ih1 k]
            by_cases hk : k0 = k
            · rw [← hk]
              simp [ht]
              exact Or.inr (by rw [mapGet, if_pos rfl]; simp)
            · rw [mapGet_cons_ne_none]
              rw [Finset.mem_insert]
              constructor
              · rintro ((h | h) | ⟨h2, h3⟩)
                · exact absurd h.symm hk
                · exact Or.inl h
                · exact Or.inr ⟨h2, Or.inr h3⟩
              · rintro (h | ⟨h2, h3 | h3⟩)
                · exact Or.inl (Or.inr h)
                · exact absurd h3 hk
                · exact Or.inr ⟨h2, h3⟩
          · rcases ih2 e he with h | h
            · exact Or.inl h
            · exact Or.inr
                ((lcand_cons_insert k0 none rest b s excl hnocand e).mpr h)
          · obtain ⟨h1, h2⟩ := ih3 hn
            exact ⟨h1, fun o ho => h2 o
              ((lcand_cons_insert k0 none rest b s excl hnocand o).mp ho)⟩
          · obtain ⟨h1, h2⟩ := ih4 e he
            exact ⟨h1, fun o ho => h2 o
              ((lcand_cons_insert k0 none rest b s excl hnocand o).mp ho)⟩
        | some e2 =>
          have hk2 : LedgerEntryKey e2 = k0 := hwf0 e2 rfl
          by_cases hmch : offerMatches e2 b s = true
          · -- a live matching offer: it joins the running best
            obtain ⟨hce2, hciff⟩ :=
              lcand_cons_match k0 e2 rest b s excl ht hex hk2 hmch
            have hone : ∀ (best1 : Option LedgerEntry),
                scopeBestStep b s (best, excl) (k0, some e2) =
                  (best1, insert k0 excl) →
                ((∀ k, k ∈ (((k0, some e2) :: rest).foldl
                    (scopeBestStep b s) (best, excl)).2 ↔
                  (k ∈ excl ∨ (k.typeOf = EntryType.OFFER ∧
                    mapGet ((k0, some e2) :: rest) k ≠ none))) ∧
                 (((k0, some e2) :: rest).foldl (scopeBestStep b s)
                    (best, excl)) =
                  rest.foldl (scopeBestStep b s) (best1, insert k0 excl)) := by
              intro best1 hstep
              have hrw : (((k0, some e2) :: rest).foldl (scopeBestStep b s)
                  (best, excl)) =
                  rest.foldl (scopeBestStep b s) (best1, insert k0 excl) := by
                rw [List.foldl_cons, hstep]
              obtain ⟨ih1, _, _, _⟩ := ih hwft (insert k0 excl) best1
              refine ⟨fun k => ?_, hrw⟩
              rw [hrw, ih1 k]
              by_cases hk : k0 = k
              · rw [← hk]
                simp [ht]
                exact Or.inr (by rw [mapGet, if_pos rfl]; simp)
              · rw [mapGet_cons_ne_none]
                rw [Finset.mem_insert]
                constructor
                · rintro ((h | h) | ⟨h2, h3⟩)
                  · exact absurd h.symm hk
                  · exact Or.inl h
                  · exact Or.inr ⟨h2, Or.inr h3⟩
                · rintro (h | ⟨h2, h3 | h3⟩)
                  · exact Or.inl (Or.inr h)
                  · exact absurd h3 hk
                  · exact Or.inr ⟨h2, h3⟩
            cases best with
            | none =>
              have hstep : scopeBestStep b s (none, excl) (k0, some e2) =
                  (some e2, insert k0 excl) := by
                rw [scopeBestStep, if_neg (not_not_intro ht), if_neg hex]
                show (if offerMatches e2 b s then _ else _) = _
                rw [if_pos hmch]
              obtain ⟨h1all, hrw⟩ := hone (some e2) hstep
              obtain ⟨ih1, ih2, ih3, ih4⟩ := ih hwft (insert k0 excl) (some e2)
              refine ⟨h1all, fun e he => ?_, fun hn => ?_, fun e he => ?_⟩
              · rw [hrw] at he
                rcases ih2 e he with h | h
                · exact Or.inr ((Option.some.inj h) ▸ hce2)
                · exact Or.inr ((hciff e).mpr (Or.inr h))
              · rw [hrw] at hn
                exact absurd (ih3 hn).1 (by simp)
              · rw [hrw] at he
                obtain ⟨hb1, hrest⟩ := ih4 e he
                refine ⟨fun b0 hb0 => Option.noConfusion hb0, fun o ho => ?_⟩
                rcases (hciff o).mp ho with rfl | h
                · exact hb1 o rfl
                · exact hrest o h
            | some b0 =>
              cases hbb : isBetterOffer e2 b0 with
              | true =>
                have hstep : scopeBestStep b s (some b0, excl) (k0, some e2) =
                    (some e2, insert k0 excl) := by
                  rw [scopeBestStep, if_neg (not_not_intro ht), if_neg hex]
                  show (if offerMatches e2 b s then _ else _) = _
                  rw [if_pos hmch]
                  show (if isBetterOffer e2 b0 then _ else _) = _
                  rw [if_pos hbb]
                obtain ⟨h1all, hrw⟩ := hone (some e2) hstep
                obtain ⟨ih1, ih2, ih3, ih4⟩ :=
                  ih hwft (insert k0 excl) (some e2)
                refine ⟨h1all, fun e he => ?_, fun hn => ?_, fun e he => ?_⟩
                · rw [hrw] at he
                  rcases ih2 e he with h | h
                  · exact Or.inr ((Option.some.inj h) ▸ hce2)
                  · exact Or.inr ((hciff e).mpr (Or.inr h))
                · rw [hrw] at hn
                  exact absurd (ih3 hn).1 (by simp)
                · rw [hrw] at he
                  obtain ⟨hb1, hrest⟩ := ih4 e he
                  have he2e : isBetterOffer e2 e = false := hb1 e2 rfl
                  refine ⟨fun b2 hb2 => ?_, fun o ho => ?_⟩
                  · rw [← Option.some.inj hb2]
                    exact isBetterOffer_negtrans _ _ _
                      (isBetterOffer_asymm _ _ hbb) he2e
                  · rcases (hciff o).mp ho with rfl | h
                    · exact he2e
                    · exact hrest o h
              | false =>
                have hstep : scopeBestStep b s (some b0, excl) (k0, some e2) =
                    (some b0, insert k0 excl) := by
                  rw [scopeBestStep, if_neg (not_not_intro ht), if_neg hex]
                  show (if offerMatches e2 b s then _ else _) = _
                  rw [if_pos hmch]
                  show (if isBetterOffer e2 b0 then _ else _) = _
                  rw [if_neg (by rw [hbb]; simp)]
                obtain ⟨h1all, hrw⟩ := hone (some b0) hstep
                obtain ⟨ih1, ih2, ih3, ih4⟩ :=
                  ih hwft (insert k0 excl) (some b0)
                refine ⟨h1all, fun e he => ?_, fun hn => ?_, fun e he => ?_⟩
                · rw [hrw] at he
                  rcases ih2 e he with h | h
                  · exact Or.inl h
                  · exact Or.inr ((hciff e).mpr (Or.inr h))
                · rw [hrw] at hn
                  exact absurd (ih3 hn).1 (by simp)
                · rw [hrw] at he
                  obtain ⟨hb1, hrest⟩ := ih4 e he
                  have hb0e : isBetterOffer b0 e = false := hb1 b0 rfl
                  refine ⟨fun b2 hb2 => ?_, fun o ho => ?_⟩
                  · rw [← Option.some.inj hb2]
                    exact hb0e
                  · rcases (hciff o).mp ho with rfl | h
                    · exact isBetterOffer_negtrans _ _ _ hbb hb0e
                    · exact hrest o h
          · -- a live offer of another pair: only the exclude set grows
            have hstep : scopeBestStep b s (best, excl) (k0, some e2) =
                (best, insert k0 excl) := by
              rw [scopeBestStep, if_neg (not_not_intro ht), if_neg hex]
              show (if offerMatches e2 b s then _ else _) = _
              rw [if_neg hmch]
            have hrw : (((k0, some e2) :: rest).foldl (scopeBestStep b s)
                (best, excl)) =
                rest.foldl (scopeBestStep b s) (best, insert k0 excl) := by
              rw [List.foldl_cons, hstep]
            obtain ⟨ih1, ih2, ih3, ih4⟩ := ih hwft (insert k0 excl) best
            have hnocand : ∀ o, k0 = LedgerEntryKey o →
                (some e2 : Option LedgerEntry) = some o →
                offerMatches o b s = true → False := by
              intro o _ hcon hcon2
              rw [← Option.some.inj hcon] at hcon2
              exact hmch hcon2
            rw [hrw]
            refine ⟨fun k => ?_, fun e he => ?_, fun hn => ?_, fun e he => ?_⟩
            · rw [ih1 k]
              by_cases hk : k0 = k
              · rw [← hk]
                simp [ht]
                exact Or.inr (by rw [mapGet, if_pos rfl]; simp)
              · rw [mapGet_cons_ne_none]
                rw [Finset.mem_insert]
                constructor
                · rintro ((h | h) | ⟨h2, h3⟩)
                  · exact absurd h.symm hk
                  · exact Or.inl h
                  · exact Or.inr ⟨h2, Or.inr h3⟩
                · rintro (h | ⟨h2, h3 | h3⟩)
                  · exact Or.inl (Or.inr h)
                  · exact absurd h3 hk
                  · exact Or.inr ⟨h2, h3⟩
            · rcases ih2 e he with h | h
              · exact Or.inl h
              · exact Or.inr
                  ((lcand_cons_insert k0 (some e2) rest b s excl hnocand e).mpr h)
            · obtain ⟨h1, h2⟩ := ih3 hn
              exact ⟨h1, fun o ho => h2 o
                ((lcand_cons_insert k0 (some e2) rest b s excl hnocand o).mp ho)⟩
            · obtain ⟨h1, h2⟩ := ih4 e he
              exact ⟨h1, fun o ho => h2 o
                ((lcand_cons_insert k0 (some e2) rest b s excl hnocand o).mp ho)⟩
    · -- non-offer key: the step is a no-op
      have hstep : scopeBestStep b s (best, excl) (k0, v0) = (best, excl) := by
        rw [scopeBestStep, if_pos ht]
      have hrw : ((k0, v0) :: rest).foldl (scopeBestStep b s) (best, excl) =
          rest.foldl (scopeBestStep b s) (best, excl) := by
        rw [List.foldl_cons, hstep]
      obtain ⟨ih1, ih2, ih3, ih4⟩ := ih hwft excl best
      rw [hrw]
      refine ⟨fun k => ?_, fun e he => ?_, fun hn => ?_, fun e he => ?_⟩
      · rw [ih1 k]
        by_cases hk : k0 = k
        · rw [← hk]
          constructor
          · rintro (h | ⟨h2, h3⟩)
            · exact Or.inl h
            · exact absurd h2 ht
          · rintro (h | ⟨h2, h3⟩)
            · exact Or.inl h
            · exact absurd h2 ht
        · rw [mapGet_cons_ne_none]
          constructor
          · rintro (h | ⟨h2, h3⟩)
            · exact Or.inl h
            · exact Or.inr ⟨h2, Or.inr h3⟩
          · rintro (h | ⟨h2, h3 | h3⟩)
            · exact Or.inl h
            · exact absurd h3 hk
            · exact Or.inr ⟨h2, h3⟩
      · rcases ih2 e he with h | h
        · exact Or.inl h
        · exact Or.inr ((lcand_cons_not_offer k0 v0 rest b s excl ht e).mpr h)
      · obtain ⟨h1, h2⟩ := ih3 hn
        exact ⟨h1, fun o ho => h2 o
          ((lcand_cons_not_offer k0 v0 rest b s excl ht o).mp ho)⟩
      · obtain ⟨h1, h2⟩ := ih4 e he
        exact ⟨h1, fun o ho => h2 o
          ((lcand_cons_not_offer k0 v0 rest b s excl ht o).mp ho)⟩

theorem scopeLocalBest_spec (b s : Asset) (m : EntryMap)
    (excl : Finset LedgerKey)
    (hwf : ∀ kv ∈ m, ∀ e2, kv.2 = some e2 → LedgerEntryKey e2 = kv.1) :
    (∀ k, k ∈ (scopeLocalBest b s m excl).2 ↔
      (k ∈ excl ∨ (k.typeOf = EntryType.OFFER ∧ mapGet m k ≠ none))) ∧
    (∀ e, (scopeLocalBest b s m excl).1 = some e →
      LocalOfferCandidate m b s excl e ∧
      ∀ o, LocalOfferCandidate m b s excl o → isBetterOffer o e = false) ∧
    ((scopeLocalBest b s m excl).1 = none →
      ∀ o, ¬ LocalOfferCandidate m b s excl o) := by
  obtain ⟨h1, h2, h3, h4⟩ := scopeBest_fold b s m hwf excl none
  refine ⟨h1, fun e he => ⟨?_, (h4 e he).2⟩, fun hn => (h3 hn).2⟩
  rcases h2 e he with h | h
  · exact Option.noConfusion h
  · exact h


/-! ## Stack-level candidate decomposition and the C3 theorem -/

theorem vcand_cons (sorted : List LedgerEntry) (m : EntryMap)
    (scopes : List EntryMap) (b s : Asset) (excl excl2 : Finset LedgerKey)
    (hexcl2 : ∀ k, k ∈ excl2 ↔
      (k ∈ excl ∨ (k.typeOf = EntryType.OFFER ∧ mapGet m k ≠ none)))
    (o : LedgerEntry) :
    VisibleOfferCandidate sorted (m :: scopes) b s excl o ↔
      (LocalOfferCandidate m b s excl o ∨
        VisibleOfferCandidate sorted scopes b s excl2 o) := by
  constructor
  · rintro ⟨hnv, h2, h3, h4⟩
    rw [stackNewest] at hnv
    cases hm : mapGet m (LedgerEntryKey o) with
    | some v =>
      rw [hm] at hnv
      have hv : v = some o := hnv
      rw [hv] at hm
      exact Or.inl ⟨hm, h2, h3, h4⟩
    | none =>
      rw [hm] at hnv
      have hv : stackNewest (rootView sorted) scopes (LedgerEntryKey o) =
          some o := hnv
      refine Or.inr ⟨hv, h2, h3, ?_⟩
      rw [hexcl2]
      rintro (h | ⟨h5, h6⟩)
      · exact h4 h
      · exact h6 hm
  · rintro (⟨hm, h2, h3, h4⟩ | ⟨hnv, h2, h3, h4⟩)
    · refine ⟨?_, h2, h3, h4⟩
      rw [stackNewest, hm]
    · have hm : mapGet m (LedgerEntryKey o) = none := by
        cases hm2 : mapGet m (LedgerEntryKey o) with
        | none => rfl
        | some v =>
          exact absurd ((hexcl2 (LedgerEntryKey o)).mpr
            (Or.inr ⟨h3, by rw [hm2]; simp⟩)) h4
      refine ⟨?_, h2, h3, fun hcon =>
        h4 ((hexcl2 (LedgerEntryKey o)).mpr (Or.inl hcon))⟩
      rw [stackNewest, hm]
      exact hnv

theorem root_candidates (sorted : List LedgerEntry) (b s : Asset)
    (excl : Finset LedgerKey)
    (hmtch : ∀ o ∈ sorted, offerMatches o b s = true ∧
      (LedgerEntryKey o).typeOf = EntryType.OFFER)
    (hnd : (sorted.map LedgerEntryKey).Nodup)
    (hpw : sorted.Pairwise (fun x y => isBetterOffer y x = false)) :
    (∀ e, sorted.find? (fun o => decide (LedgerEntryKey o ∉ excl)) = some e →
      VisibleOfferCandidate sorted [] b s excl e ∧
      ∀ o, VisibleOfferCandidate sorted [] b s excl o →
        isBetterOffer o e = false) ∧
    (sorted.find? (fun o => decide (LedgerEntryKey o ∉ excl)) = none →
      ∀ o, ¬ VisibleOfferCandidate sorted [] b s excl o) := by
  constructor
  · intro e he
    have hmem : e ∈ sorted := List.mem_of_find?_eq_some he
    have hexcl : LedgerEntryKey e ∉ excl := by
      have := List.find?_some he
      simpa using this
    constructor
    · exact ⟨rootView_eq_of_nodup sorted hnd e hmem, (hmtch e hmem).1,
        (hmtch e hmem).2, hexcl⟩
    · rintro o ⟨hv, _, _, h4⟩
      have hvo : rootView sorted (LedgerEntryKey o) = some o := hv
      have homem : o ∈ sorted := (rootView_some sorted _ o hvo).1
      exact find_min_of_pairwise _ sorted hpw e he o homem (by simpa using h4)
  · rintro hn o ⟨hv, _, _, h4⟩
    have hvo : rootView sorted (LedgerEntryKey o) = some o := hv
    have homem : o ∈ sorted := (rootView_some sorted _ o hvo).1
    have := List.find?_eq_none.mp hn o homem
    simp at this
    exact h4 this

theorem stackGetBestOffer_cons (sorted cached : List LedgerEntry)
    (allLoaded : Bool) (b s : Asset) (m : EntryMap) (rest : List EntryMap)
    (excl : Finset LedgerKey) :
    stackGetBestOffer sorted cached allLoaded b s (m :: rest) excl =
      match (scopeLocalBest b s m excl).1,
        stackGetBestOffer sorted cached allLoaded b s rest
          (scopeLocalBest b s m excl).2 with
      | some bo, some pb => if isBetterOffer bo pb then some bo else some pb
      | some bo, none => some bo
      | none, pb => pb := rfl

/-- C3 (amended): through any scope stack over the root, with a coherent
best-offers cache (the cached list is a prefix of the pair's full best-offer
ordering, complete when `allLoaded`), `getBestOffer` returns an offer of the
pair visible through the stack and not excluded such that no other such
offer is strictly better under the `isBetterOffer` comparison — the order
the code actually uses, with prices compared as rounded `double` quotients
(see C1) — and returns `none` exactly when no such offer exists.  Offers
shadowed by a scope are never surfaced stale because the local pass inserts
every visited offer key into the exclude set before delegating. -/
theorem getBestOffer_stack_minimal (sorted cached : List LedgerEntry)
    (allLoaded : Bool) (b s : Asset) :
    ∀ (scopes : List EntryMap) (excl : Finset LedgerKey),
      (∀ m ∈ scopes, ∀ kv ∈ m, ∀ e2, kv.2 = some e2 →
        LedgerEntryKey e2 = kv.1) →
      (∀ o ∈ sorted, offerMatches o b s = true ∧
        (LedgerEntryKey o).typeOf = EntryType.OFFER) →
      ((sorted.map LedgerEntryKey).Nodup) →
      (sorted.Pairwise (fun x y => isBetterOffer y x = false)) →
      (cached = sorted.take cached.length) →
      (allLoaded = true → sorted.length ≤ cached.length) →
      (∀ e, stackGetBestOffer sorted cached allLoaded b s scopes excl =
          some e →
        VisibleOfferCandidate sorted scopes b s excl e ∧
        ∀ o, VisibleOfferCandidate sorted scopes b s excl o →
          isBetterOffer o e = false) ∧
      (stackGetBestOffer sorted cached allLoaded b s scopes excl = none →
        ∀ o, ¬ VisibleOfferCandidate sorted scopes b s excl o) := by
  intro scopes
  induction scopes with
  | nil =>
    intro excl hwf hmtch hnd hpw hcoh hall
    have hroot : stackGetBestOffer sorted cached allLoaded b s [] excl =
        sorted.find? (fun o => decide (LedgerEntryKey o ∉ excl)) := by
      show rootGetBestOffer sorted cached allLoaded excl = _
      exact rootGetBestOffer_eq_find sorted cached allLoaded excl hcoh hall
    rw [hroot]
    exact root_candidates sorted b s excl hmtch hnd hpw
  | cons m rest ihs =>
    intro excl hwf hmtch hnd hpw hcoh hall
    have hwfm := hwf m (List.mem_cons_self m rest)
    have hwft : ∀ m2 ∈ rest, ∀ kv ∈ m2, ∀ e2, kv.2 = some e2 →
        LedgerEntryKey e2 = kv.1 :=
      fun m2 hm2 => hwf m2 (List.mem_cons_of_mem m hm2)
    obtain ⟨hl1, hl2, hl3⟩ := scopeLocalBest_spec b s m excl hwfm
    obtain ⟨ihsome, ihnone⟩ := ihs (scopeLocalBest b s m excl).2 hwft hmtch
      hnd hpw hcoh hall
    have hciff := fun o => vcand_cons sorted m rest b s excl
      (scopeLocalBest b s m excl).2 hl1 o
    cases hloc : (scopeLocalBest b s m excl).1 with
    | none =>
      have hres : stackGetBestOffer sorted cached allLoaded b s (m :: rest)
          excl = stackGetBestOffer sorted cached allLoaded b s rest
          (scopeLocalBest b s m excl).2 := by
        rw [stackGetBestOffer_cons, hloc]
      rw [hres]
      refine ⟨fun e he => ?_, fun hn o hcand => ?_⟩
      · obtain ⟨hc, hmin⟩ := ihsome e he
        refine ⟨(hciff e).mpr (Or.inr hc), fun o ho => ?_⟩
        rcases (hciff o).mp ho with h | h
        · exact absurd h (hl3 hloc o)
        · exact hmin o h
      · rcases (hciff o).mp hcand with h | h
        · exact absurd h (hl3 hloc o)
        · exact ihnone hn o h
    | some bo =>
      obtain ⟨hcbo, hminbo⟩ := hl2 bo hloc
      cases hpar : stackGetBestOffer sorted cached allLoaded b s rest
          (scopeLocalBest b s m excl).2 with
      | none =>
        have hres : stackGetBestOffer sorted cached allLoaded b s (m :: rest)
            excl = some bo := by
          rw [stackGetBestOffer_cons, hloc, hpar]
        rw [hres]
        refine ⟨fun e he => ?_, fun hn => Option.noConfusion hn⟩
        have hbe : bo = e := Option.some.inj he
        subst hbe
        refine ⟨(hciff bo).mpr (Or.inl hcbo), fun o ho => ?_⟩
        rcases (hciff o).mp ho with h | h
        · exact hminbo o h
        · exact absurd h (ihnone hpar o)
      | some pb =>
        obtain ⟨hcpb, hminpb⟩ := ihsome pb hpar
        have hres : stackGetBestOffer sorted cached allLoaded b s (m :: rest)
            excl = if isBetterOffer bo pb then some bo else some pb := by
          rw [stackGetBestOffer_cons, hloc, hpar]
        cases hbb : isBetterOffer bo pb with
        | true =>
          rw [hbb] at hres
          rw [if_pos rfl] at hres
          rw [hres]
          refine ⟨fun e he => ?_, fun hn => Option.noConfusion hn⟩
          have hbe : bo = e := Option.some.inj he
          subst hbe
          refine ⟨(hciff bo).mpr (Or.inl hcbo), fun o ho => ?_⟩
          rcases (hciff o).mp ho with h | h
          · exact hminbo o h
          · exact isBetterOffer_negtrans o pb bo (hminpb o h)
              (isBetterOffer_asymm bo pb hbb)
        | false =>
          rw [hbb] at hres
          rw [if_neg (by simp)] at hres
          rw [hres]
          refine ⟨fun e he => ?_, fun hn => Option.noConfusion hn⟩
          have hbe : pb = e := Option.some.inj he
          subst hbe
          refine ⟨(hciff pb).mpr (Or.inr hcpb), fun o ho => ?_⟩
          rcases (hciff o).mp ho with h | h
          · exact isBetterOffer_negtrans o bo pb (hminbo o h) hbb
          · exact hminpb o h


/-- C3 witness: one scope holding offer `sampleOfferB` (price 1/2) over a
root whose offers table holds `sampleOfferA` (price 1/3): the stack search
returns the root's offer, which is a visible candidate no other candidate
beats. -/
theorem getBestOffer_stack_minimal_witness :
    stackGetBestOffer [sampleOfferA] [] false 7 8
      [[(LedgerEntryKey sampleOfferB, some sampleOfferB)]] ∅ =
      some sampleOfferA ∧
    VisibleOfferCandidate [sampleOfferA]
      [[(LedgerEntryKey sampleOfferB, some sampleOfferB)]] 7 8 ∅
      sampleOfferA ∧
    (∀ o, VisibleOfferCandidate [sampleOfferA]
      [[(LedgerEntryKey sampleOfferB, some sampleOfferB)]] 7 8 ∅ o →
      isBetterOffer o sampleOfferA = false) := by
  have h := getBestOffer_stack_minimal [sampleOfferA] [] false 7 8
    [[(LedgerEntryKey sampleOfferB, some sampleOfferB)]] ∅
    (by
      intro m hm kv hkv e2 he2
      rw [List.mem_singleton] at hm
      subst hm
      rw [List.mem_singleton] at hkv
      subst hkv
      have h3 : sampleOfferB = e2 := Option.some.inj he2
      rw [← h3])
    (by decide) (by decide) (by simp) rfl (by simp)
  have hdec : stackGetBestOffer [sampleOfferA] [] false 7 8
      [[(LedgerEntryKey sampleOfferB, some sampleOfferB)]] ∅ =
      some sampleOfferA := by decide
  exact ⟨hdec, (h.1 sampleOfferA hdec).1, (h.1 sampleOfferA hdec).2⟩

/-- C3 counterexample to the claim as stated: over a scope holding the two
collision offers (distinct exact price ratios rounding to the same
`double`), `getBestOffer` returns `collisionOfferA`, yet `collisionOfferB`
is a visible, non-excluded offer of the pair that is strictly better under
the exact 64-bit cross comparison of the ratios — the "(price-ratio,
offer-id) order" of the claim — so the returned offer is not the minimum
under that order. -/
theorem getBestOffer_not_exact_minimum :
    stackGetBestOffer [] [] true 7 8
      [[(LedgerEntryKey collisionOfferA, some collisionOfferA),
        (LedgerEntryKey collisionOfferB, some collisionOfferB)]] ∅ =
      some collisionOfferA ∧
    VisibleOfferCandidate []
      [[(LedgerEntryKey collisionOfferA, some collisionOfferA),
        (LedgerEntryKey collisionOfferB, some collisionOfferB)]] 7 8 ∅
      collisionOfferB ∧
    crossBetter collisionOfferB collisionOfferA = true := by
  refine ⟨by decide, ⟨by decide, by decide, by decide, by decide⟩, by decide⟩

end Stellar
